import Mathlib

/-! # sm64tools `mipsdisasm.c`: label discovery, pseudo-instruction pairing, emission

A shallow embedding of the two-pass MIPS disassembler core of `mipsdisasm.c`
(`label_find`, `label_add`, `cmp_label`, `link_with_lui`, `disassemble_block`,
`mipsdisasm_pass1`, `mipsdisasm_pass2`) together with theorems about it.

Conventions of the embedding:

* `unsigned int` values are `Nat`, reduced modulo `2^32` where the C arithmetic wraps;
  `int`, `char` and `int64_t` values are `Int`.
* C arrays are lists.  `label_count` is the length of `labels`, `instruction_count`
  the length of `instructions`.
* The instruction decoder (capstone) and the C library are external: what the code
  takes from them is collected in the structure `Env`.
* `FILE *out` is the text written so far.  Reading `labels[-1]` is undefined
  behaviour in C; the emitter returns `none` there.
-/

namespace Mipsdisasm

/-! ## Data model -/

/-- The type `asm_syntax` of `mipsdisasm.h`. -/
inductive asm_syntax where
  | ASM_GAS
  | ASM_ARMIPS
  deriving DecidableEq, Repr

/-- The struct `asm_label`: `char name[59]; char global; unsigned int vaddr`. -/
structure asm_label where
  name : String
  global : Int
  vaddr : Nat
  deriving DecidableEq, Repr

/-- The struct `disasm_extra`.  The union of `linked_value` and `linked_float` is
kept as its 32 bits. -/
structure disasm_extra where
  linked_insn : Int
  linked_value : Nat
  newline : Int
  deriving DecidableEq, Repr

/-- The instruction ids (capstone `mips_insn`) that the code names; every other id
is `other n`. -/
inductive mips_insn where
  | LUI | LW | LD | ADDIU | ADD | SUB | SUBU | JR | JALR | JAL | BAL | MTC1
  | SD | SW | SH | SB | LB | LBU | LDL | LDR | LH | LHU | LWU | ORI | LI
  | MTC0 | MFC0
  | other (n : Nat)
  deriving DecidableEq, Repr

/-- The operand type tag (capstone `mips_op_type`). -/
inductive mips_op_type where
  | MIPS_OP_INVALID
  | MIPS_OP_REG
  | MIPS_OP_IMM
  | MIPS_OP_MEM
  deriving DecidableEq, Repr

/-- The operand record (capstone `cs_mips_op`).  In C it is a type tag and a union of
`reg`, `imm` and `mem`; the code reads union members without looking at the tag, so
every member is a field of its own here (this covers every value of the union). -/
structure cs_mips_op where
  type : mips_op_type
  reg : Nat
  imm : Int
  mem_base : Nat
  mem_disp : Int
  deriving DecidableEq, Repr

/-- The instruction record (capstone `cs_insn`) as far as the code reads or writes
it: `operands` is `detail->mips.operands[0..op_count)`, `grp_jump` is the answer of
`cs_insn_group(handle, insn, MIPS_GRP_JUMP)`. -/
structure cs_insn where
  id : mips_insn
  mnemonic : String
  op_str : String
  bytes : List Nat
  operands : List cs_mips_op
  grp_jump : Bool
  deriving DecidableEq, Repr

/-- The struct `disasm_state` (the decoder handle is left out). -/
structure disasm_state where
  labels : List asm_label
  label_alloc : Nat
  instructions : List cs_insn
  insn_extra : List disasm_extra
  vaddr : Nat
  syntax_ : asm_syntax
  deriving DecidableEq, Repr

/-- What the code takes from capstone and from the C library: the decoder
`cs_disasm` (bytes and base address to instruction records), `cs_reg_name`, the
register ids `MIPS_REG_ZERO` and `MIPS_REG_RA`, and the text `printf` writes for
`%f` given the 32 bits of a float. -/
structure Env where
  cs_disasm : List Nat → Nat → List cs_insn
  cs_reg_name : Nat → String
  MIPS_REG_ZERO : Nat
  MIPS_REG_RA : Nat
  fmt_float : Nat → String

/-- A zeroed operand slot: operand slots at and after `op_count` are zero. -/
def zero_op : cs_mips_op :=
  { type := .MIPS_OP_INVALID, reg := 0, imm := 0, mem_base := 0, mem_disp := 0 }

/-- A zeroed instruction record. -/
def zero_insn : cs_insn :=
  { id := .other 0, mnemonic := "", op_str := "", bytes := [], operands := [],
    grp_jump := false }

/-- A zeroed `disasm_extra`, as `calloc` returns it. -/
def zero_extra : disasm_extra :=
  { linked_insn := 0, linked_value := 0, newline := 0 }

/-- A zeroed label. -/
def zero_label : asm_label :=
  { name := "", global := 0, vaddr := 0 }

/-- The expression `insn->detail->mips.operands[k]`. -/
def operand (insn : cs_insn) (k : Nat) : cs_mips_op :=
  insn.operands.getD k zero_op

/-- The expression `state->instructions[i]`. -/
def insn_at (state : disasm_state) (i : Nat) : cs_insn :=
  state.instructions.getD i zero_insn

/-- The expression `state->insn_extra[i]`. -/
def extra_at (state : disasm_state) (i : Nat) : disasm_extra :=
  state.insn_extra.getD i zero_extra

/-- The expression `state->instruction_count`. -/
def instruction_count (state : disasm_state) : Nat :=
  state.instructions.length

/-- A write to fields of `state->insn_extra[i]`. -/
def upd_extra (state : disasm_state) (i : Nat) (f : disasm_extra → disasm_extra) :
    disasm_state :=
  { state with insn_extra := state.insn_extra.set i (f (extra_at state i)) }

/-- A write to fields of `state->instructions[i]`. -/
def upd_insn (state : disasm_state) (i : Nat) (f : cs_insn → cs_insn) : disasm_state :=
  { state with instructions := state.instructions.set i (f (insn_at state i)) }

/-- The cast `(unsigned int)x` of a signed integer. -/
def to_u32 (x : Int) : Nat :=
  (x % 4294967296).toNat

/-! ## Text formatting (`printf` conversions the code uses) -/

/-- One upper-case hexadecimal digit. -/
def hex_digit (d : Nat) : Char :=
  ['0', '1', '2', '3', '4', '5', '6', '7', '8', '9', 'A', 'B', 'C', 'D', 'E', 'F'].getD d '0'

/-- The `w` low hexadecimal digits of `n`, most significant first. -/
def hex_fixed : Nat → Nat → List Char
  | 0, _ => []
  | w + 1, n => hex_digit (n / 16 ^ w % 16) :: hex_fixed w n

/-- The conversion `%08X` of an `unsigned int`. -/
def fmt_08X (n : Nat) : String :=
  String.mk (hex_fixed 8 (n % 4294967296))

/-- The conversion `%02X` of a byte. -/
def fmt_02X (b : Nat) : String :=
  String.mk (hex_fixed 2 (b % 256))

/-- The conversion `%04X` of an `unsigned int`: at least four digits. -/
def fmt_04X (n : Nat) : String :=
  if n % 4294967296 < 65536 then String.mk (hex_fixed 4 (n % 4294967296))
  else String.mk ((hex_fixed 8 (n % 4294967296)).dropWhile (fun c => c == '0'))

/-- The conversion `%-5s`: left-justified in a field of width 5. -/
def fmt_pad5 (s : String) : String :=
  s ++ String.mk (List.replicate (5 - s.length) ' ')

/-- The conversions `%ld` and `%d`. -/
def fmt_d (x : Int) : String :=
  toString x

/-! ## Label table -/

/-- The loop of `label_find`, on the labels from index `i` on. -/
def label_find_from : List asm_label → Nat → Nat → Int
  | [], _, _ => -1
  | l :: rest, vaddr, i => if l.vaddr = vaddr then (i : Int) else label_find_from rest vaddr (i + 1)

/-- The function `label_find`: index of the first label at `vaddr`, or -1. -/
def label_find (state : disasm_state) (vaddr : Nat) : Int :=
  label_find_from state.labels vaddr 0

/-- The function `label_add`: appends, doubling the capacity when it is used up. -/
def label_add (state : disasm_state) (name : String) (vaddr : Nat) (global : Int) :
    disasm_state :=
  { state with
    label_alloc :=
      if state.labels.length ≥ state.label_alloc then state.label_alloc * 2
      else state.label_alloc
    labels := state.labels ++ [{ name := name, global := global, vaddr := vaddr }] }

/-- The library function `strcmp` on the characters of two names, as the sign of its
result (byte order of UTF-8 text is code point order). -/
def strcmp : List Char → List Char → Int
  | [], [] => 0
  | [], _ :: _ => -1
  | _ :: _, [] => 1
  | a :: as, b :: bs =>
    if a.toNat < b.toNat then -1
    else if b.toNat < a.toNat then 1
    else strcmp as bs

/-- The comparator `cmp_label`. -/
def cmp_label (ala alb : asm_label) : Int :=
  if ala.vaddr > alb.vaddr then 1
  else if alb.vaddr > ala.vaddr then -1
  else if ala.global > alb.global then 1
  else if alb.global > ala.global then -1
  else strcmp ala.name.data alb.name.data

/-- The order `qsort` sorts by: `cmp_label a b <= 0`. -/
def label_le (a b : asm_label) : Prop :=
  cmp_label a b ≤ 0

instance : DecidableRel label_le := fun a b => by
  unfold label_le
  exact inferInstance

/-- The library call `qsort(labels, label_count, sizeof(labels[0]), cmp_label)`: the
labels in non-decreasing `cmp_label` order (by insertion; `qsort_unique` below shows
that every sorting procedure returns this list). -/
def qsort_labels (labels : List asm_label) : List asm_label :=
  labels.insertionSort label_le

/-! ## `link_with_lui` -/

/-- The constant `MAX_LOOKBACK`. -/
def MAX_LOOKBACK : Int := 128

/-- The macro `MAX` of `utils.h`. -/
def MAX (a b : Int) : Int :=
  if a > b then a else b

/-- The body of the `if (reg == rd)` of a matching `lui` at `search`: cross-link
`search` and `offset` and, unless the instruction at `offset` is `ori`, create the
global data label when none exists at the address. -/
def link_pair (state : disasm_state) (offset search : Nat) (mem_imm : Nat) : disasm_state :=
  let lui_imm := to_u32 (operand (insn_at state search) 1).imm
  let addr := ((lui_imm * 65536) % 4294967296 + mem_imm) % 4294967296
  let s1 := upd_extra state search
    (fun e => { e with linked_insn := (offset : Int), linked_value := addr })
  let s2 := upd_extra s1 offset
    (fun e => { e with linked_insn := (search : Int), linked_value := addr })
  if (insn_at s2 offset).id ≠ .ORI then
    let label := label_find s2 addr
    if label < 0 then label_add s2 ("D_" ++ fmt_08X addr) addr 1 else s2
  else s2

/-- The `for (search = offset - 1; search >= end_search; search--)` loop of
`link_with_lui`; the last argument is `search + 1`. -/
def link_scan (env : Env) (state : disasm_state) (offset : Nat) (reg mem_imm : Nat)
    (end_search : Int) : Nat → disasm_state
  | 0 => state
  | search + 1 =>
    if (search : Int) ≥ end_search then
      let insn := insn_at state search
      if insn.id = .LUI then
        let rd := (operand insn 0).reg
        if reg = rd then link_pair state offset search mem_imm
        else link_scan env state offset reg mem_imm end_search search
      else if insn.id = .LW ∨ insn.id = .LD ∨ insn.id = .ADDIU ∨ insn.id = .ADD ∨
          insn.id = .SUB ∨ insn.id = .SUBU then
        let rd := (operand insn 0).reg
        if reg = rd then state
        else link_scan env state offset reg mem_imm end_search search
      else if insn.id = .JR ∧ (operand insn 0).reg = env.MIPS_REG_RA then state
      else link_scan env state offset reg mem_imm end_search search
    else state

/-- The function `link_with_lui`. -/
def link_with_lui (env : Env) (state : disasm_state) (offset : Nat) (reg mem_imm : Nat) :
    disasm_state :=
  if mem_imm ≠ 0 then
    let end_search := MAX 0 ((offset : Int) - MAX_LOOKBACK)
    link_scan env state offset reg mem_imm end_search offset
  else state

/-! ## `disassemble_block` and `mipsdisasm_pass1` -/

/-- The body of the loop over the operands of a branch or jump: a local label for an
immediate operand when none exists at its address. -/
def branch_label (state : disasm_state) (op : cs_mips_op) : disasm_state :=
  if op.type = .MIPS_OP_IMM then
    let branch_target := to_u32 op.imm
    let label := label_find state branch_target
    if label < 0 then
      label_add state
        (match state.syntax_ with
          | .ASM_GAS => ".L" ++ fmt_08X branch_target
          | .ASM_ARMIPS => "@L" ++ fmt_08X branch_target)
        branch_target 0
    else state
  else state

/-- The first `if`/`else if` of the loop body of `disassemble_block`: labels of
control transfers and the newline hint, for the instruction at index `i`. -/
def label_step (env : Env) (state : disasm_state) (i : Nat) : disasm_state :=
  let insn := insn_at state i
  if insn.grp_jump then
    if insn.id = .JR ∨ insn.id = .JALR then
      if (operand insn 0).reg = env.MIPS_REG_RA ∧ i + 2 < instruction_count state then
        upd_extra state (i + 2) (fun e => { e with newline := 1 })
      else state
    else insn.operands.foldl branch_label state
  else if insn.id = .JAL ∨ insn.id = .BAL then
    let jal_target := to_u32 (operand insn 0).imm
    if label_find state jal_target < 0 then
      label_add state ("func_" ++ fmt_08X jal_target) jal_target 1
    else state
  else state

/-- The `for (s = i - 1; s >= 0; s--)` loop of the `MIPS_INS_MTC1` case; the last
argument is `s + 1`. -/
def mtc1_scan (env : Env) (state : disasm_state) (i : Nat) (rt : Nat) : Nat → disasm_state
  | 0 => state
  | s + 1 =>
    let insn := insn_at state s
    if insn.id = .LUI ∧ (operand insn 0).reg = rt then
      let lui_imm := (to_u32 (operand insn 1).imm * 65536) % 4294967296
      let s1 := upd_extra state s
        (fun e => { e with linked_insn := (i : Int), linked_value := lui_imm })
      upd_insn s1 s (fun r => { r with id := .LI, mnemonic := "li" })
    else if insn.id = .LW ∨ insn.id = .LD ∨ insn.id = .LH ∨ insn.id = .LHU ∨
        insn.id = .LB ∨ insn.id = .LBU ∨ insn.id = .ADDIU ∨ insn.id = .ADD ∨
        insn.id = .SUB ∨ insn.id = .SUBU then
      let rd := (operand insn 0).reg
      if rt = rd then state else mtc1_scan env state i rt s
    else if insn.id = .JR ∧ (operand insn 0).reg = env.MIPS_REG_RA then state
    else mtc1_scan env state i rt s

/-- The `switch (insn[i].id)` under `if (merge_pseudo)`. -/
def pseudo_step (env : Env) (state : disasm_state) (i : Nat) : disasm_state :=
  let insn := insn_at state i
  match insn.id with
  | .MTC1 =>
    let rt := (operand insn 0).reg
    mtc1_scan env state i rt i
  | .SD | .SW | .SH | .SB | .LB | .LBU | .LD | .LDL | .LDR | .LH | .LHU | .LW | .LWU =>
    let mem_rs := (operand insn 1).mem_base
    let mem_imm := to_u32 (operand insn 1).mem_disp
    link_with_lui env state i mem_rs mem_imm
  | .ADDIU | .ORI =>
    let rd := (operand insn 0).reg
    let rs := (operand insn 1).reg
    let imm := (operand insn 2).imm
    if rs = env.MIPS_REG_ZERO then
      upd_insn state i (fun r =>
        { r with id := .LI, mnemonic := "li",
                 op_str := "$" ++ env.cs_reg_name rd ++ ", " ++ fmt_d imm })
    else if rd = rs then link_with_lui env state i rs (to_u32 imm)
    else state
  | _ => state

/-- The body of the `for (i = 0; i < count; i++)` loop of `disassemble_block`. -/
def insn_step (env : Env) (merge_pseudo : Bool) (state : disasm_state) (i : Nat) :
    disasm_state :=
  let s1 := upd_extra state i (fun e => { e with linked_insn := -1 })
  let s2 := label_step env s1 i
  if merge_pseudo then pseudo_step env s2 i else s2

/-- The state `disassemble_block` starts its loop from: the decoded stream, the base
address and zeroed extras are stored. -/
def block_init (insn : List cs_insn) (vaddr : Nat) (state : disasm_state) : disasm_state :=
  { state with
    instructions := insn
    vaddr := vaddr
    insn_extra := List.replicate insn.length zero_extra }

/-- The state after the first `n` iterations of the loop of `disassemble_block`. -/
def block_upto (env : Env) (merge_pseudo : Bool) (insn : List cs_insn) (vaddr : Nat)
    (state : disasm_state) (n : Nat) : disasm_state :=
  (List.range n).foldl (insn_step env merge_pseudo) (block_init insn vaddr state)

/-- The function `disassemble_block`. -/
def disassemble_block (env : Env) (data : List Nat) (vaddr : Nat) (state : disasm_state)
    (merge_pseudo : Bool) : disasm_state :=
  let insn := env.cs_disasm data vaddr
  let count := insn.length
  if count > 0 then block_upto env merge_pseudo insn vaddr state count
  else state

/-- The function `disasm_state_alloc` (fields it leaves uninitialised are zero). -/
def disasm_state_alloc : disasm_state :=
  { labels := [], label_alloc := 1024, instructions := [], insn_extra := [], vaddr := 0,
    syntax_ := .ASM_GAS }

/-- The function `mipsdisasm_pass1`; `none` is the `NULL` state. -/
def mipsdisasm_pass1 (env : Env) (data : List Nat) (vaddr : Nat) (syntax_ : asm_syntax)
    (merge_pseudo : Bool) (state : Option disasm_state) : disasm_state :=
  let state := match state with
    | none => disasm_state_alloc
    | some s => s
  let state := { state with syntax_ := syntax_ }
  let state := disassemble_block env data vaddr state merge_pseudo
  { state with labels := qsort_labels state.labels }

/-! ## `mipsdisasm_pass2` -/

/-- The expression `state->labels[label].name`; `none` when `label` is not an index
of the table (the C code reads outside the array). -/
def label_name (state : disasm_state) (label : Int) : Option String :=
  if label < 0 then none else (state.labels.get? label.toNat).map (fun l => l.name)

/-- The loop `while (label_idx < label_count && vaddr > labels[label_idx].vaddr)
label_idx++`; the list is `labels[label_idx..]`, the result the labels left. -/
def skip_labels (vaddr : Nat) : List asm_label → List asm_label
  | [] => []
  | l :: rest => if vaddr > l.vaddr then skip_labels vaddr rest else l :: rest

/-- The loop `while (label_idx < label_count && vaddr == labels[label_idx].vaddr)`
that writes `"%s:\n"` for each label at `vaddr`; the list is `labels[label_idx..]`,
the result the text written so far and the labels left. -/
def emit_labels (vaddr : Nat) : List asm_label → String → String × List asm_label
  | [], out => (out, [])
  | l :: rest, out =>
    if vaddr = l.vaddr then emit_labels vaddr rest (out ++ l.name ++ ":\n")
    else (out, l :: rest)

/-- The loop over the operands of a control transfer; `o` is the operand index. -/
def emit_jump_operands (env : Env) (state : disasm_state) :
    List cs_mips_op → Nat → String → Option String
  | [], _, out => some out
  | op :: rest, o, out =>
    let out := if o > 0 then out ++ ", " else out
    match op.type with
    | .MIPS_OP_REG =>
      emit_jump_operands env state rest (o + 1) (out ++ "$" ++ env.cs_reg_name op.reg)
    | .MIPS_OP_IMM =>
      let branch_target := to_u32 op.imm
      let label := label_find state branch_target
      match label_name state label with
      | none => none
      | some nm => emit_jump_operands env state rest (o + 1) (out ++ nm)
    | _ => emit_jump_operands env state rest (o + 1) out

/-- The branch `if (linked_insn >= 0)` of the emitter, for instruction `i`. -/
def emit_linked (env : Env) (state : disasm_state) (i : Nat) (insn : cs_insn)
    (linked_insn : Int) (out : String) : Option String :=
  let reg0 := env.cs_reg_name (operand insn 0).reg
  let extra := extra_at state i
  if insn.id = .LI then
    match state.syntax_ with
    | .ASM_GAS =>
      some (out ++ fmt_pad5 insn.mnemonic ++ " $" ++ reg0 ++ ", 0x" ++
        fmt_04X (to_u32 (operand insn 1).imm) ++ "0000 # " ++
        env.fmt_float extra.linked_value ++ "\n")
    | .ASM_ARMIPS =>
      some (out ++ fmt_pad5 insn.mnemonic ++ " $" ++ reg0 ++ ", 0x" ++
        fmt_04X (to_u32 (operand insn 1).imm) ++ "0000 // " ++
        env.fmt_float extra.linked_value ++ "\n")
  else if insn.id = .LUI then
    let label := label_find state extra.linked_value
    match state.syntax_ with
    | .ASM_GAS =>
      (label_name state label).map (fun nm =>
        out ++ fmt_pad5 insn.mnemonic ++ " $" ++ reg0 ++ ", %hi(" ++ nm ++ ")\n")
    | .ASM_ARMIPS =>
      match (insn_at state linked_insn.toNat).id with
      | .ADDIU =>
        (label_name state label).map (fun nm =>
          out ++ fmt_pad5 "la.u" ++ " $" ++ reg0 ++ ", " ++ nm ++ " // " ++
            insn.mnemonic ++ " " ++ insn.op_str ++ "\n")
      | .ORI =>
        some (out ++ fmt_pad5 "li.u" ++ " $" ++ reg0 ++ ", 0x" ++
          fmt_08X extra.linked_value ++ " // " ++ insn.mnemonic ++ " " ++ insn.op_str ++ "\n")
      | _ =>
        (label_name state label).map (fun nm =>
          out ++ fmt_pad5 insn.mnemonic ++ " $" ++ reg0 ++ ", hi(" ++ nm ++ ")\n")
  else if insn.id = .ADDIU ∨ insn.id = .ORI then
    let label := label_find state extra.linked_value
    match state.syntax_ with
    | .ASM_GAS =>
      (label_name state label).map (fun nm =>
        out ++ fmt_pad5 insn.mnemonic ++ " $" ++ reg0 ++ ", %lo(" ++ nm ++ ")\n")
    | .ASM_ARMIPS =>
      if insn.id = .ADDIU then
        (label_name state label).map (fun nm =>
          out ++ fmt_pad5 "la.l" ++ " $" ++ reg0 ++ ", " ++ nm ++ " // " ++
            insn.mnemonic ++ " " ++ insn.op_str ++ "\n")
      else
        some (out ++ fmt_pad5 "li.l" ++ " $" ++ reg0 ++ ", 0x" ++
          fmt_08X extra.linked_value ++ " // " ++ insn.mnemonic ++ " " ++ insn.op_str ++ "\n")
  else
    let label := label_find state extra.linked_value
    (label_name state label).map (fun nm =>
      out ++ fmt_pad5 insn.mnemonic ++ " $" ++ reg0 ++ ", " ++
        (if state.syntax_ = .ASM_GAS then "%" else "") ++ "lo(" ++ nm ++ ")($" ++
        env.cs_reg_name (operand insn 1).reg ++ ")\n")

/-- The dispatch on the shape of instruction `i` that follows the byte-prefix
comment. -/
def emit_insn (env : Env) (state : disasm_state) (i : Nat) (out : String) : Option String :=
  let insn := insn_at state i
  if insn.grp_jump then
    match emit_jump_operands env state insn.operands 0 (out ++ fmt_pad5 insn.mnemonic ++ " ") with
    | none => none
    | some out => some (out ++ "\n")
  else if insn.id = .JAL ∨ insn.id = .BAL then
    let jal_target := to_u32 (operand insn 0).imm
    let label := label_find state jal_target
    let out := out ++ fmt_pad5 insn.mnemonic ++ " "
    if label ≥ 0 then (label_name state label).map (fun nm => out ++ nm ++ "\n")
    else some out
  else if insn.id = .MTC0 ∨ insn.id = .MFC0 then
    let rd := (insn.bytes.getD 2 0 &&& 0xF8) >>> 3
    some (out ++ fmt_pad5 insn.mnemonic ++ " $" ++
      env.cs_reg_name (operand insn 0).reg ++ ", $" ++ fmt_d (rd : Int) ++ "\n")
  else
    let linked_insn := (extra_at state i).linked_insn
    if linked_insn ≥ 0 then emit_linked env state i insn linked_insn out
    else some (out ++ fmt_pad5 insn.mnemonic ++ " " ++ insn.op_str ++ "\n")

/-- The byte-prefix comment `"/* %08X %02X%02X%02X%02X */  "`. -/
def byte_comment (vaddr : Nat) (insn : cs_insn) : String :=
  "/* " ++ fmt_08X vaddr ++ " " ++ fmt_02X (insn.bytes.getD 0 0) ++
    fmt_02X (insn.bytes.getD 1 0) ++ fmt_02X (insn.bytes.getD 2 0) ++
    fmt_02X (insn.bytes.getD 3 0) ++ " */  "

/-- The `for (i = 0; i < instruction_count; i++)` loop of `mipsdisasm_pass2`: the
arguments are the number of iterations left, `i`, `vaddr`, `labels[label_idx..]` and
the text written so far. -/
def pass2_loop (env : Env) (state : disasm_state) :
    Nat → Nat → Nat → List asm_label → String → Option String
  | 0, _, _, _, out => some out
  | n + 1, i, vaddr, rest, out =>
    let out := if (extra_at state i).newline ≠ 0 then out ++ "\n" else out
    let r := emit_labels vaddr rest out
    let out := r.1 ++ byte_comment vaddr (insn_at state i)
    match emit_insn env state i out with
    | none => none
    | some out => pass2_loop env state n (i + 1) ((vaddr + 4) % 4294967296) r.2 out

/-- The function `mipsdisasm_pass2`: the text in `out` afterwards, or `none` when
the run reads `labels[-1]`. -/
def mipsdisasm_pass2 (env : Env) (out : String) (state : disasm_state) : Option String :=
  pass2_loop env state (instruction_count state) 0 state.vaddr
    (skip_labels state.vaddr state.labels) out

/-! ## Sample decoder output, for concrete runs -/

/-- A register operand (the members of the C union share their storage, so the other
members read the same bytes). -/
def op_reg (r : Nat) : cs_mips_op :=
  { type := .MIPS_OP_REG, reg := r, imm := r, mem_base := r, mem_disp := 0 }

/-- An immediate operand. -/
def op_imm (k : Int) : cs_mips_op :=
  { type := .MIPS_OP_IMM, reg := to_u32 k, imm := k, mem_base := to_u32 k, mem_disp := 0 }

/-- A memory operand `disp(base)`. -/
def op_mem (base : Nat) (disp : Int) : cs_mips_op :=
  { type := .MIPS_OP_MEM, reg := base, imm := base, mem_base := base, mem_disp := disp }

/-- Register names by capstone 3 register id (`MIPS_REG_0 = 1`, ..., `MIPS_REG_31 = 32`). -/
def sample_reg_name (r : Nat) : String :=
  ["", "zero", "at", "v0", "v1", "a0", "a1", "a2", "a3", "t0", "t1", "t2", "t3", "t4",
   "t5", "t6", "t7", "s0", "s1", "s2", "s3", "s4", "s5", "s6", "s7", "t8", "t9", "k0",
   "k1", "gp", "sp", "fp", "ra"].getD r ""

/-- An environment whose decoder returns the records `insn` and whose register ids
are those of capstone 3. -/
def sample_env (insn : List cs_insn) : Env :=
  { cs_disasm := fun _ _ => insn
    cs_reg_name := sample_reg_name
    MIPS_REG_ZERO := 1
    MIPS_REG_RA := 32
    fmt_float := fun bits => if bits = 1065353216 then "1.000000" else "0.000000" }

/-- The record of `lui $rt, imm` with its encoding. -/
def sample_lui (rt : Nat) (imm : Nat) (bytes : List Nat) (op_str : String) : cs_insn :=
  { id := .LUI, mnemonic := "lui", op_str := op_str, bytes := bytes,
    operands := [op_reg rt, op_imm imm], grp_jump := false }

/-- The record of `addiu $rt, $rs, imm` with its encoding. -/
def sample_addiu (rt rs : Nat) (imm : Int) (bytes : List Nat) (op_str : String) : cs_insn :=
  { id := .ADDIU, mnemonic := "addiu", op_str := op_str, bytes := bytes,
    operands := [op_reg rt, op_reg rs, op_imm imm], grp_jump := false }

/-- The record of `lw $rt, disp($base)` with its encoding. -/
def sample_lw (rt base : Nat) (disp : Int) (bytes : List Nat) (op_str : String) : cs_insn :=
  { id := .LW, mnemonic := "lw", op_str := op_str, bytes := bytes,
    operands := [op_reg rt, op_mem base disp], grp_jump := false }

/-- The record of `lb $rt, disp($base)` with its encoding. -/
def sample_lb (rt base : Nat) (disp : Int) (bytes : List Nat) (op_str : String) : cs_insn :=
  { id := .LB, mnemonic := "lb", op_str := op_str, bytes := bytes,
    operands := [op_reg rt, op_mem base disp], grp_jump := false }

/-- The record of the branch `b target` (`beq $zero, $zero, target`), a member of the
JUMP group. -/
def sample_b (target : Int) (bytes : List Nat) (op_str : String) : cs_insn :=
  { id := .other 1, mnemonic := "b", op_str := op_str, bytes := bytes,
    operands := [op_imm target], grp_jump := true }

/-- The record of `nop`. -/
def sample_nop : cs_insn :=
  { id := .other 2, mnemonic := "nop", op_str := "", bytes := [0, 0, 0, 0],
    operands := [], grp_jump := false }

/-! ## Predicates used to state the properties -/

/-- The address `link_with_lui` computes for the `lui` at `search`:
`(lui_imm << 16) + mem_imm` in `unsigned int` arithmetic. -/
def pair_addr (state : disasm_state) (search : Nat) (mem_imm : Nat) : Nat :=
  ((to_u32 (operand (insn_at state search) 1).imm * 65536) % 4294967296 + mem_imm) % 4294967296

/-- The scan of `link_with_lui` for `reg` goes on past index `j`: the instruction
there is not a `lui` of `reg`, not one of `lw, ld, addiu, add, sub, subu` with
destination `reg`, and not `jr $ra`. -/
def scan_passes (env : Env) (state : disasm_state) (reg : Nat) (j : Nat) : Prop :=
  ¬ ((insn_at state j).id = .LUI ∧ reg = (operand (insn_at state j) 0).reg) ∧
  ¬ (((insn_at state j).id = .LW ∨ (insn_at state j).id = .LD ∨
      (insn_at state j).id = .ADDIU ∨ (insn_at state j).id = .ADD ∨
      (insn_at state j).id = .SUB ∨ (insn_at state j).id = .SUBU) ∧
      reg = (operand (insn_at state j) 0).reg) ∧
  ¬ ((insn_at state j).id = .JR ∧ (operand (insn_at state j) 0).reg = env.MIPS_REG_RA)

instance (env : Env) (state : disasm_state) (reg j : Nat) :
    Decidable (scan_passes env state reg j) := by
  unfold scan_passes
  exact inferInstance

/-- The state holding `lui $at, 0x8024; addiu $at, $at, 0x1000` at base `0x80000000`
with every `linked_insn` reset, as pass one sees it before pairing. -/
def sample_pair_state : disasm_state :=
  { labels := [], label_alloc := 1024,
    instructions :=
      [sample_lui 2 32804 [60, 1, 128, 36] "$at, 0x8024",
       sample_addiu 2 2 4096 [36, 33, 16, 0] "$at, $at, 0x1000"],
    insn_extra :=
      [{ linked_insn := -1, linked_value := 0, newline := 0 },
       { linked_insn := -1, linked_value := 0, newline := 0 }],
    vaddr := 2147483648, syntax_ := .ASM_GAS }

/-- The canonical label order in the words of the specification: ascending `vaddr`,
ties broken by `global` (false before true), further ties by lexicographic `name`. -/
def canonical_le (a b : asm_label) : Prop :=
  a.vaddr < b.vaddr ∨
    (a.vaddr = b.vaddr ∧ (a.global < b.global ∨ (a.global = b.global ∧ a.name ≤ b.name)))

/-- The state `mipsdisasm_pass1` hands to `disassemble_block`: the given state, or a
newly allocated one, with the dialect stored. -/
def pass1_entry (syntax_ : asm_syntax) (state : Option disasm_state) : disasm_state :=
  { (state.getD disasm_state_alloc) with syntax_ := syntax_ }

/-- Some label of the table sits at `vaddr`. -/
def has_label (labels : List asm_label) (vaddr : Nat) : Prop :=
  ∃ l ∈ labels, l.vaddr = vaddr

/-- The local label pass one creates for a branch target: `.L%08X` under GAS,
`@L%08X` under ARMIPS, not global. -/
def local_label (syntax_ : asm_syntax) (target : Nat) : asm_label :=
  { name := (match syntax_ with
      | .ASM_GAS => ".L" ++ fmt_08X target
      | .ASM_ARMIPS => "@L" ++ fmt_08X target),
    global := 0, vaddr := target }

/-- The global label pass one creates for a call target: `func_%08X`. -/
def func_label (target : Nat) : asm_label :=
  { name := "func_" ++ fmt_08X target, global := 1, vaddr := target }

/-- The global label `link_with_lui` creates for a paired address: `D_%08X`. -/
def data_label (addr : Nat) : asm_label :=
  { name := "D_" ++ fmt_08X addr, global := 1, vaddr := addr }

/-- The instruction ids of the loads and stores that pass one pairs with a `lui`. -/
def is_mem_user (id : mips_insn) : Prop :=
  id = .SD ∨ id = .SW ∨ id = .SH ∨ id = .SB ∨ id = .LB ∨ id = .LBU ∨ id = .LD ∨
    id = .LDL ∨ id = .LDR ∨ id = .LH ∨ id = .LHU ∨ id = .LW ∨ id = .LWU

instance (id : mips_insn) : Decidable (is_mem_user id) := by
  unfold is_mem_user
  exact inferInstance

/-- The low-half users of a pair: a load or store, `addiu` or `ori`. -/
def is_low_user (id : mips_insn) : Prop :=
  is_mem_user id ∨ id = .ADDIU ∨ id = .ORI

instance (id : mips_insn) : Decidable (is_low_user id) := by
  unfold is_low_user
  exact inferInstance

/-- The register a low-half user passes to `link_with_lui`: `rs` of `addiu`/`ori`,
the base register of a load or store. -/
def user_reg (insn : cs_insn) : Nat :=
  if insn.id = .ADDIU ∨ insn.id = .ORI then (operand insn 1).reg
  else (operand insn 1).mem_base

/-- The value a low-half user passes to `link_with_lui` as `mem_imm`: the immediate
of `addiu`/`ori`, the displacement of a load or store, cast to `unsigned int`. -/
def user_imm (insn : cs_insn) : Nat :=
  if insn.id = .ADDIU ∨ insn.id = .ORI then to_u32 (operand insn 2).imm
  else to_u32 (operand insn 1).mem_disp

/-- The write of the `MIPS_INS_MTC1` case on a matching `lui` at `s`: the link to
`i`, the float bits, and the rewrite to `li`. -/
def mtc1_link (state : disasm_state) (i s : Nat) : disasm_state :=
  upd_insn
    (upd_extra state s (fun e =>
      { e with linked_insn := (i : Int),
               linked_value := (to_u32 (operand (insn_at state s) 1).imm * 65536) % 4294967296 }))
    s (fun r => { r with id := .LI, mnemonic := "li" })

/-- The rewrite of `addiu`/`ori` with source `zero` at index `i` to `li`. -/
def li_rewrite (env : Env) (state : disasm_state) (i : Nat) : disasm_state :=
  upd_insn state i (fun r =>
    { r with id := .LI, mnemonic := "li",
             op_str := "$" ++ env.cs_reg_name (operand (insn_at state i) 0).reg ++ ", " ++
               fmt_d (operand (insn_at state i) 2).imm })

/-- The record of `jal target` with its encoding (not a member of the JUMP group). -/
def sample_jal (target : Int) (bytes : List Nat) (op_str : String) : cs_insn :=
  { id := .JAL, mnemonic := "jal", op_str := op_str, bytes := bytes,
    operands := [op_imm target], grp_jump := false }

/-- The stream `jal 0x80000010; nop; b 0x80000010; nop` at base `0x80000000`. -/
def sample_call_branch : List cs_insn :=
  [sample_jal 2147483664 [12, 0, 0, 4] "0x80000010", sample_nop,
   sample_b 2147483664 [16, 0, 0, 1] "0x80000010", sample_nop]

/-- The stream `b 0x80000000` at base `0x80000000` (branch to self). -/
def sample_branch_self : List cs_insn :=
  [sample_b 2147483648 [16, 0, 255, 255] "0x80000000"]

/-- The stream `jal 0x80000010; nop` at base `0x80000000`. -/
def sample_jal_stream : List cs_insn :=
  [sample_jal 2147483664 [12, 0, 0, 4] "0x80000010", sample_nop]

/-- The bytes of a stream of records. -/
def stream_bytes (insn : List cs_insn) : List Nat :=
  (insn.map (fun r => r.bytes)).flatten

/-- The stream `lui $at, 0x8024; lw $at, 0($at)` at base `0x80000000`. -/
def sample_zero_disp : List cs_insn :=
  [sample_lui 2 32804 [60, 1, 128, 36] "$at, 0x8024",
   sample_lw 2 2 0 [140, 33, 0, 0] "$at, ($at)"]

/-- The stream `lui $at, 0x8000; lw $t0, 4($at); lw $t1, 8($at)` at base `0x80000000`:
one `lui` used by two loads. -/
def sample_two_loads : List cs_insn :=
  [sample_lui 2 32768 [60, 1, 128, 0] "$at, 0x8000",
   sample_lw 9 2 4 [140, 40, 0, 4] "$t0, 4($at)",
   sample_lw 10 2 8 [140, 41, 0, 8] "$t1, 8($at)"]

/-- The stream `lui $at, 0x8024; addiu $at, $at, 0x1000` at base `0x80000000`. -/
def sample_pair_stream : List cs_insn :=
  [sample_lui 2 32804 [60, 1, 128, 36] "$at, 0x8024",
   sample_addiu 2 2 4096 [36, 33, 16, 0] "$at, $at, 0x1000"]

/-- The state pass one returns for a stream `lui; addiu` whose two records were
paired at address `A`: the label `D_<A>` and the two cross-linked extras. -/
def pair_result (A B : Nat) (i0 i1 : cs_insn) : disasm_state :=
  { labels := [data_label A], label_alloc := 1024, instructions := [i0, i1],
    insn_extra := [{ linked_insn := 1, linked_value := A, newline := 0 },
                   { linked_insn := 0, linked_value := A, newline := 0 }],
    vaddr := B, syntax_ := .ASM_GAS }

/-- The state with its label table and the capacity of the table replaced. -/
def relabel (state : disasm_state) (labels : List asm_label) (alloc : Nat) : disasm_state :=
  { state with labels := labels, label_alloc := alloc }

/-- Every address at which `state` has a label has a label in `labels`. -/
def covers (labels : List asm_label) (state : disasm_state) : Prop :=
  ∀ l ∈ state.labels, has_label labels l.vaddr

/-- The stream `lui $at, 0x8000; lb $t1, 1($at); b 0x80000008; nop` at base
`0x80000000`: the byte load names the unaligned address `0x80000001`. -/
def sample_unaligned : List cs_insn :=
  [sample_lui 2 32768 [60, 1, 128, 0] "$at, 0x8000",
   sample_lb 10 2 1 [128, 41, 0, 1] "$t1, 1($at)",
   sample_b 2147483656 [16, 0, 255, 255] "0x80000008",
   sample_nop]

/-- Index `s` is the greatest index in `[max(0, offset - 128), offset - 1]` that holds
a `lui` with destination `reg`, and no index between `s` and `offset` holds one of
`lw, ld, addiu, add, sub, subu` with destination `reg` or `jr $ra`. -/
def nearest_lui (env : Env) (state : disasm_state) (offset reg s : Nat) : Prop :=
  (offset : Int) - 128 ≤ (s : Int) ∧ s < offset ∧
  (insn_at state s).id = .LUI ∧ (operand (insn_at state s) 0).reg = reg ∧
  (∀ j, s < j → j < offset →
    ¬ ((insn_at state j).id = .LUI ∧ (operand (insn_at state j) 0).reg = reg)) ∧
  (∀ j, s < j → j < offset →
    ¬ (((insn_at state j).id = .LW ∨ (insn_at state j).id = .LD ∨
        (insn_at state j).id = .ADDIU ∨ (insn_at state j).id = .ADD ∨
        (insn_at state j).id = .SUB ∨ (insn_at state j).id = .SUBU) ∧
        (operand (insn_at state j) 0).reg = reg) ∧
    ¬ ((insn_at state j).id = .JR ∧ (operand (insn_at state j) 0).reg = env.MIPS_REG_RA))

/-- A sorted table with a local and a global label at `0x80000010`. -/
def sample_alias_state : disasm_state :=
  { labels := [{ name := "D_80000004", global := 1, vaddr := 2147483652 },
               { name := ".L80000010", global := 0, vaddr := 2147483664 },
               { name := "func_80000010", global := 1, vaddr := 2147483664 }],
    label_alloc := 1024, instructions := [], insn_extra := [], vaddr := 2147483648,
    syntax_ := .ASM_GAS }

/-- The record of `ori $rt, $rs, imm` with its encoding. -/
def sample_ori (rt rs : Nat) (imm : Int) (bytes : List Nat) (op_str : String) : cs_insn :=
  { id := .ORI, mnemonic := "ori", op_str := op_str, bytes := bytes,
    operands := [op_reg rt, op_reg rs, op_imm imm], grp_jump := false }

/-- The record of `mtc1 $rt, $fs` with its encoding (`fs` is the id of the float
register, which the code does not read). -/
def sample_mtc1 (rt fs : Nat) (bytes : List Nat) (op_str : String) : cs_insn :=
  { id := .MTC1, mnemonic := "mtc1", op_str := op_str, bytes := bytes,
    operands := [op_reg rt, op_reg fs], grp_jump := false }

/-- The record of `jr $rs` with its encoding, a member of the JUMP group. -/
def sample_jr (rs : Nat) (bytes : List Nat) (op_str : String) : cs_insn :=
  { id := .JR, mnemonic := "jr", op_str := op_str, bytes := bytes,
    operands := [op_reg rs], grp_jump := true }

/-- The stream `lui $at, 0x8024; ori $at, $at, 0x1000` at base `0x80000000`. -/
def sample_lui_ori : List cs_insn :=
  [sample_lui 2 32804 [60, 1, 128, 36] "$at, 0x8024",
   sample_ori 2 2 4096 [52, 33, 16, 0] "$at, $at, 0x1000"]

/-- The stream `lui $at, 0x3F80; mtc1 $at, $f0` at base `0x80000000`. -/
def sample_float : List cs_insn :=
  [sample_lui 2 16256 [60, 1, 63, 128] "$at, 0x3f80",
   sample_mtc1 2 100 [68, 129, 0, 0] "$at, $f0"]

/-- The stream `lui $at, 0x3F80`, 129 times `nop`, `mtc1 $at, $f0`: the `mtc1` is at
index 130. -/
def sample_far_float : List cs_insn :=
  sample_lui 2 16256 [60, 1, 63, 128] "$at, 0x3f80" ::
    (List.replicate 129 sample_nop ++ [sample_mtc1 2 100 [68, 129, 0, 0] "$at, $f0"])

/-- The stream `jr $ra; nop; addiu $v0, $zero, 1` at base `0x80000000`. -/
def sample_return : List cs_insn :=
  [sample_jr 32 [3, 224, 0, 8] "$ra", sample_nop,
   sample_addiu 3 1 1 [36, 2, 0, 1] "$v0, $zero, 1"]

/-- The stream `addiu $v0, $a0, 4` at base `0x80000000`. -/
def sample_add_other : List cs_insn :=
  [sample_addiu 3 5 4 [36, 130, 0, 4] "$v0, $a0, 4"]

/-- An environment like `sample_env` whose decoder returns as many of the records
`insn` as the data has whole words (none for less than four bytes). -/
def sample_decoder (insn : List cs_insn) : Env :=
  { cs_disasm := fun data _ => insn.take (data.length / 4)
    cs_reg_name := sample_reg_name
    MIPS_REG_ZERO := 1
    MIPS_REG_RA := 32
    fmt_float := fun bits => if bits = 1065353216 then "1.000000" else "0.000000" }

/-- The scan of the `MIPS_INS_MTC1` case for `rt` goes on past index `j`: the
instruction there is not a `lui` of `rt`, not one of `lw, ld, lh, lhu, lb, lbu, addiu,
add, sub, subu` with destination `rt`, and not `jr $ra`. -/
def mtc1_passes (env : Env) (state : disasm_state) (rt : Nat) (j : Nat) : Prop :=
  ¬ ((insn_at state j).id = .LUI ∧ (operand (insn_at state j) 0).reg = rt) ∧
  ¬ (((insn_at state j).id = .LW ∨ (insn_at state j).id = .LD ∨
      (insn_at state j).id = .LH ∨ (insn_at state j).id = .LHU ∨
      (insn_at state j).id = .LB ∨ (insn_at state j).id = .LBU ∨
      (insn_at state j).id = .ADDIU ∨ (insn_at state j).id = .ADD ∨
      (insn_at state j).id = .SUB ∨ (insn_at state j).id = .SUBU) ∧
      rt = (operand (insn_at state j) 0).reg) ∧
  ¬ ((insn_at state j).id = .JR ∧ (operand (insn_at state j) 0).reg = env.MIPS_REG_RA)

/-- The backward scan of the `mtc1` at index `i` reaches a `lui` of the register of
the `mtc1` at index `s` before a stop condition. -/
def float_lui (env : Env) (state : disasm_state) (i s : Nat) : Prop :=
  s < i ∧ (insn_at state s).id = .LUI ∧
  (operand (insn_at state s) 0).reg = (operand (insn_at state i) 0).reg ∧
  ∀ j, s < j → j < i → mtc1_passes env state (operand (insn_at state i) 0).reg j

/-- The instruction is a return as pass one recognises it: in the JUMP group, `jr` or
`jalr`, with register `ra` as first operand. -/
def is_return (env : Env) (insn : cs_insn) : Prop :=
  insn.grp_jump = true ∧ (insn.id = .JR ∨ insn.id = .JALR) ∧
    (operand insn 0).reg = env.MIPS_REG_RA

instance (env : Env) (insn : cs_insn) : Decidable (is_return env insn) := by
  unfold is_return
  exact inferInstance

/-- Index `j` of the stream comes two places after a return. -/
def follows_return (env : Env) (insn : List cs_insn) (j : Nat) : Prop :=
  2 ≤ j ∧ is_return env (insn.getD (j - 2) zero_insn)

instance (env : Env) (insn : List cs_insn) (j : Nat) : Decidable (follows_return env insn j) := by
  unfold follows_return
  exact inferInstance

instance (env : Env) (state : disasm_state) (rt j : Nat) :
    Decidable (mtc1_passes env state rt j) := by
  unfold mtc1_passes
  exact inferInstance

/-- No two labels of the table share a `vaddr`. -/
def distinct_vaddr (labels : List asm_label) : Prop :=
  labels.Pairwise (fun a b => a.vaddr ≠ b.vaddr)

/-- The GAS operator `%hi` on a 32-bit address: `((addr + 0x8000) >> 16) & 0xFFFF`. -/
def gas_hi (addr : Nat) : Nat :=
  ((addr + 0x8000) >>> 16) &&& 0xFFFF

/-- The GAS operator `%lo` on a 32-bit address: `addr & 0xFFFF`. -/
def gas_lo (addr : Nat) : Nat :=
  addr &&& 0xFFFF

/-- The state holding `lui $at, 0x8025; lw $t0, -4096($at)` at base `0x80000000` with
every `linked_insn` reset, as pass one sees it before pairing. -/
def sample_neg_state : disasm_state :=
  { labels := [], label_alloc := 1024,
    instructions :=
      [sample_lui 2 32805 [60, 1, 128, 37] "$at, 0x8025",
       sample_lw 9 2 (-4096) [140, 40, 240, 0] "$t0, -0x1000($at)"],
    insn_extra :=
      [{ linked_insn := -1, linked_value := 0, newline := 0 },
       { linked_insn := -1, linked_value := 0, newline := 0 }],
    vaddr := 2147483648, syntax_ := .ASM_GAS }

/-- The 32-bit big-endian instruction word of four bytes:
`b0 << 24 | b1 << 16 | b2 << 8 | b3`. -/
def be_word (b0 b1 b2 b3 : Nat) : Nat :=
  b0 <<< 24 ||| b1 <<< 16 ||| b2 <<< 8 ||| b3

/-- The value pass two prints as second operand of `mtc0`/`mfc0`:
`rd = (insn->bytes[2] & 0xF8) >> 3`. -/
def cop0_rd (insn : cs_insn) : Nat :=
  (insn.bytes.getD 2 0 &&& 0xF8) >>> 3

/-- The record of `mtc0 $rt, $rd` with its encoding (capstone names the second
operand wrongly, which is why pass two takes it from the bytes). -/
def sample_mtc0 (rt : Nat) (bytes : List Nat) (op_str : String) : cs_insn :=
  { id := .MTC0, mnemonic := "mtc0", op_str := op_str, bytes := bytes,
    operands := [op_reg rt, op_reg 0], grp_jump := false }

/-- A state holding the single instruction `mtc0 $t0, $12` (word `0x40886000`). -/
def sample_cop0_state : disasm_state :=
  { labels := [], label_alloc := 1024,
    instructions := [sample_mtc0 9 [64, 136, 96, 0] "$t0, $zero, 3"],
    insn_extra := [{ linked_insn := -1, linked_value := 0, newline := 0 }],
    vaddr := 2147483648, syntax_ := .ASM_GAS }

/-- The address pass two has reached at instruction `i`: `(base + 4 i) mod 2^32`. -/
def insn_vaddr (base i : Nat) : Nat :=
  (base + 4 * i) % 4294967296

/-- The part `labels[label_idx..]` of the table that the label cursor of pass two has
left when the loop reaches instruction `i`. -/
def label_cursor (state : disasm_state) : Nat → List asm_label
  | 0 => skip_labels state.vaddr state.labels
  | i + 1 => (emit_labels (insn_vaddr state.vaddr i) (label_cursor state i) "").2

/-- What pass two writes for instruction `i` before its byte comment: the blank line
when the instruction is flagged, then the lines of the labels at its address. -/
def line_head (state : disasm_state) (i : Nat) : String :=
  (if (extra_at state i).newline ≠ 0 then "\n" else "") ++
    (emit_labels (insn_vaddr state.vaddr i) (label_cursor state i) "").1

/-- What pass two writes for instruction `i` after its byte comment (nothing when a
lookup fails). -/
def line_body (env : Env) (state : disasm_state) (i : Nat) : String :=
  (emit_insn env state i "").getD ""

/-- The output of pass two for instruction `i`: head, byte comment, body. -/
def line_text (env : Env) (state : disasm_state) (i : Nat) : String :=
  line_head state i ++ byte_comment (insn_vaddr state.vaddr i) (insn_at state i) ++
    line_body env state i

/-- The texts of a list, one after the other. -/
def concat_lines : List String → String
  | [] => ""
  | a :: rest => a ++ concat_lines rest

/-- The table `M` is the table `L` followed by labels that are new to it: each sits
at an address where `L` has no label, and no two of them share an address. -/
def adds_fresh (L M : List asm_label) : Prop :=
  ∃ a, M = L ++ a ∧ (∀ l ∈ a, ¬ has_label L l.vaddr) ∧ distinct_vaddr a

/-- The labels of a table that sit at `vaddr`, in table order. -/
def labels_at (labels : List asm_label) (vaddr : Nat) : List asm_label :=
  labels.filter (fun l => decide (l.vaddr = vaddr))

/-! ## `mipsdisasm_pass2` as the text it writes, whatever the lookups return -/

/-- The text `fprintf` takes from `state->labels[label].name`: the name when `label`
is an index of the table; when it is not, the code reads outside the array, and
`stray` stands for the bytes it finds there. -/
def label_text (stray : String) (state : disasm_state) (label : Int) : String :=
  (label_name state label).getD stray

/-- The loop over the operands of a control transfer, as the text written; `o` is the
operand index. -/
def write_jump_operands (stray : String) (env : Env) (state : disasm_state) :
    List cs_mips_op → Nat → String → String
  | [], _, out => out
  | op :: rest, o, out =>
    let out := if o > 0 then out ++ ", " else out
    match op.type with
    | .MIPS_OP_REG =>
      write_jump_operands stray env state rest (o + 1) (out ++ "$" ++ env.cs_reg_name op.reg)
    | .MIPS_OP_IMM =>
      let branch_target := to_u32 op.imm
      let label := label_find state branch_target
      write_jump_operands stray env state rest (o + 1) (out ++ label_text stray state label)
    | _ => write_jump_operands stray env state rest (o + 1) out

/-- The branch `if (linked_insn >= 0)` of the emitter, as the text written. -/
def write_linked (stray : String) (env : Env) (state : disasm_state) (i : Nat)
    (insn : cs_insn) (linked_insn : Int) (out : String) : String :=
  let reg0 := env.cs_reg_name (operand insn 0).reg
  let extra := extra_at state i
  if insn.id = .LI then
    match state.syntax_ with
    | .ASM_GAS =>
      out ++ fmt_pad5 insn.mnemonic ++ " $" ++ reg0 ++ ", 0x" ++
        fmt_04X (to_u32 (operand insn 1).imm) ++ "0000 # " ++
        env.fmt_float extra.linked_value ++ "\n"
    | .ASM_ARMIPS =>
      out ++ fmt_pad5 insn.mnemonic ++ " $" ++ reg0 ++ ", 0x" ++
        fmt_04X (to_u32 (operand insn 1).imm) ++ "0000 // " ++
        env.fmt_float extra.linked_value ++ "\n"
  else if insn.id = .LUI then
    let label := label_find state extra.linked_value
    match state.syntax_ with
    | .ASM_GAS =>
      out ++ fmt_pad5 insn.mnemonic ++ " $" ++ reg0 ++ ", %hi(" ++
        label_text stray state label ++ ")\n"
    | .ASM_ARMIPS =>
      match (insn_at state linked_insn.toNat).id with
      | .ADDIU =>
        out ++ fmt_pad5 "la.u" ++ " $" ++ reg0 ++ ", " ++ label_text stray state label ++
          " // " ++ insn.mnemonic ++ " " ++ insn.op_str ++ "\n"
      | .ORI =>
        out ++ fmt_pad5 "li.u" ++ " $" ++ reg0 ++ ", 0x" ++
          fmt_08X extra.linked_value ++ " // " ++ insn.mnemonic ++ " " ++ insn.op_str ++ "\n"
      | _ =>
        out ++ fmt_pad5 insn.mnemonic ++ " $" ++ reg0 ++ ", hi(" ++
          label_text stray state label ++ ")\n"
  else if insn.id = .ADDIU ∨ insn.id = .ORI then
    let label := label_find state extra.linked_value
    match state.syntax_ with
    | .ASM_GAS =>
      out ++ fmt_pad5 insn.mnemonic ++ " $" ++ reg0 ++ ", %lo(" ++
        label_text stray state label ++ ")\n"
    | .ASM_ARMIPS =>
      if insn.id = .ADDIU then
        out ++ fmt_pad5 "la.l" ++ " $" ++ reg0 ++ ", " ++ label_text stray state label ++
          " // " ++ insn.mnemonic ++ " " ++ insn.op_str ++ "\n"
      else
        out ++ fmt_pad5 "li.l" ++ " $" ++ reg0 ++ ", 0x" ++
          fmt_08X extra.linked_value ++ " // " ++ insn.mnemonic ++ " " ++ insn.op_str ++ "\n"
  else
    let label := label_find state extra.linked_value
    out ++ fmt_pad5 insn.mnemonic ++ " $" ++ reg0 ++ ", " ++
      (if state.syntax_ = .ASM_GAS then "%" else "") ++ "lo(" ++
      label_text stray state label ++ ")($" ++
      env.cs_reg_name (operand insn 1).reg ++ ")\n"

/-- The dispatch on the shape of instruction `i` that follows the byte-prefix
comment, as the text written. -/
def write_insn (stray : String) (env : Env) (state : disasm_state) (i : Nat)
    (out : String) : String :=
  let insn := insn_at state i
  if insn.grp_jump then
    write_jump_operands stray env state insn.operands 0
      (out ++ fmt_pad5 insn.mnemonic ++ " ") ++ "\n"
  else if insn.id = .JAL ∨ insn.id = .BAL then
    let jal_target := to_u32 (operand insn 0).imm
    let label := label_find state jal_target
    let out := out ++ fmt_pad5 insn.mnemonic ++ " "
    if label ≥ 0 then out ++ label_text stray state label ++ "\n"
    else out
  else if insn.id = .MTC0 ∨ insn.id = .MFC0 then
    let rd := (insn.bytes.getD 2 0 &&& 0xF8) >>> 3
    out ++ fmt_pad5 insn.mnemonic ++ " $" ++
      env.cs_reg_name (operand insn 0).reg ++ ", $" ++ fmt_d (rd : Int) ++ "\n"
  else
    let linked_insn := (extra_at state i).linked_insn
    if linked_insn ≥ 0 then write_linked stray env state i insn linked_insn out
    else out ++ fmt_pad5 insn.mnemonic ++ " " ++ insn.op_str ++ "\n"

/-- The `for (i = 0; i < instruction_count; i++)` loop of `mipsdisasm_pass2`, as the
text written: the arguments are the number of iterations left, `i`, `vaddr`,
`labels[label_idx..]` and the text written so far; `stray i` stands for what a read
outside the table finds while instruction `i` is written. -/
def write_loop (stray : Nat → String) (env : Env) (state : disasm_state) :
    Nat → Nat → Nat → List asm_label → String → String
  | 0, _, _, _, out => out
  | n + 1, i, vaddr, rest, out =>
    let out := if (extra_at state i).newline ≠ 0 then out ++ "\n" else out
    let r := emit_labels vaddr rest out
    let out := r.1 ++ byte_comment vaddr (insn_at state i)
    write_loop stray env state n (i + 1) ((vaddr + 4) % 4294967296) r.2
      (write_insn (stray i) env state i out)

/-- The function `mipsdisasm_pass2`, as the text in `out` afterwards. -/
def mipsdisasm_pass2_text (stray : Nat → String) (env : Env) (out : String)
    (state : disasm_state) : String :=
  write_loop stray env state (instruction_count state) 0 state.vaddr
    (skip_labels state.vaddr state.labels) out

/-- The text pass two writes for instruction `i`: head, byte comment, and the text of
the instruction. -/
def written_line (stray : Nat → String) (env : Env) (state : disasm_state) (i : Nat) :
    String :=
  line_head state i ++ byte_comment (insn_vaddr state.vaddr i) (insn_at state i) ++
    write_insn (stray i) env state i ""

/-! ## Basic facts about lists and state updates -/

theorem getD_set_list {α : Type} (l : List α) (i j : Nat) (a d : α) :
    (l.set i a).getD j d = if i = j ∧ i < l.length then a else l.getD j d := by
  simp only [List.getD_eq_getElem?_getD, List.getElem?_set]
  by_cases h : i = j
  · subst h
    by_cases h2 : i < l.length
    · simp [h2]
    · simp [h2]
      simp at h2
      simp [List.getElem?_eq_none h2]
  · simp [h]

@[simp] theorem upd_extra_instructions (st : disasm_state) (i : Nat) (f : disasm_extra → disasm_extra) :
    (upd_extra st i f).instructions = st.instructions := rfl

@[simp] theorem upd_extra_labels (st : disasm_state) (i : Nat) (f : disasm_extra → disasm_extra) :
    (upd_extra st i f).labels = st.labels := rfl

@[simp] theorem upd_extra_label_alloc (st : disasm_state) (i : Nat) (f : disasm_extra → disasm_extra) :
    (upd_extra st i f).label_alloc = st.label_alloc := rfl

@[simp] theorem upd_extra_vaddr (st : disasm_state) (i : Nat) (f : disasm_extra → disasm_extra) :
    (upd_extra st i f).vaddr = st.vaddr := rfl

@[simp] theorem upd_extra_dialect (st : disasm_state) (i : Nat) (f : disasm_extra → disasm_extra) :
    (upd_extra st i f).syntax_ = st.syntax_ := rfl

@[simp] theorem upd_extra_length (st : disasm_state) (i : Nat) (f : disasm_extra → disasm_extra) :
    (upd_extra st i f).insn_extra.length = st.insn_extra.length := by
  simp [upd_extra]

@[simp] theorem insn_at_upd_extra (st : disasm_state) (i j : Nat) (f : disasm_extra → disasm_extra) :
    insn_at (upd_extra st i f) j = insn_at st j := rfl

@[simp] theorem label_find_upd_extra (st : disasm_state) (i : Nat) (f : disasm_extra → disasm_extra)
    (v : Nat) : label_find (upd_extra st i f) v = label_find st v := rfl

theorem extra_at_upd_extra (st : disasm_state) (i j : Nat) (f : disasm_extra → disasm_extra) :
    extra_at (upd_extra st i f) j =
      if i = j ∧ i < st.insn_extra.length then f (extra_at st i) else extra_at st j := by
  unfold extra_at upd_extra
  exact getD_set_list _ _ _ _ _

@[simp] theorem upd_insn_extra (st : disasm_state) (i : Nat) (f : cs_insn → cs_insn) :
    (upd_insn st i f).insn_extra = st.insn_extra := rfl

@[simp] theorem upd_insn_labels (st : disasm_state) (i : Nat) (f : cs_insn → cs_insn) :
    (upd_insn st i f).labels = st.labels := rfl

@[simp] theorem upd_insn_label_alloc (st : disasm_state) (i : Nat) (f : cs_insn → cs_insn) :
    (upd_insn st i f).label_alloc = st.label_alloc := rfl

@[simp] theorem upd_insn_vaddr (st : disasm_state) (i : Nat) (f : cs_insn → cs_insn) :
    (upd_insn st i f).vaddr = st.vaddr := rfl

@[simp] theorem upd_insn_dialect (st : disasm_state) (i : Nat) (f : cs_insn → cs_insn) :
    (upd_insn st i f).syntax_ = st.syntax_ := rfl

@[simp] theorem upd_insn_length (st : disasm_state) (i : Nat) (f : cs_insn → cs_insn) :
    (upd_insn st i f).instructions.length = st.instructions.length := by
  simp [upd_insn]

@[simp] theorem extra_at_upd_insn (st : disasm_state) (i j : Nat) (f : cs_insn → cs_insn) :
    extra_at (upd_insn st i f) j = extra_at st j := rfl

theorem insn_at_upd_insn (st : disasm_state) (i j : Nat) (f : cs_insn → cs_insn) :
    insn_at (upd_insn st i f) j =
      if i = j ∧ i < st.instructions.length then f (insn_at st i) else insn_at st j := by
  unfold insn_at upd_insn
  exact getD_set_list _ _ _ _ _

@[simp] theorem label_add_instructions (st : disasm_state) (nm : String) (v : Nat) (g : Int) :
    (label_add st nm v g).instructions = st.instructions := rfl

@[simp] theorem label_add_extra (st : disasm_state) (nm : String) (v : Nat) (g : Int) :
    (label_add st nm v g).insn_extra = st.insn_extra := rfl

@[simp] theorem label_add_vaddr (st : disasm_state) (nm : String) (v : Nat) (g : Int) :
    (label_add st nm v g).vaddr = st.vaddr := rfl

@[simp] theorem label_add_dialect (st : disasm_state) (nm : String) (v : Nat) (g : Int) :
    (label_add st nm v g).syntax_ = st.syntax_ := rfl

@[simp] theorem label_add_labels (st : disasm_state) (nm : String) (v : Nat) (g : Int) :
    (label_add st nm v g).labels = st.labels ++ [{ name := nm, global := g, vaddr := v }] := rfl

@[simp] theorem insn_at_label_add (st : disasm_state) (nm : String) (v : Nat) (g : Int) (j : Nat) :
    insn_at (label_add st nm v g) j = insn_at st j := rfl

@[simp] theorem extra_at_label_add (st : disasm_state) (nm : String) (v : Nat) (g : Int) (j : Nat) :
    extra_at (label_add st nm v g) j = extra_at st j := rfl

/-! ## `link_with_lui`: the scan -/

/-- The state after the two cross-link writes of `link_with_lui`. -/
theorem link_pair_def (st : disasm_state) (o s m : Nat) :
    link_pair st o s m =
      if (insn_at st o).id ≠ .ORI then
        if label_find st (pair_addr st s m) < 0 then
          label_add (upd_extra (upd_extra st s
              (fun e => { e with linked_insn := (o : Int), linked_value := pair_addr st s m })) o
              (fun e => { e with linked_insn := (s : Int), linked_value := pair_addr st s m }))
            ("D_" ++ fmt_08X (pair_addr st s m)) (pair_addr st s m) 1
        else
          upd_extra (upd_extra st s
            (fun e => { e with linked_insn := (o : Int), linked_value := pair_addr st s m })) o
            (fun e => { e with linked_insn := (s : Int), linked_value := pair_addr st s m })
      else
        upd_extra (upd_extra st s
          (fun e => { e with linked_insn := (o : Int), linked_value := pair_addr st s m })) o
          (fun e => { e with linked_insn := (s : Int), linked_value := pair_addr st s m }) := rfl

theorem link_pair_instructions (st : disasm_state) (o s m : Nat) :
    (link_pair st o s m).instructions = st.instructions := by
  rw [link_pair_def]
  split_ifs <;> rfl

theorem link_pair_vaddr (st : disasm_state) (o s m : Nat) :
    (link_pair st o s m).vaddr = st.vaddr := by
  rw [link_pair_def]
  split_ifs <;> rfl

theorem link_pair_dialect (st : disasm_state) (o s m : Nat) :
    (link_pair st o s m).syntax_ = st.syntax_ := by
  rw [link_pair_def]
  split_ifs <;> rfl

theorem link_pair_extra (st : disasm_state) (o s m : Nat) :
    (link_pair st o s m).insn_extra =
      (upd_extra (upd_extra st s
        (fun e => { e with linked_insn := (o : Int), linked_value := pair_addr st s m })) o
        (fun e => { e with linked_insn := (s : Int), linked_value := pair_addr st s m })).insn_extra := by
  rw [link_pair_def]
  split_ifs <;> rfl

theorem link_pair_labels (st : disasm_state) (o s m : Nat) :
    (link_pair st o s m).labels =
      if (insn_at st o).id ≠ .ORI ∧ label_find st (pair_addr st s m) < 0 then
        st.labels ++ [{ name := "D_" ++ fmt_08X (pair_addr st s m), global := 1,
                        vaddr := pair_addr st s m }]
      else st.labels := by
  rw [link_pair_def]
  by_cases h1 : (insn_at st o).id = .ORI
  · simp [h1]
  · by_cases h2 : label_find st (pair_addr st s m) < 0
    · simp [h1, h2]
    · simp [h1, h2]

theorem link_scan_hit (env : Env) (st : disasm_state) (offset reg m : Nat) (e : Int) (s : Nat)
    (he : e ≤ (s : Int)) (hlui : (insn_at st s).id = .LUI)
    (hreg : (operand (insn_at st s) 0).reg = reg) :
    ∀ k, s < k → (∀ j, s < j → j < k → scan_passes env st reg j) →
      link_scan env st offset reg m e k = link_pair st offset s m := by
  intro k
  induction k with
  | zero => intro h; omega
  | succ k ih =>
    intro hk hp
    unfold link_scan
    have hge : (k : Int) ≥ e := by omega
    simp only [hge, if_true]
    by_cases hks : k = s
    · subst hks
      simp [hlui, hreg]
    · have hsk : s < k := by omega
      have hpk := hp k hsk (by omega)
      unfold scan_passes at hpk
      obtain ⟨h1, h2, h3⟩ := hpk
      have ih2 := ih hsk (fun j hj hjk => hp j hj (by omega))
      by_cases hid : (insn_at st k).id = .LUI
      · have : ¬ reg = (operand (insn_at st k) 0).reg := fun h => h1 ⟨hid, h⟩
        simp [hid, this, ih2]
      · have hc : ¬ (((insn_at st k).id = .LW ∨ (insn_at st k).id = .LD ∨
            (insn_at st k).id = .ADDIU ∨ (insn_at st k).id = .ADD ∨
            (insn_at st k).id = .SUB ∨ (insn_at st k).id = .SUBU) ∧
            reg = (operand (insn_at st k) 0).reg) := h2
        simp only [hid, if_false]
        by_cases hcl : ((insn_at st k).id = .LW ∨ (insn_at st k).id = .LD ∨
            (insn_at st k).id = .ADDIU ∨ (insn_at st k).id = .ADD ∨
            (insn_at st k).id = .SUB ∨ (insn_at st k).id = .SUBU)
        · have hr : ¬ reg = (operand (insn_at st k) 0).reg := fun h => hc ⟨hcl, h⟩
          simp only [hcl, hr, if_true, if_false]
          exact ih2
        · simp only [hcl, h3, if_false]
          exact ih2

theorem link_scan_cases (env : Env) (st : disasm_state) (offset reg m : Nat) (e : Int) :
    ∀ k, link_scan env st offset reg m e k = st ∨
      ∃ s, s < k ∧ e ≤ (s : Int) ∧ (insn_at st s).id = .LUI ∧
        (operand (insn_at st s) 0).reg = reg ∧
        (∀ j, s < j → j < k → scan_passes env st reg j) ∧
        link_scan env st offset reg m e k = link_pair st offset s m := by
  intro k
  induction k with
  | zero => left; rfl
  | succ k ih =>
    unfold link_scan
    by_cases hge : (k : Int) ≥ e
    · simp only [hge, if_true]
      have lift : (scan_passes env st reg k) →
          (link_scan env st offset reg m e k = st ∨
            ∃ s, s < k + 1 ∧ e ≤ (s : Int) ∧ (insn_at st s).id = .LUI ∧
              (operand (insn_at st s) 0).reg = reg ∧
              (∀ j, s < j → j < k + 1 → scan_passes env st reg j) ∧
              link_scan env st offset reg m e k = link_pair st offset s m) := by
        intro hpk
        rcases ih with h | ⟨s, hs, hes, hl, hr, hp, heq⟩
        · left; exact h
        · right
          refine ⟨s, by omega, hes, hl, hr, ?_, heq⟩
          intro j hj hjk
          by_cases hjk2 : j = k
          · subst hjk2; exact hpk
          · exact hp j hj (by omega)
      by_cases hid : (insn_at st k).id = .LUI
      · by_cases hr : reg = (operand (insn_at st k) 0).reg
        · right
          refine ⟨k, by omega, hge, hid, hr.symm, ?_, ?_⟩
          · intro j hj hjk; omega
          · simp [hid, hr]
        · simp only [hid, hr, if_true, if_false]
          apply lift
          unfold scan_passes
          simp [hid, hr]
      · simp only [hid, if_false]
        by_cases hcl : ((insn_at st k).id = .LW ∨ (insn_at st k).id = .LD ∨
            (insn_at st k).id = .ADDIU ∨ (insn_at st k).id = .ADD ∨
            (insn_at st k).id = .SUB ∨ (insn_at st k).id = .SUBU)
        · by_cases hr : reg = (operand (insn_at st k) 0).reg
          · left
            simp only [hcl, hr, if_true]
          · simp only [hcl, hr, if_true, if_false]
            apply lift
            unfold scan_passes
            refine ⟨fun h => hid h.1, fun h => hr h.2, fun h => ?_⟩
            rw [h.1] at hcl
            simp at hcl
        · by_cases hj : (insn_at st k).id = .JR ∧
              (operand (insn_at st k) 0).reg = env.MIPS_REG_RA
          · left
            simp only [hcl, hj, if_false]
            simp
          · simp only [hcl, hj, if_false]
            apply lift
            unfold scan_passes
            exact ⟨fun h => hid h.1, fun h => hcl h.1, hj⟩
    · left
      simp [hge]

/-! ## `link_with_lui`: effect -/

theorem MAX_le_of (o s : Nat) (hs : s < o) (hwin : (o : Int) - 128 ≤ s) :
    MAX 0 ((o : Int) - MAX_LOOKBACK) ≤ (s : Int) := by
  unfold MAX MAX_LOOKBACK
  split_ifs <;> omega

theorem le_of_MAX_le (o s : Nat) (h : MAX 0 ((o : Int) - MAX_LOOKBACK) ≤ (s : Int)) :
    (o : Int) - 128 ≤ s := by
  unfold MAX MAX_LOOKBACK at h
  split_ifs at h <;> omega

theorem link_with_lui_hit (env : Env) (st : disasm_state) (offset reg m s : Nat)
    (hm : m ≠ 0) (hs : s < offset) (hwin : (offset : Int) - 128 ≤ s)
    (hlui : (insn_at st s).id = .LUI) (hreg : (operand (insn_at st s) 0).reg = reg)
    (hpass : ∀ j, s < j → j < offset → scan_passes env st reg j) :
    link_with_lui env st offset reg m = link_pair st offset s m := by
  unfold link_with_lui
  simp only [hm, ne_eq, not_false_eq_true, if_true]
  exact link_scan_hit env st offset reg m _ s (MAX_le_of offset s hs hwin) hlui hreg offset hs hpass

theorem link_with_lui_cases (env : Env) (st : disasm_state) (offset reg m : Nat) :
    link_with_lui env st offset reg m = st ∨
      ∃ s, m ≠ 0 ∧ s < offset ∧ (offset : Int) - 128 ≤ s ∧ (insn_at st s).id = .LUI ∧
        (operand (insn_at st s) 0).reg = reg ∧
        (∀ j, s < j → j < offset → scan_passes env st reg j) ∧
        link_with_lui env st offset reg m = link_pair st offset s m := by
  unfold link_with_lui
  by_cases hm : m = 0
  · left; simp [hm]
  · simp only [hm, ne_eq, not_false_eq_true, if_true]
    rcases link_scan_cases env st offset reg m (MAX 0 ((offset : Int) - MAX_LOOKBACK)) offset with
      h | ⟨s, hs, he, hl, hr, hp, heq⟩
    · left; exact h
    · right
      exact ⟨s, trivial, hs, le_of_MAX_le offset s he, hl, hr, hp, heq⟩

theorem extra_at_link_pair (st : disasm_state) (o s m j : Nat) :
    extra_at (link_pair st o s m) j =
      if o = j ∧ o < st.insn_extra.length then
        { extra_at (upd_extra st s (fun e =>
            { e with linked_insn := (o : Int), linked_value := pair_addr st s m })) o with
          linked_insn := (s : Int), linked_value := pair_addr st s m }
      else if s = j ∧ s < st.insn_extra.length then
        { extra_at st s with linked_insn := (o : Int), linked_value := pair_addr st s m }
      else extra_at st j := by
  have h : extra_at (link_pair st o s m) j =
      extra_at (upd_extra (upd_extra st s
        (fun e => { e with linked_insn := (o : Int), linked_value := pair_addr st s m })) o
        (fun e => { e with linked_insn := (s : Int), linked_value := pair_addr st s m })) j := by
    unfold extra_at
    rw [link_pair_extra]
  rw [h, extra_at_upd_extra, upd_extra_length]
  by_cases h1 : o = j ∧ o < st.insn_extra.length
  · rw [if_pos h1, if_pos h1]
  · rw [if_neg h1, if_neg h1, extra_at_upd_extra]

theorem link_pair_grows (st : disasm_state) (o s m : Nat) :
    st.labels <+: (link_pair st o s m).labels := by
  rw [link_pair_labels]
  split_ifs
  · exact List.prefix_append _ _
  · exact List.prefix_refl _

theorem pair_addr_eq (st : disasm_state) (s m : Nat) :
    pair_addr st s m = (to_u32 (operand (insn_at st s) 1).imm * 65536 + m) % 4294967296 := by
  unfold pair_addr
  omega

/-! ## Claims about `link_with_lui` -/

/-- C1: when the backward scan of `link_with_lui(offset, reg, mem_imm)` with non-zero
`mem_imm` reaches a `lui` of `reg` at index `s` (inside the window, every index
between `s` and `offset` lets the scan pass), the extras of `s` and `offset` point at
each other and both hold `((lui_imm << 16) + mem_imm) mod 2^32`. -/
theorem link_with_lui_cross_links (env : Env) (st : disasm_state) (offset reg mem_imm s : Nat)
    (hm : mem_imm ≠ 0) (hoff : offset < st.insn_extra.length)
    (hs : s < offset) (hwin : (offset : Int) - 128 ≤ s)
    (hlui : (insn_at st s).id = .LUI) (hreg : (operand (insn_at st s) 0).reg = reg)
    (hpass : ∀ j, s < j → j < offset → scan_passes env st reg j) :
    (extra_at (link_with_lui env st offset reg mem_imm) s).linked_insn = (offset : Int) ∧
    (extra_at (link_with_lui env st offset reg mem_imm) offset).linked_insn = (s : Int) ∧
    (extra_at (link_with_lui env st offset reg mem_imm) s).linked_value =
      (to_u32 (operand (insn_at st s) 1).imm * 65536 + mem_imm) % 4294967296 ∧
    (extra_at (link_with_lui env st offset reg mem_imm) offset).linked_value =
      (to_u32 (operand (insn_at st s) 1).imm * 65536 + mem_imm) % 4294967296 := by
  rw [link_with_lui_hit env st offset reg mem_imm s hm hs hwin hlui hreg hpass]
  have hne : ¬ (offset = s ∧ offset < st.insn_extra.length) := by omega
  have hs2 : s = s ∧ s < st.insn_extra.length := ⟨rfl, by omega⟩
  have ho2 : offset = offset ∧ offset < st.insn_extra.length := ⟨rfl, hoff⟩
  rw [← pair_addr_eq]
  refine ⟨?_, ?_, ?_, ?_⟩
  · rw [extra_at_link_pair, if_neg hne, if_pos hs2]
  · rw [extra_at_link_pair, if_pos ho2]
  · rw [extra_at_link_pair, if_neg hne, if_pos hs2]
  · rw [extra_at_link_pair, if_pos ho2]

/-- A state holding `lui $at, 0x8024; addiu $at, $at, 0x1000` with fresh extras. -/
theorem link_with_lui_cross_links_witness :
    (extra_at (link_with_lui (sample_env []) sample_pair_state 1 2 4096) 0).linked_insn = (1 : Int) ∧
    (extra_at (link_with_lui (sample_env []) sample_pair_state 1 2 4096) 1).linked_insn = (0 : Int) ∧
    (extra_at (link_with_lui (sample_env []) sample_pair_state 1 2 4096) 0).linked_value =
      (to_u32 (operand (insn_at sample_pair_state 0) 1).imm * 65536 + 4096) % 4294967296 ∧
    (extra_at (link_with_lui (sample_env []) sample_pair_state 1 2 4096) 1).linked_value =
      (to_u32 (operand (insn_at sample_pair_state 0) 1).imm * 65536 + 4096) % 4294967296 :=
  link_with_lui_cross_links (sample_env []) sample_pair_state 1 2 4096 0 (by decide) (by decide)
    (by decide) (by decide) (by decide) (by decide) (fun j h1 h2 => by omega)

/-- C6: a call of `link_with_lui` that links `offset` (unlinked before) with index `s`
found a `lui` of `reg` at `s` with `offset - 128 <= s < offset`, no `jr $ra` lies
between `s` and `offset`, and the call changes no extras entry other than those of
`s` and `offset` (so none below `offset - 128`), no instruction and no existing
label. -/
theorem link_with_lui_window (env : Env) (st : disasm_state) (offset reg mem_imm s : Nat)
    (hpre : (extra_at st offset).linked_insn = -1)
    (hpost : (extra_at (link_with_lui env st offset reg mem_imm) offset).linked_insn = (s : Int)) :
    (offset : Int) - 128 ≤ s ∧ s < offset ∧
    (insn_at st s).id = .LUI ∧ (operand (insn_at st s) 0).reg = reg ∧
    (∀ j, s < j → j < offset →
      ¬ ((insn_at st j).id = .JR ∧ (operand (insn_at st j) 0).reg = env.MIPS_REG_RA)) ∧
    (∀ j : Nat, (j : Int) < (offset : Int) - 128 →
      extra_at (link_with_lui env st offset reg mem_imm) j = extra_at st j) ∧
    (∀ j : Nat, j ≠ s → j ≠ offset →
      extra_at (link_with_lui env st offset reg mem_imm) j = extra_at st j) ∧
    (link_with_lui env st offset reg mem_imm).instructions = st.instructions ∧
    st.labels <+: (link_with_lui env st offset reg mem_imm).labels := by
  rcases link_with_lui_cases env st offset reg mem_imm with h | ⟨s', hm, hs, hwin, hl, hr, hp, heq⟩
  · rw [h, hpre] at hpost
    omega
  · rw [heq] at hpost ⊢
    have hframe : ∀ j : Nat, j ≠ s' → j ≠ offset →
        extra_at (link_pair st offset s' mem_imm) j = extra_at st j := by
      intro j h1 h2
      rw [extra_at_link_pair]
      have n1 : ¬ (offset = j ∧ offset < st.insn_extra.length) := fun h => h2 h.1.symm
      have n2 : ¬ (s' = j ∧ s' < st.insn_extra.length) := fun h => h1 h.1.symm
      rw [if_neg n1, if_neg n2]
    have hss : s' = s := by
      rw [extra_at_link_pair] at hpost
      by_cases ho : offset = offset ∧ offset < st.insn_extra.length
      · rw [if_pos ho] at hpost
        have : (s' : Int) = (s : Int) := hpost
        omega
      · rw [if_neg ho] at hpost
        have n2 : ¬ (s' = offset ∧ s' < st.insn_extra.length) := by omega
        rw [if_neg n2, hpre] at hpost
        omega
    subst hss
    refine ⟨hwin, hs, hl, hr, ?_, ?_, hframe, link_pair_instructions _ _ _ _,
      link_pair_grows _ _ _ _⟩
    · intro j h1 h2
      exact (hp j h1 h2).2.2
    · intro j hj
      exact hframe j (by omega) (by omega)

/-- The call of the witness of C1 links index 1 with the `lui` at index 0. -/
theorem link_with_lui_window_witness :
    ((1 : Nat) : Int) - 128 ≤ ((0 : Nat) : Int) ∧ 0 < 1 ∧
    (insn_at sample_pair_state 0).id = .LUI :=
  have h := link_with_lui_window (sample_env []) sample_pair_state 1 2 4096 0
    (by decide) (by decide)
  ⟨h.1, h.2.1, h.2.2.1⟩

/-! ## The comparator `cmp_label` and the sort -/

theorem strcmp_range (a b : List Char) : strcmp a b = -1 ∨ strcmp a b = 0 ∨ strcmp a b = 1 := by
  induction a generalizing b with
  | nil => cases b <;> simp [strcmp]
  | cons x xs ih =>
    cases b with
    | nil => simp [strcmp]
    | cons y ys =>
      unfold strcmp
      split_ifs
      · simp
      · simp
      · exact ih ys

theorem strcmp_lex (a b : List Char) : strcmp a b < 0 ↔ List.Lex (· < ·) a b := by
  induction a generalizing b with
  | nil =>
    cases b with
    | nil => simp [strcmp, List.Lex.not_nil_right]
    | cons y ys => simp [strcmp, List.Lex.nil]
  | cons x xs ih =>
    cases b with
    | nil => simp [strcmp, List.Lex.not_nil_right]
    | cons y ys =>
      unfold strcmp
      by_cases h1 : x.toNat < y.toNat
      · simp only [h1, if_true]
        have : x < y := h1
        simp [List.Lex.rel this]
      · by_cases h2 : y.toNat < x.toNat
        · simp only [h1, h2, if_true, if_false]
          have hyx : y < x := h2
          constructor
          · intro h; omega
          · intro h
            cases h with
            | cons h' => exact absurd hyx (lt_irrefl _)
            | rel h' => exact absurd (lt_trans h' hyx) (lt_irrefl _)
        · simp only [h1, h2, if_false]
          have hxy : x = y := by
            apply Char.eq_of_val_eq
            apply UInt32.ext
            have e1 : x.toNat = x.val.toNat := rfl
            have e2 : y.toNat = y.val.toNat := rfl
            omega
          subst hxy
          rw [ih ys, List.Lex.cons_iff]

theorem strcmp_eq_zero (a b : List Char) : strcmp a b = 0 ↔ a = b := by
  induction a generalizing b with
  | nil => cases b <;> simp [strcmp]
  | cons x xs ih =>
    cases b with
    | nil => simp [strcmp]
    | cons y ys =>
      unfold strcmp
      by_cases h1 : x.toNat < y.toNat
      · simp only [h1, if_true]
        constructor
        · intro h; omega
        · intro h
          injection h with hx _
          subst hx
          omega
      · by_cases h2 : y.toNat < x.toNat
        · simp only [h1, h2, if_true, if_false]
          constructor
          · intro h; omega
          · intro h
            injection h with hx _
            subst hx
            omega
        · simp only [h1, h2, if_false]
          have hxy : x = y := by
            apply Char.eq_of_val_eq
            apply UInt32.ext
            have e1 : x.toNat = x.val.toNat := rfl
            have e2 : y.toNat = y.val.toNat := rfl
            omega
          subst hxy
          rw [ih ys]
          simp

theorem strcmp_swap (a b : List Char) : strcmp b a = - strcmp a b := by
  induction a generalizing b with
  | nil => cases b <;> simp [strcmp]
  | cons x xs ih =>
    cases b with
    | nil => simp [strcmp]
    | cons y ys =>
      unfold strcmp
      by_cases h1 : x.toNat < y.toNat
      · have h2 : ¬ y.toNat < x.toNat := by omega
        simp [h1, h2]
      · by_cases h2 : y.toNat < x.toNat
        · simp [h1, h2]
        · simp only [h1, h2, if_false]
          exact ih ys

theorem string_lt_lex (s t : String) : s < t ↔ List.Lex (· < ·) s.data t.data := by
  rw [String.lt_iff_toList_lt]
  exact Iff.rfl

theorem strcmp_le_iff (s t : String) : strcmp s.data t.data ≤ 0 ↔ s ≤ t := by
  have h1 : s ≤ t ↔ ¬ t < s := not_lt.symm
  rw [h1, string_lt_lex, ← strcmp_lex, strcmp_swap s.data t.data]
  omega

theorem cmp_label_swap (a b : asm_label) : cmp_label b a = - cmp_label a b := by
  unfold cmp_label
  have hs := strcmp_swap a.name.data b.name.data
  split_ifs <;> omega

theorem cmp_label_eq_zero (a b : asm_label) :
    cmp_label a b = 0 ↔ (a.vaddr = b.vaddr ∧ a.global = b.global ∧ a.name = b.name) := by
  unfold cmp_label
  have hz := strcmp_eq_zero a.name.data b.name.data
  have hn : a.name.data = b.name.data ↔ a.name = b.name :=
    ⟨fun h => String.ext h, fun h => by rw [h]⟩
  split_ifs with h1 h2 h3 h4
  · constructor
    · intro h; exact absurd h (by decide)
    · intro h; have := h.1; omega
  · constructor
    · intro h; exact absurd h (by decide)
    · intro h; have := h.1; omega
  · constructor
    · intro h; exact absurd h (by decide)
    · intro h; have := h.2.1; omega
  · constructor
    · intro h; exact absurd h (by decide)
    · intro h; have := h.2.1; omega
  · rw [hz, hn]
    constructor
    · intro h
      exact ⟨by omega, by omega, h⟩
    · intro h
      exact h.2.2

theorem cmp_label_eq_zero_iff_eq (a b : asm_label) : cmp_label a b = 0 ↔ a = b := by
  rw [cmp_label_eq_zero]
  constructor
  · intro h
    cases a
    cases b
    simp only [asm_label.mk.injEq]
    exact ⟨h.2.2, h.2.1, h.1⟩
  · intro h
    subst h
    exact ⟨rfl, rfl, rfl⟩

theorem cmp_label_le_iff (a b : asm_label) : cmp_label a b ≤ 0 ↔ canonical_le a b := by
  unfold cmp_label canonical_le
  have hs := strcmp_le_iff a.name b.name
  split_ifs with h1 h2 h3 h4
  · constructor
    · intro h; omega
    · intro h; omega
  · constructor
    · intro _; left; omega
    · intro _; omega
  · constructor
    · intro h; omega
    · intro h; omega
  · constructor
    · intro _; right; exact ⟨by omega, Or.inl (by omega)⟩
    · intro _; omega
  · rw [hs]
    constructor
    · intro h; right; exact ⟨by omega, Or.inr ⟨by omega, h⟩⟩
    · intro h
      rcases h with h | ⟨_, h | ⟨_, h⟩⟩
      · omega
      · omega
      · exact h

theorem canonical_le_trans (a b c : asm_label) (h1 : canonical_le a b)
    (h2 : canonical_le b c) : canonical_le a c := by
  unfold canonical_le at *
  rcases h1 with h1 | ⟨e1, h1 | ⟨g1, n1⟩⟩ <;> rcases h2 with h2 | ⟨e2, h2 | ⟨g2, n2⟩⟩
  · left; omega
  · left; omega
  · left; omega
  · left; omega
  · right; exact ⟨by omega, Or.inl (by omega)⟩
  · right; exact ⟨by omega, Or.inl (by omega)⟩
  · left; omega
  · right; exact ⟨by omega, Or.inl (by omega)⟩
  · right; exact ⟨by omega, Or.inr ⟨by omega, le_trans n1 n2⟩⟩

theorem cmp_label_trans (a b c : asm_label) (h1 : cmp_label a b ≤ 0)
    (h2 : cmp_label b c ≤ 0) : cmp_label a c ≤ 0 := by
  rw [cmp_label_le_iff] at *
  exact canonical_le_trans a b c h1 h2

instance : IsTrans asm_label label_le :=
  ⟨fun a b c h1 h2 => cmp_label_trans a b c h1 h2⟩

instance : IsTotal asm_label label_le :=
  ⟨fun a b => by
    unfold label_le
    have := cmp_label_swap a b
    omega⟩

instance : IsAntisymm asm_label label_le :=
  ⟨fun a b h1 h2 => by
    unfold label_le at h1 h2
    have := cmp_label_swap a b
    exact (cmp_label_eq_zero_iff_eq a b).mp (by omega)⟩

/-- Every list that is a permutation of `labels` and sorted by `cmp_label` is the
list `qsort_labels` returns: the result of the sort does not depend on the sorting
procedure. -/
theorem qsort_unique (labels sorted : List asm_label) (hp : sorted.Perm labels)
    (hs : sorted.Sorted label_le) : sorted = qsort_labels labels :=
  List.eq_of_perm_of_sorted (hp.trans (List.perm_insertionSort label_le labels).symm) hs
    (List.sorted_insertionSort label_le labels)

theorem qsort_sorted_eq (labels : List asm_label) (hs : labels.Sorted label_le) :
    qsort_labels labels = labels :=
  (qsort_unique labels labels (List.Perm.refl _) hs).symm

theorem pass1_eq (env : Env) (data : List Nat) (vaddr : Nat) (syn : asm_syntax)
    (mp : Bool) (st : Option disasm_state) :
    mipsdisasm_pass1 env data vaddr syn mp st =
      { disassemble_block env data vaddr (pass1_entry syn st) mp with
        labels := qsort_labels (disassemble_block env data vaddr (pass1_entry syn st) mp).labels } := by
  cases st <;> rfl

/-- C4: after `mipsdisasm_pass1` the label table is a permutation of the labels
accumulated by `disassemble_block`, every adjacent pair is non-decreasing in the
canonical order (vaddr, then global, then name), and `cmp_label` is a total order:
antisymmetric, transitive, zero only on equal vaddr, global and name, and it agrees
with the canonical order. -/
theorem pass1_labels_sorted (env : Env) (data : List Nat) (vaddr : Nat) (syn : asm_syntax)
    (mp : Bool) (st : Option disasm_state) :
    (mipsdisasm_pass1 env data vaddr syn mp st).labels.Perm
      (disassemble_block env data vaddr (pass1_entry syn st) mp).labels ∧
    (mipsdisasm_pass1 env data vaddr syn mp st).labels.Chain' canonical_le ∧
    (∀ a b, cmp_label b a = - cmp_label a b) ∧
    (∀ a b c, cmp_label a b ≤ 0 → cmp_label b c ≤ 0 → cmp_label a c ≤ 0) ∧
    (∀ a b, cmp_label a b = 0 ↔ (a.vaddr = b.vaddr ∧ a.global = b.global ∧ a.name = b.name)) ∧
    (∀ a b, cmp_label a b ≤ 0 ↔ canonical_le a b) := by
  rw [pass1_eq]
  refine ⟨List.perm_insertionSort label_le _, ?_, cmp_label_swap, cmp_label_trans,
    cmp_label_eq_zero, cmp_label_le_iff⟩
  have hs : List.Sorted label_le
      (qsort_labels (disassemble_block env data vaddr (pass1_entry syn st) mp).labels) :=
    List.sorted_insertionSort label_le _
  have hc : List.Chain' label_le
      (qsort_labels (disassemble_block env data vaddr (pass1_entry syn st) mp).labels) :=
    List.chain'_iff_pairwise.mpr hs
  exact List.Chain'.imp (fun a b h => (cmp_label_le_iff a b).mp h) hc

/-! ## `label_find` and the labels of control transfers -/

theorem label_find_from_neg (L : List asm_label) (v i : Nat) :
    label_find_from L v i < 0 ↔ ¬ has_label L v := by
  induction L generalizing i with
  | nil => simp [label_find_from, has_label]
  | cons l rest ih =>
    unfold label_find_from
    by_cases h : l.vaddr = v
    · simp only [h, if_true]
      constructor
      · intro h'; omega
      · intro h'
        exact absurd ⟨l, List.mem_cons_self _ _, h⟩ h'
    · simp only [h, if_false]
      rw [ih (i + 1)]
      unfold has_label
      constructor
      · rintro h' ⟨x, hx, hxv⟩
        rcases List.mem_cons.mp hx with rfl | hx
        · exact h hxv
        · exact h' ⟨x, hx, hxv⟩
      · rintro h' ⟨x, hx, hxv⟩
        exact h' ⟨x, List.mem_cons_of_mem _ hx, hxv⟩

theorem label_find_neg (st : disasm_state) (v : Nat) :
    label_find st v < 0 ↔ ¬ has_label st.labels v :=
  label_find_from_neg st.labels v 0

theorem has_label_of_grows {L M : List asm_label} {v : Nat} (h : L <+: M)
    (hl : has_label L v) : has_label M v := by
  obtain ⟨l, hm, hv⟩ := hl
  exact ⟨l, h.subset hm, hv⟩

theorem has_label_of_perm {L M : List asm_label} {v : Nat} (h : L.Perm M)
    (hl : has_label L v) : has_label M v := by
  obtain ⟨l, hm, hv⟩ := hl
  exact ⟨l, h.subset hm, hv⟩

theorem branch_label_instructions (st : disasm_state) (op : cs_mips_op) :
    (branch_label st op).instructions = st.instructions := by
  unfold branch_label
  simp only []
  split_ifs <;> rfl

theorem branch_label_extra (st : disasm_state) (op : cs_mips_op) :
    (branch_label st op).insn_extra = st.insn_extra := by
  unfold branch_label
  simp only []
  split_ifs <;> rfl

theorem branch_label_vaddr (st : disasm_state) (op : cs_mips_op) :
    (branch_label st op).vaddr = st.vaddr := by
  unfold branch_label
  simp only []
  split_ifs <;> rfl

theorem branch_label_dialect (st : disasm_state) (op : cs_mips_op) :
    (branch_label st op).syntax_ = st.syntax_ := by
  unfold branch_label
  simp only []
  split_ifs <;> rfl

theorem branch_label_labels (st : disasm_state) (op : cs_mips_op) :
    (branch_label st op).labels =
      if op.type = .MIPS_OP_IMM ∧ label_find st (to_u32 op.imm) < 0 then
        st.labels ++ [local_label st.syntax_ (to_u32 op.imm)]
      else st.labels := by
  unfold branch_label local_label
  by_cases h1 : op.type = .MIPS_OP_IMM
  · by_cases h2 : label_find st (to_u32 op.imm) < 0
    · simp only [h1, h2, if_true, and_self, label_add_labels]
    · simp only [h1, h2, if_true, if_false, and_false]
  · simp only [h1, if_false, false_and]

theorem branch_label_grows (st : disasm_state) (op : cs_mips_op) :
    st.labels <+: (branch_label st op).labels := by
  rw [branch_label_labels]
  split_ifs
  · exact List.prefix_append _ _
  · exact List.prefix_refl _

theorem branch_label_has (st : disasm_state) (op : cs_mips_op)
    (h : op.type = .MIPS_OP_IMM) : has_label (branch_label st op).labels (to_u32 op.imm) := by
  rw [branch_label_labels]
  by_cases h2 : label_find st (to_u32 op.imm) < 0
  · rw [if_pos ⟨h, h2⟩]
    exact ⟨local_label st.syntax_ (to_u32 op.imm), by simp, rfl⟩
  · rw [if_neg (fun hh => h2 hh.2)]
    by_contra hc
    exact h2 ((label_find_neg st _).mpr hc)

theorem branch_label_new (st : disasm_state) (op : cs_mips_op) (v : Nat)
    (hold : ¬ has_label st.labels v) (hnew : has_label (branch_label st op).labels v) :
    local_label st.syntax_ v ∈ (branch_label st op).labels := by
  rw [branch_label_labels] at hnew ⊢
  by_cases hc : op.type = .MIPS_OP_IMM ∧ label_find st (to_u32 op.imm) < 0
  · rw [if_pos hc] at hnew ⊢
    obtain ⟨l, hl, hv⟩ := hnew
    rcases List.mem_append.mp hl with hl | hl
    · exact absurd ⟨l, hl, hv⟩ hold
    · have hl2 : l = local_label st.syntax_ (to_u32 op.imm) := by simpa using hl
      have hv2 : to_u32 op.imm = v := by
        rw [hl2] at hv
        exact hv
      rw [hv2]
      simp
  · rw [if_neg hc] at hnew
    exact absurd hnew hold

theorem foldl_branch_label_instructions (ops : List cs_mips_op) (st : disasm_state) :
    (ops.foldl branch_label st).instructions = st.instructions := by
  induction ops generalizing st with
  | nil => rfl
  | cons a rest ih => rw [List.foldl_cons, ih, branch_label_instructions]

theorem foldl_branch_label_extra (ops : List cs_mips_op) (st : disasm_state) :
    (ops.foldl branch_label st).insn_extra = st.insn_extra := by
  induction ops generalizing st with
  | nil => rfl
  | cons a rest ih => rw [List.foldl_cons, ih, branch_label_extra]

theorem foldl_branch_label_vaddr (ops : List cs_mips_op) (st : disasm_state) :
    (ops.foldl branch_label st).vaddr = st.vaddr := by
  induction ops generalizing st with
  | nil => rfl
  | cons a rest ih => rw [List.foldl_cons, ih, branch_label_vaddr]

theorem foldl_branch_label_dialect (ops : List cs_mips_op) (st : disasm_state) :
    (ops.foldl branch_label st).syntax_ = st.syntax_ := by
  induction ops generalizing st with
  | nil => rfl
  | cons a rest ih => rw [List.foldl_cons, ih, branch_label_dialect]

theorem foldl_branch_label_grows (ops : List cs_mips_op) (st : disasm_state) :
    st.labels <+: (ops.foldl branch_label st).labels := by
  induction ops generalizing st with
  | nil => exact List.prefix_refl _
  | cons a rest ih =>
    rw [List.foldl_cons]
    exact (branch_label_grows st a).trans (ih _)

theorem foldl_branch_label_has (ops : List cs_mips_op) (st : disasm_state) (op : cs_mips_op)
    (hm : op ∈ ops) (h : op.type = .MIPS_OP_IMM) :
    has_label (ops.foldl branch_label st).labels (to_u32 op.imm) := by
  induction ops generalizing st with
  | nil => simp at hm
  | cons a rest ih =>
    rw [List.foldl_cons]
    rcases List.mem_cons.mp hm with rfl | hm
    · exact has_label_of_grows (foldl_branch_label_grows rest _) (branch_label_has st op h)
    · exact ih _ hm

theorem foldl_branch_label_new (ops : List cs_mips_op) (st : disasm_state) (op : cs_mips_op)
    (hm : op ∈ ops) (h : op.type = .MIPS_OP_IMM)
    (hold : ¬ has_label st.labels (to_u32 op.imm)) :
    local_label st.syntax_ (to_u32 op.imm) ∈ (ops.foldl branch_label st).labels := by
  induction ops generalizing st with
  | nil => simp at hm
  | cons a rest ih =>
    rw [List.foldl_cons]
    by_cases hn : has_label (branch_label st a).labels (to_u32 op.imm)
    · exact (foldl_branch_label_grows rest _).subset (branch_label_new st a _ hold hn)
    · rcases List.mem_cons.mp hm with rfl | hm
      · exact absurd (branch_label_has st op h) hn
      · have := ih (branch_label st a) hm hn
        rw [branch_label_dialect] at this
        exact this

/-! ## The loop body of `disassemble_block`, case by case -/

theorem label_step_instructions (env : Env) (st : disasm_state) (i : Nat) :
    (label_step env st i).instructions = st.instructions := by
  unfold label_step
  simp only []
  split_ifs <;> first | rfl | exact foldl_branch_label_instructions _ _

theorem label_step_vaddr (env : Env) (st : disasm_state) (i : Nat) :
    (label_step env st i).vaddr = st.vaddr := by
  unfold label_step
  simp only []
  split_ifs <;> first | rfl | exact foldl_branch_label_vaddr _ _

theorem label_step_dialect (env : Env) (st : disasm_state) (i : Nat) :
    (label_step env st i).syntax_ = st.syntax_ := by
  unfold label_step
  simp only []
  split_ifs <;> first | rfl | exact foldl_branch_label_dialect _ _

theorem label_step_grows (env : Env) (st : disasm_state) (i : Nat) :
    st.labels <+: (label_step env st i).labels := by
  unfold label_step
  simp only []
  split_ifs <;>
    first
    | exact List.prefix_refl _
    | exact foldl_branch_label_grows _ _
    | exact List.prefix_append _ _

theorem label_step_extra (env : Env) (st : disasm_state) (i : Nat) :
    (label_step env st i).insn_extra = st.insn_extra ∨
    (label_step env st i).insn_extra =
      (upd_extra st (i + 2) (fun e => { e with newline := 1 })).insn_extra := by
  unfold label_step
  simp only []
  split_ifs <;>
    first
    | (left; rfl)
    | (right; rfl)
    | (left; exact foldl_branch_label_extra _ _)

theorem label_step_extra_length (env : Env) (st : disasm_state) (i : Nat) :
    (label_step env st i).insn_extra.length = st.insn_extra.length := by
  rcases label_step_extra env st i with h | h <;> rw [h]
  exact upd_extra_length _ _ _

theorem extra_at_label_step (env : Env) (st : disasm_state) (i j : Nat) :
    (extra_at (label_step env st i) j).linked_insn = (extra_at st j).linked_insn ∧
    (extra_at (label_step env st i) j).linked_value = (extra_at st j).linked_value ∧
    (j ≠ i + 2 → extra_at (label_step env st i) j = extra_at st j) := by
  rcases label_step_extra env st i with h | h
  · have : extra_at (label_step env st i) j = extra_at st j := by
      unfold extra_at
      rw [h]
    rw [this]
    exact ⟨rfl, rfl, fun _ => rfl⟩
  · have : extra_at (label_step env st i) j =
        extra_at (upd_extra st (i + 2) (fun e => { e with newline := 1 })) j := by
      unfold extra_at
      rw [h]
    rw [this, extra_at_upd_extra]
    by_cases hc : i + 2 = j ∧ i + 2 < st.insn_extra.length
    · rw [if_pos hc]
      obtain ⟨rfl, _⟩ := hc
      exact ⟨rfl, rfl, fun hne => absurd rfl hne⟩
    · rw [if_neg hc]
      exact ⟨rfl, rfl, fun _ => rfl⟩

theorem insn_at_label_step (env : Env) (st : disasm_state) (i j : Nat) :
    insn_at (label_step env st i) j = insn_at st j := by
  unfold insn_at
  rw [label_step_instructions]

theorem mtc1_scan_cases (env : Env) (st : disasm_state) (i rt : Nat) :
    ∀ k, mtc1_scan env st i rt k = st ∨
      ∃ s, s < k ∧ (insn_at st s).id = .LUI ∧ (operand (insn_at st s) 0).reg = rt ∧
        mtc1_scan env st i rt k = mtc1_link st i s := by
  intro k
  induction k with
  | zero => left; rfl
  | succ k ih =>
    have lift : mtc1_scan env st i rt k = st ∨
        ∃ s, s < k + 1 ∧ (insn_at st s).id = .LUI ∧ (operand (insn_at st s) 0).reg = rt ∧
          mtc1_scan env st i rt k = mtc1_link st i s := by
      rcases ih with h | ⟨s, hs, hl, hr, heq⟩
      · left; exact h
      · right; exact ⟨s, by omega, hl, hr, heq⟩
    unfold mtc1_scan
    simp only []
    by_cases h1 : (insn_at st k).id = .LUI ∧ (operand (insn_at st k) 0).reg = rt
    · right
      refine ⟨k, by omega, h1.1, h1.2, ?_⟩
      rw [if_pos h1]
      rfl
    · rw [if_neg h1]
      split_ifs
      · left; rfl
      · exact lift
      · left; rfl
      · exact lift

theorem pseudo_step_cases (env : Env) (st : disasm_state) (i : Nat) :
    pseudo_step env st i = st ∨
    (∃ s, s < i ∧ (insn_at st s).id = .LUI ∧ (insn_at st i).id = .MTC1 ∧
      pseudo_step env st i = mtc1_link st i s) ∨
    (((insn_at st i).id = .ADDIU ∨ (insn_at st i).id = .ORI) ∧
      pseudo_step env st i = li_rewrite env st i) ∨
    (is_low_user (insn_at st i).id ∧
      pseudo_step env st i =
        link_with_lui env st i (user_reg (insn_at st i)) (user_imm (insn_at st i))) := by
  by_cases hm : is_mem_user (insn_at st i).id
  · right; right; right
    refine ⟨Or.inl hm, ?_⟩
    unfold is_mem_user at hm
    rcases hm with h | h | h | h | h | h | h | h | h | h | h | h | h <;>
      (unfold pseudo_step; simp only [h]; simp [user_reg, user_imm, h])
  · by_cases ha : (insn_at st i).id = .ADDIU ∨ (insn_at st i).id = .ORI
    · by_cases hz : (operand (insn_at st i) 1).reg = env.MIPS_REG_ZERO
      · right; right; left
        refine ⟨ha, ?_⟩
        rcases ha with h | h <;>
          (unfold pseudo_step li_rewrite; simp only [h, hz, if_true])
      · by_cases hr : (operand (insn_at st i) 0).reg = (operand (insn_at st i) 1).reg
        · right; right; right
          refine ⟨Or.inr ha, ?_⟩
          rcases ha with h | h <;>
            (unfold pseudo_step; simp only [h, hz, hr, if_true, if_false]
             simp [user_reg, user_imm, h])
        · left
          rcases ha with h | h <;>
            (unfold pseudo_step; simp only [h, hz, hr, if_false])
    · by_cases hmt : (insn_at st i).id = .MTC1
      · rcases mtc1_scan_cases env st i (operand (insn_at st i) 0).reg i with
          h | ⟨s, hs, hl, _, heq⟩
        · left
          unfold pseudo_step
          simp only [hmt]
          exact h
        · right; left
          refine ⟨s, hs, hl, hmt, ?_⟩
          unfold pseudo_step
          simp only [hmt]
          exact heq
      · left
        unfold is_mem_user at hm
        unfold pseudo_step
        cases hid : (insn_at st i).id <;> simp_all

/-! ## The loop body of `disassemble_block`: what an iteration changes -/

theorem mtc1_link_labels (st : disasm_state) (i s : Nat) :
    (mtc1_link st i s).labels = st.labels := rfl

theorem li_rewrite_labels (env : Env) (st : disasm_state) (i : Nat) :
    (li_rewrite env st i).labels = st.labels := rfl

theorem link_with_lui_grows (env : Env) (st : disasm_state) (o reg m : Nat) :
    st.labels <+: (link_with_lui env st o reg m).labels := by
  rcases link_with_lui_cases env st o reg m with h | ⟨s, _, _, _, _, _, _, h⟩
  · rw [h]
  · rw [h]
    exact link_pair_grows _ _ _ _

theorem link_with_lui_instructions (env : Env) (st : disasm_state) (o reg m : Nat) :
    (link_with_lui env st o reg m).instructions = st.instructions := by
  rcases link_with_lui_cases env st o reg m with h | ⟨s, _, _, _, _, _, _, h⟩
  · rw [h]
  · rw [h]
    exact link_pair_instructions _ _ _ _

theorem link_with_lui_vaddr (env : Env) (st : disasm_state) (o reg m : Nat) :
    (link_with_lui env st o reg m).vaddr = st.vaddr := by
  rcases link_with_lui_cases env st o reg m with h | ⟨s, _, _, _, _, _, _, h⟩
  · rw [h]
  · rw [h]
    exact link_pair_vaddr _ _ _ _

theorem link_with_lui_dialect (env : Env) (st : disasm_state) (o reg m : Nat) :
    (link_with_lui env st o reg m).syntax_ = st.syntax_ := by
  rcases link_with_lui_cases env st o reg m with h | ⟨s, _, _, _, _, _, _, h⟩
  · rw [h]
  · rw [h]
    exact link_pair_dialect _ _ _ _

theorem link_with_lui_extra_length (env : Env) (st : disasm_state) (o reg m : Nat) :
    (link_with_lui env st o reg m).insn_extra.length = st.insn_extra.length := by
  rcases link_with_lui_cases env st o reg m with h | ⟨s, _, _, _, _, _, _, h⟩
  · rw [h]
  · rw [h, link_pair_extra]
    simp

theorem pseudo_step_grows (env : Env) (st : disasm_state) (i : Nat) :
    st.labels <+: (pseudo_step env st i).labels := by
  rcases pseudo_step_cases env st i with h | ⟨s, _, _, _, h⟩ | ⟨_, h⟩ | ⟨_, h⟩
  · rw [h]
  · rw [h]; exact List.prefix_refl _
  · rw [h]; exact List.prefix_refl _
  · rw [h]; exact link_with_lui_grows _ _ _ _ _

theorem pseudo_step_dialect (env : Env) (st : disasm_state) (i : Nat) :
    (pseudo_step env st i).syntax_ = st.syntax_ := by
  rcases pseudo_step_cases env st i with h | ⟨s, _, _, _, h⟩ | ⟨_, h⟩ | ⟨_, h⟩
  · rw [h]
  · rw [h]; rfl
  · rw [h]; rfl
  · rw [h]; exact link_with_lui_dialect _ _ _ _ _

theorem pseudo_step_vaddr (env : Env) (st : disasm_state) (i : Nat) :
    (pseudo_step env st i).vaddr = st.vaddr := by
  rcases pseudo_step_cases env st i with h | ⟨s, _, _, _, h⟩ | ⟨_, h⟩ | ⟨_, h⟩
  · rw [h]
  · rw [h]; rfl
  · rw [h]; rfl
  · rw [h]; exact link_with_lui_vaddr _ _ _ _ _

theorem pseudo_step_extra_length (env : Env) (st : disasm_state) (i : Nat) :
    (pseudo_step env st i).insn_extra.length = st.insn_extra.length := by
  rcases pseudo_step_cases env st i with h | ⟨s, _, _, _, h⟩ | ⟨_, h⟩ | ⟨_, h⟩
  · rw [h]
  · rw [h]; simp [mtc1_link]
  · rw [h]; simp [li_rewrite]
  · rw [h]; exact link_with_lui_extra_length _ _ _ _ _

theorem pseudo_step_insn_length (env : Env) (st : disasm_state) (i : Nat) :
    (pseudo_step env st i).instructions.length = st.instructions.length := by
  rcases pseudo_step_cases env st i with h | ⟨s, _, _, _, h⟩ | ⟨_, h⟩ | ⟨_, h⟩
  · rw [h]
  · rw [h]; simp [mtc1_link]
  · rw [h]; simp [li_rewrite]
  · rw [h, link_with_lui_instructions]

/-- The state after the reset of `linked_insn` and the labelling of iteration `i`. -/
theorem insn_step_eq (env : Env) (mp : Bool) (st : disasm_state) (i : Nat) :
    insn_step env mp st i =
      if mp then
        pseudo_step env
          (label_step env (upd_extra st i (fun e => { e with linked_insn := -1 })) i) i
      else label_step env (upd_extra st i (fun e => { e with linked_insn := -1 })) i := by
  unfold insn_step
  cases mp <;> simp

theorem insn_step_grows (env : Env) (mp : Bool) (st : disasm_state) (i : Nat) :
    st.labels <+: (insn_step env mp st i).labels := by
  rw [insn_step_eq]
  have h1 : st.labels <+:
      (label_step env (upd_extra st i (fun e => { e with linked_insn := -1 })) i).labels :=
    label_step_grows env (upd_extra st i (fun e => { e with linked_insn := -1 })) i
  split_ifs
  · exact h1.trans (pseudo_step_grows env _ i)
  · exact h1

theorem insn_step_dialect (env : Env) (mp : Bool) (st : disasm_state) (i : Nat) :
    (insn_step env mp st i).syntax_ = st.syntax_ := by
  rw [insn_step_eq]
  split_ifs
  · rw [pseudo_step_dialect, label_step_dialect]; rfl
  · rw [label_step_dialect]; rfl

theorem insn_step_vaddr (env : Env) (mp : Bool) (st : disasm_state) (i : Nat) :
    (insn_step env mp st i).vaddr = st.vaddr := by
  rw [insn_step_eq]
  split_ifs
  · rw [pseudo_step_vaddr, label_step_vaddr]; rfl
  · rw [label_step_vaddr]; rfl

theorem insn_step_extra_length (env : Env) (mp : Bool) (st : disasm_state) (i : Nat) :
    (insn_step env mp st i).insn_extra.length = st.insn_extra.length := by
  rw [insn_step_eq]
  split_ifs
  · rw [pseudo_step_extra_length, label_step_extra_length, upd_extra_length]
  · rw [label_step_extra_length, upd_extra_length]

theorem insn_step_insn_length (env : Env) (mp : Bool) (st : disasm_state) (i : Nat) :
    (insn_step env mp st i).instructions.length = st.instructions.length := by
  rw [insn_step_eq]
  split_ifs
  · rw [pseudo_step_insn_length, label_step_instructions]; rfl
  · rw [label_step_instructions]; rfl

theorem insn_at_mtc1_link (st : disasm_state) (i s j : Nat) :
    insn_at (mtc1_link st i s) j =
      if s = j ∧ s < st.instructions.length then
        { insn_at st s with id := .LI, mnemonic := "li" }
      else insn_at st j := by
  unfold mtc1_link
  rw [insn_at_upd_insn]
  rfl

theorem extra_at_mtc1_link (st : disasm_state) (i s j : Nat) :
    extra_at (mtc1_link st i s) j =
      if s = j ∧ s < st.insn_extra.length then
        { extra_at st s with
          linked_insn := (i : Int),
          linked_value := (to_u32 (operand (insn_at st s) 1).imm * 65536) % 4294967296 }
      else extra_at st j := by
  unfold mtc1_link
  rw [extra_at_upd_insn, extra_at_upd_extra]

theorem insn_at_li_rewrite (env : Env) (st : disasm_state) (i j : Nat) :
    insn_at (li_rewrite env st i) j =
      if i = j ∧ i < st.instructions.length then
        { insn_at st i with
          id := .LI, mnemonic := "li",
          op_str := "$" ++ env.cs_reg_name (operand (insn_at st i) 0).reg ++ ", " ++
            fmt_d (operand (insn_at st i) 2).imm }
      else insn_at st j := by
  unfold li_rewrite
  rw [insn_at_upd_insn]

theorem extra_at_li_rewrite (env : Env) (st : disasm_state) (i j : Nat) :
    extra_at (li_rewrite env st i) j = extra_at st j := rfl

/-- An instruction record after an iteration: unchanged, or rewritten to `li` from a
`lui` (by a later `mtc1`) or from `addiu`/`ori` (in its own iteration); operands,
bytes and group stay. -/
theorem pseudo_step_insn (env : Env) (st : disasm_state) (i j : Nat) :
    insn_at (pseudo_step env st i) j = insn_at st j ∨
    ((insn_at (pseudo_step env st i) j).id = .LI ∧
      ((j < i ∧ (insn_at st j).id = .LUI) ∨
       (j = i ∧ ((insn_at st j).id = .ADDIU ∨ (insn_at st j).id = .ORI))) ∧
      (insn_at (pseudo_step env st i) j).operands = (insn_at st j).operands ∧
      (insn_at (pseudo_step env st i) j).bytes = (insn_at st j).bytes ∧
      (insn_at (pseudo_step env st i) j).grp_jump = (insn_at st j).grp_jump) := by
  rcases pseudo_step_cases env st i with h | ⟨s, hs, hl, _, h⟩ | ⟨ha, h⟩ | ⟨_, h⟩
  · rw [h]; left; rfl
  · rw [h, insn_at_mtc1_link]
    by_cases hc : s = j ∧ s < st.instructions.length
    · rw [if_pos hc]
      obtain ⟨rfl, _⟩ := hc
      right
      exact ⟨rfl, Or.inl ⟨hs, hl⟩, rfl, rfl, rfl⟩
    · rw [if_neg hc]
      left; rfl
  · rw [h, insn_at_li_rewrite]
    by_cases hc : i = j ∧ i < st.instructions.length
    · rw [if_pos hc]
      obtain ⟨rfl, _⟩ := hc
      right
      exact ⟨rfl, Or.inr ⟨rfl, ha⟩, rfl, rfl, rfl⟩
    · rw [if_neg hc]
      left; rfl
  · left
    unfold insn_at
    rw [h, link_with_lui_instructions]

theorem insn_step_insn (env : Env) (mp : Bool) (st : disasm_state) (i j : Nat) :
    insn_at (insn_step env mp st i) j = insn_at st j ∨
    ((insn_at (insn_step env mp st i) j).id = .LI ∧
      ((j < i ∧ (insn_at st j).id = .LUI) ∨
       (j = i ∧ ((insn_at st j).id = .ADDIU ∨ (insn_at st j).id = .ORI))) ∧
      (insn_at (insn_step env mp st i) j).operands = (insn_at st j).operands ∧
      (insn_at (insn_step env mp st i) j).bytes = (insn_at st j).bytes ∧
      (insn_at (insn_step env mp st i) j).grp_jump = (insn_at st j).grp_jump) := by
  rw [insn_step_eq]
  have hbase : ∀ k, insn_at
      (label_step env (upd_extra st i (fun e => { e with linked_insn := -1 })) i) k =
      insn_at st k := fun k => by rw [insn_at_label_step]; rfl
  split_ifs
  · have := pseudo_step_insn env
      (label_step env (upd_extra st i (fun e => { e with linked_insn := -1 })) i) i j
    rw [hbase] at this
    exact this
  · left; exact hbase j

theorem insn_step_insn_gt (env : Env) (mp : Bool) (st : disasm_state) (i j : Nat)
    (h : i < j) : insn_at (insn_step env mp st i) j = insn_at st j := by
  rcases insn_step_insn env mp st i j with h1 | ⟨_, h2, _⟩
  · exact h1
  · omega


/-! ## The loop of `disassemble_block` -/

theorem block_upto_zero (env : Env) (mp : Bool) (insn : List cs_insn) (vaddr : Nat)
    (st : disasm_state) : block_upto env mp insn vaddr st 0 = block_init insn vaddr st := rfl

theorem block_upto_succ (env : Env) (mp : Bool) (insn : List cs_insn) (vaddr : Nat)
    (st : disasm_state) (n : Nat) :
    block_upto env mp insn vaddr st (n + 1) =
      insn_step env mp (block_upto env mp insn vaddr st n) n := by
  unfold block_upto
  rw [List.range_succ, List.foldl_append]
  rfl

theorem block_upto_dialect (env : Env) (mp : Bool) (insn : List cs_insn) (vaddr : Nat)
    (st : disasm_state) (n : Nat) :
    (block_upto env mp insn vaddr st n).syntax_ = st.syntax_ := by
  induction n with
  | zero => rfl
  | succ n ih => rw [block_upto_succ, insn_step_dialect, ih]

theorem block_upto_vaddr (env : Env) (mp : Bool) (insn : List cs_insn) (vaddr : Nat)
    (st : disasm_state) (n : Nat) :
    (block_upto env mp insn vaddr st n).vaddr = vaddr := by
  induction n with
  | zero => rfl
  | succ n ih => rw [block_upto_succ, insn_step_vaddr, ih]

theorem block_upto_extra_length (env : Env) (mp : Bool) (insn : List cs_insn) (vaddr : Nat)
    (st : disasm_state) (n : Nat) :
    (block_upto env mp insn vaddr st n).insn_extra.length = insn.length := by
  induction n with
  | zero => simp [block_upto_zero, block_init]
  | succ n ih => rw [block_upto_succ, insn_step_extra_length, ih]

theorem block_upto_insn_length (env : Env) (mp : Bool) (insn : List cs_insn) (vaddr : Nat)
    (st : disasm_state) (n : Nat) :
    (block_upto env mp insn vaddr st n).instructions.length = insn.length := by
  induction n with
  | zero => rfl
  | succ n ih => rw [block_upto_succ, insn_step_insn_length, ih]

theorem block_upto_labels_mono (env : Env) (mp : Bool) (insn : List cs_insn) (vaddr : Nat)
    (st : disasm_state) (n m : Nat) (h : n ≤ m) :
    (block_upto env mp insn vaddr st n).labels <+:
      (block_upto env mp insn vaddr st m).labels := by
  induction m with
  | zero =>
    have : n = 0 := by omega
    subst this
    exact List.prefix_refl _
  | succ m ih =>
    by_cases hn : n = m + 1
    · subst hn
      exact List.prefix_refl _
    · rw [block_upto_succ]
      exact (ih (by omega)).trans (insn_step_grows env mp _ m)

theorem block_upto_labels_start (env : Env) (mp : Bool) (insn : List cs_insn) (vaddr : Nat)
    (st : disasm_state) (n : Nat) :
    st.labels <+: (block_upto env mp insn vaddr st n).labels :=
  block_upto_labels_mono env mp insn vaddr st 0 n (Nat.zero_le n)

/-- Iteration `n` and the iterations before it leave the records from index `n` on
as decoded. -/
theorem block_upto_insn_ge (env : Env) (mp : Bool) (insn : List cs_insn) (vaddr : Nat)
    (st : disasm_state) (n j : Nat) (h : n ≤ j) :
    insn_at (block_upto env mp insn vaddr st n) j = insn.getD j zero_insn := by
  induction n with
  | zero => rfl
  | succ n ih =>
    rw [block_upto_succ, insn_step_insn_gt env mp _ n j (by omega)]
    exact ih (by omega)

theorem disassemble_block_eq (env : Env) (data : List Nat) (vaddr : Nat) (st : disasm_state)
    (mp : Bool) (h : 0 < (env.cs_disasm data vaddr).length) :
    disassemble_block env data vaddr st mp =
      block_upto env mp (env.cs_disasm data vaddr) vaddr st (env.cs_disasm data vaddr).length := by
  unfold disassemble_block
  simp only [gt_iff_lt, h, if_true]

theorem disassemble_block_zero (env : Env) (data : List Nat) (vaddr : Nat) (st : disasm_state)
    (mp : Bool) (h : (env.cs_disasm data vaddr).length = 0) :
    disassemble_block env data vaddr st mp = st := by
  unfold disassemble_block
  simp only [gt_iff_lt, h, lt_irrefl, if_false]

theorem pass1_labels_perm (env : Env) (data : List Nat) (vaddr : Nat) (syn : asm_syntax)
    (mp : Bool) (st : Option disasm_state) :
    (disassemble_block env data vaddr (pass1_entry syn st) mp).labels.Perm
      (mipsdisasm_pass1 env data vaddr syn mp st).labels := by
  rw [pass1_eq]
  exact (List.perm_insertionSort label_le _).symm

/-- Every label of the state after `n` iterations is in the table pass one returns. -/
theorem block_upto_subset_pass1 (env : Env) (data : List Nat) (vaddr : Nat)
    (syn : asm_syntax) (mp : Bool) (st : Option disasm_state) (n : Nat)
    (hn : n ≤ (env.cs_disasm data vaddr).length) (l : asm_label)
    (hl : l ∈ (block_upto env mp (env.cs_disasm data vaddr) vaddr (pass1_entry syn st) n).labels) :
    l ∈ (mipsdisasm_pass1 env data vaddr syn mp st).labels := by
  apply (pass1_labels_perm env data vaddr syn mp st).subset
  by_cases h0 : 0 < (env.cs_disasm data vaddr).length
  · rw [disassemble_block_eq env data vaddr _ mp h0]
    exact (block_upto_labels_mono env mp _ vaddr _ n _ hn).subset hl
  · have hz : (env.cs_disasm data vaddr).length = 0 := by omega
    rw [disassemble_block_zero env data vaddr _ mp hz]
    have hn0 : n = 0 := by omega
    subst hn0
    exact hl

theorem label_step_jump (env : Env) (st : disasm_state) (i : Nat)
    (hj : (insn_at st i).grp_jump = true)
    (hid : (insn_at st i).id ≠ .JR ∧ (insn_at st i).id ≠ .JALR) :
    label_step env st i = (insn_at st i).operands.foldl branch_label st := by
  unfold label_step
  have h : ¬ ((insn_at st i).id = .JR ∨ (insn_at st i).id = .JALR) := by
    rintro (h | h)
    · exact hid.1 h
    · exact hid.2 h
  simp only [hj, if_true, h, if_false]

theorem label_step_call (env : Env) (st : disasm_state) (i : Nat)
    (hj : (insn_at st i).grp_jump = false)
    (hid : (insn_at st i).id = .JAL ∨ (insn_at st i).id = .BAL) :
    label_step env st i =
      if label_find st (to_u32 (operand (insn_at st i) 0).imm) < 0 then
        label_add st ("func_" ++ fmt_08X (to_u32 (operand (insn_at st i) 0).imm))
          (to_u32 (operand (insn_at st i) 0).imm) 1
      else st := by
  unfold label_step
  simp only [hj, Bool.false_eq_true, if_false, hid, if_true]

theorem pseudo_step_call (env : Env) (st : disasm_state) (i : Nat)
    (hid : (insn_at st i).id = .JAL ∨ (insn_at st i).id = .BAL) :
    pseudo_step env st i = st := by
  unfold pseudo_step
  rcases hid with h | h <;> simp only [h]


/-! ## Pass one only adds labels at addresses that have none -/

theorem adds_fresh_refl (L : List asm_label) : adds_fresh L L :=
  ⟨[], (List.append_nil L).symm, fun l hl => absurd hl (List.not_mem_nil l), List.Pairwise.nil⟩

theorem adds_fresh_one (L : List asm_label) (l : asm_label) (h : ¬ has_label L l.vaddr) :
    adds_fresh L (L ++ [l]) := by
  refine ⟨[l], rfl, ?_, List.pairwise_singleton _ _⟩
  intro x hx
  have : x = l := by simpa using hx
  subst this
  exact h

theorem adds_fresh_trans {L M N : List asm_label} (h1 : adds_fresh L M) (h2 : adds_fresh M N) :
    adds_fresh L N := by
  obtain ⟨a, rfl, ha, da⟩ := h1
  obtain ⟨b, rfl, hb, db⟩ := h2
  refine ⟨a ++ b, (List.append_assoc L a b), ?_, ?_⟩
  · intro l hl
    rcases List.mem_append.mp hl with h | h
    · exact ha l h
    · intro hc
      exact hb l h (has_label_of_grows (List.prefix_append L a) hc)
  · unfold distinct_vaddr at da db ⊢
    rw [List.pairwise_append]
    refine ⟨da, db, ?_⟩
    intro x hx y hy hxy
    exact hb y hy ⟨x, List.mem_append_right L hx, hxy⟩

theorem adds_fresh_grows {L M : List asm_label} (h : adds_fresh L M) : L <+: M := by
  obtain ⟨a, rfl, _, _⟩ := h
  exact List.prefix_append L a

theorem branch_label_fresh (st : disasm_state) (op : cs_mips_op) :
    adds_fresh st.labels (branch_label st op).labels := by
  rw [branch_label_labels]
  by_cases hc : op.type = .MIPS_OP_IMM ∧ label_find st (to_u32 op.imm) < 0
  · rw [if_pos hc]
    exact adds_fresh_one _ _ ((label_find_neg st _).mp hc.2)
  · rw [if_neg hc]
    exact adds_fresh_refl _

theorem foldl_branch_label_fresh (ops : List cs_mips_op) (st : disasm_state) :
    adds_fresh st.labels (ops.foldl branch_label st).labels := by
  induction ops generalizing st with
  | nil => exact adds_fresh_refl _
  | cons a rest ih =>
    rw [List.foldl_cons]
    exact adds_fresh_trans (branch_label_fresh st a) (ih _)

theorem label_step_fresh (env : Env) (st : disasm_state) (i : Nat) :
    adds_fresh st.labels (label_step env st i).labels := by
  unfold label_step
  simp only []
  split_ifs with h1 h2 h3 h4 h5
  · exact adds_fresh_refl _
  · exact adds_fresh_refl _
  · exact foldl_branch_label_fresh _ st
  · exact adds_fresh_one _ _ ((label_find_neg st _).mp h5)
  · exact adds_fresh_refl _
  · exact adds_fresh_refl _

theorem link_pair_fresh (st : disasm_state) (o s m : Nat) :
    adds_fresh st.labels (link_pair st o s m).labels := by
  rw [link_pair_labels]
  by_cases hc : (insn_at st o).id ≠ .ORI ∧ label_find st (pair_addr st s m) < 0
  · rw [if_pos hc]
    exact adds_fresh_one _ _ ((label_find_neg st _).mp hc.2)
  · rw [if_neg hc]
    exact adds_fresh_refl _

theorem link_with_lui_fresh (env : Env) (st : disasm_state) (o reg m : Nat) :
    adds_fresh st.labels (link_with_lui env st o reg m).labels := by
  rcases link_with_lui_cases env st o reg m with e | ⟨s, _, _, _, _, _, _, e⟩
  · rw [e]; exact adds_fresh_refl _
  · rw [e]; exact link_pair_fresh st o s m

theorem pseudo_step_fresh (env : Env) (st : disasm_state) (i : Nat) :
    adds_fresh st.labels (pseudo_step env st i).labels := by
  rcases pseudo_step_cases env st i with e | ⟨s, _, _, _, e⟩ | ⟨_, e⟩ | ⟨_, e⟩
  · rw [e]; exact adds_fresh_refl _
  · rw [e]; exact adds_fresh_refl _
  · rw [e]; exact adds_fresh_refl _
  · rw [e]; exact link_with_lui_fresh env st i _ _

theorem insn_step_fresh (env : Env) (mp : Bool) (st : disasm_state) (i : Nat) :
    adds_fresh st.labels (insn_step env mp st i).labels := by
  have h1 : adds_fresh st.labels
      (label_step env (upd_extra st i (fun e => { e with linked_insn := -1 })) i).labels :=
    label_step_fresh env _ i
  rw [insn_step_eq]
  split_ifs
  · exact adds_fresh_trans h1 (pseudo_step_fresh env _ i)
  · exact h1

theorem block_upto_fresh (env : Env) (mp : Bool) (insn : List cs_insn) (vaddr : Nat)
    (st : disasm_state) (n m : Nat) (h : n ≤ m) :
    adds_fresh (block_upto env mp insn vaddr st n).labels
      (block_upto env mp insn vaddr st m).labels := by
  induction m with
  | zero =>
    have : n = 0 := by omega
    subst this
    exact adds_fresh_refl _
  | succ m ih =>
    by_cases hn : n = m + 1
    · subst hn
      exact adds_fresh_refl _
    · rw [block_upto_succ]
      exact adds_fresh_trans (ih (by omega)) (insn_step_fresh env mp _ m)

theorem labels_at_append (L M : List asm_label) (k : Nat) :
    labels_at (L ++ M) k = labels_at L k ++ labels_at M k := by
  unfold labels_at
  exact List.filter_append L M

theorem labels_at_nil_of_no_label (L : List asm_label) (k : Nat) (h : ¬ has_label L k) :
    labels_at L k = [] := by
  unfold labels_at
  rw [List.filter_eq_nil_iff]
  intro l hl hv
  exact h ⟨l, hl, by simpa using hv⟩

theorem labels_at_distinct (a : List asm_label) (l0 : asm_label) (hd : distinct_vaddr a)
    (hm : l0 ∈ a) : labels_at a l0.vaddr = [l0] := by
  induction a with
  | nil => exact absurd hm (List.not_mem_nil l0)
  | cons x rest ih =>
    unfold distinct_vaddr at hd
    rw [List.pairwise_cons] at hd
    obtain ⟨hx, hrest⟩ := hd
    rcases List.mem_cons.mp hm with rfl | hm
    · have hnil : labels_at rest l0.vaddr = [] := by
        apply labels_at_nil_of_no_label
        rintro ⟨y, hy, hyv⟩
        exact hx y hy hyv.symm
      unfold labels_at at hnil ⊢
      rw [List.filter_cons_of_pos (by simp), hnil]
    · have hne : x.vaddr ≠ l0.vaddr := hx l0 hm
      have := ih hrest hm
      unfold labels_at at this ⊢
      rw [List.filter_cons_of_neg (by simpa using hne), this]

/-- Labels at an address that has one are neither added nor removed. -/
theorem adds_fresh_kept {L M : List asm_label} (h : adds_fresh L M) (k : Nat)
    (hk : has_label L k) : labels_at M k = labels_at L k := by
  obtain ⟨a, rfl, ha, _⟩ := h
  rw [labels_at_append, labels_at_nil_of_no_label a k, List.append_nil]
  rintro ⟨l, hl, hv⟩
  exact ha l hl (by rw [hv]; exact hk)

/-- At an address that had no label at most one label is added. -/
theorem adds_fresh_single {L M : List asm_label} (h : adds_fresh L M) (l0 : asm_label)
    (hk : ¬ has_label L l0.vaddr) (hm : l0 ∈ M) : labels_at M l0.vaddr = [l0] := by
  obtain ⟨a, rfl, _, da⟩ := h
  rw [labels_at_append, labels_at_nil_of_no_label L _ hk, List.nil_append]
  apply labels_at_distinct a l0 da
  rcases List.mem_append.mp hm with h1 | h1
  · exact absurd ⟨l0, h1, rfl⟩ hk
  · exact h1

theorem labels_at_perm {L M : List asm_label} (h : L.Perm M) (k : Nat) :
    (labels_at L k).Perm (labels_at M k) := by
  unfold labels_at
  exact h.filter _

/-- The labels the table pass one returns holds at an address, against the table
after `n` iterations. -/
theorem pass1_labels_at (env : Env) (data : List Nat) (vaddr : Nat) (syn : asm_syntax)
    (mp : Bool) (st : Option disasm_state) (n : Nat)
    (hn : n ≤ (env.cs_disasm data vaddr).length) (hpos : 0 < (env.cs_disasm data vaddr).length) :
    ∃ M, adds_fresh
        (block_upto env mp (env.cs_disasm data vaddr) vaddr (pass1_entry syn st) n).labels M ∧
      (mipsdisasm_pass1 env data vaddr syn mp st).labels.Perm M := by
  refine ⟨(block_upto env mp (env.cs_disasm data vaddr) vaddr (pass1_entry syn st)
    (env.cs_disasm data vaddr).length).labels, block_upto_fresh env mp _ vaddr _ n _ hn, ?_⟩
  have := (pass1_labels_perm env data vaddr syn mp st).symm
  rw [disassemble_block_eq env data vaddr _ mp hpos] at this
  exact this

/-! ## Claims about the labels of control transfers -/

/-- C2 (as amended): after `mipsdisasm_pass1`, for every instruction of the JUMP group
that is not `jr`/`jalr` and every immediate operand of it, with `k` its 32-bit value,
the label table holds a label at `k`. When no label sat at `k` before the instruction
was processed, the table holds exactly one label at `k`, the local label of the
dialect (`.L%08X` under GAS, `@L%08X` under ARMIPS, not global). When a label sat at
`k` before the instruction was processed, the labels at `k` in the returned table are
exactly the ones that sat there: they are kept and no local label is added. -/
theorem pass1_branch_targets (env : Env) (data : List Nat) (vaddr : Nat) (syn : asm_syntax)
    (mp : Bool) (st : Option disasm_state) (i : Nat) (op : cs_mips_op)
    (hi : i < (env.cs_disasm data vaddr).length)
    (hj : ((env.cs_disasm data vaddr).getD i zero_insn).grp_jump = true)
    (hid : ((env.cs_disasm data vaddr).getD i zero_insn).id ≠ .JR ∧
      ((env.cs_disasm data vaddr).getD i zero_insn).id ≠ .JALR)
    (hop : op ∈ ((env.cs_disasm data vaddr).getD i zero_insn).operands)
    (himm : op.type = .MIPS_OP_IMM) :
    has_label (mipsdisasm_pass1 env data vaddr syn mp st).labels (to_u32 op.imm) ∧
    (¬ has_label
        (block_upto env mp (env.cs_disasm data vaddr) vaddr (pass1_entry syn st) i).labels
        (to_u32 op.imm) →
      local_label syn (to_u32 op.imm) ∈ (mipsdisasm_pass1 env data vaddr syn mp st).labels) ∧
    (¬ has_label
        (block_upto env mp (env.cs_disasm data vaddr) vaddr (pass1_entry syn st) i).labels
        (to_u32 op.imm) →
      labels_at (mipsdisasm_pass1 env data vaddr syn mp st).labels (to_u32 op.imm) =
        [local_label syn (to_u32 op.imm)]) ∧
    (has_label
        (block_upto env mp (env.cs_disasm data vaddr) vaddr (pass1_entry syn st) i).labels
        (to_u32 op.imm) →
      (labels_at (mipsdisasm_pass1 env data vaddr syn mp st).labels (to_u32 op.imm)).Perm
        (labels_at
          (block_upto env mp (env.cs_disasm data vaddr) vaddr (pass1_entry syn st) i).labels
          (to_u32 op.imm))) := by
  obtain ⟨M, hfresh, hperm⟩ := pass1_labels_at env data vaddr syn mp st i (by omega) (by omega)
  have hs1 : insn_at (upd_extra
      (block_upto env mp (env.cs_disasm data vaddr) vaddr (pass1_entry syn st) i) i
      (fun e => { e with linked_insn := -1 })) i = (env.cs_disasm data vaddr).getD i zero_insn := by
    rw [insn_at_upd_extra]
    exact block_upto_insn_ge env mp _ vaddr _ i i (Nat.le_refl i)
  have hstep : (label_step env (upd_extra
      (block_upto env mp (env.cs_disasm data vaddr) vaddr (pass1_entry syn st) i) i
      (fun e => { e with linked_insn := -1 })) i).labels <+:
      (block_upto env mp (env.cs_disasm data vaddr) vaddr (pass1_entry syn st) (i + 1)).labels := by
    rw [block_upto_succ, insn_step_eq]
    split_ifs
    · exact pseudo_step_grows env _ i
    · exact List.prefix_refl _
  have hsub : ∀ l, l ∈ (label_step env (upd_extra
      (block_upto env mp (env.cs_disasm data vaddr) vaddr (pass1_entry syn st) i) i
      (fun e => { e with linked_insn := -1 })) i).labels →
      l ∈ (mipsdisasm_pass1 env data vaddr syn mp st).labels := fun l hl =>
    block_upto_subset_pass1 env data vaddr syn mp st (i + 1) (by omega) l (hstep.subset hl)
  rw [label_step_jump env _ i (by rw [hs1]; exact hj) (by rw [hs1]; exact hid), hs1] at hsub
  have hnew : ¬ has_label
      (block_upto env mp (env.cs_disasm data vaddr) vaddr (pass1_entry syn st) i).labels
      (to_u32 op.imm) →
      local_label syn (to_u32 op.imm) ∈ (mipsdisasm_pass1 env data vaddr syn mp st).labels := by
    intro hno
    have := foldl_branch_label_new _ (upd_extra
      (block_upto env mp (env.cs_disasm data vaddr) vaddr (pass1_entry syn st) i) i
      (fun e => { e with linked_insn := -1 })) op hop himm hno
    rw [upd_extra_dialect, block_upto_dialect] at this
    exact hsub _ this
  refine ⟨?_, hnew, ?_, ?_⟩
  · obtain ⟨l, hl, hv⟩ := foldl_branch_label_has _ (upd_extra
      (block_upto env mp (env.cs_disasm data vaddr) vaddr (pass1_entry syn st) i) i
      (fun e => { e with linked_insn := -1 })) op hop himm
    exact ⟨l, hsub l hl, hv⟩
  · intro hno
    have hone := adds_fresh_single hfresh (local_label syn (to_u32 op.imm)) hno
      (hperm.subset (hnew hno))
    exact List.perm_singleton.mp ((labels_at_perm hperm (to_u32 op.imm)).trans
      (List.Perm.of_eq hone))
  · intro hyes
    rw [← adds_fresh_kept hfresh (to_u32 op.imm) hyes]
    exact labels_at_perm hperm (to_u32 op.imm)

/-- The branch to self of the specification: `b 0x80000000` at `0x80000000` gets the
label `.L80000000`; and in `jal 0x80000010; nop; b 0x80000010; nop` the label
`func_80000010` that the `jal` left at the target of the branch stays the only one. -/
theorem pass1_branch_targets_witness :
    labels_at (mipsdisasm_pass1 (sample_env sample_branch_self)
      (stream_bytes sample_branch_self) 2147483648 .ASM_GAS true none).labels 2147483648 =
      [{ name := ".L80000000", global := 0, vaddr := 2147483648 }] ∧
    (labels_at (mipsdisasm_pass1 (sample_env sample_call_branch)
      (stream_bytes sample_call_branch) 2147483648 .ASM_GAS true none).labels 2147483664).Perm
      [func_label 2147483664] :=
  ⟨((pass1_branch_targets (sample_env sample_branch_self) (stream_bytes sample_branch_self)
      2147483648 .ASM_GAS true none 0 (op_imm 2147483648) (by decide) (by decide) (by decide)
      (by decide) (by decide)).2.2.1 (by
        rintro ⟨l, hl, _⟩
        exact absurd hl (List.not_mem_nil l))).trans (by decide),
   ((pass1_branch_targets (sample_env sample_call_branch) (stream_bytes sample_call_branch)
      2147483648 .ASM_GAS true none 2 (op_imm 2147483664) (by decide) (by decide) (by decide)
      (by decide) (by decide)).2.2.2 ⟨func_label 2147483664, by decide, by decide⟩).trans
      (List.Perm.of_eq (by decide))⟩

/-- C2 as stated fails: in `jal 0x80000010; nop; b 0x80000010; nop` the branch is in
the JUMP group with the immediate operand `0x80000010`, but the only label pass one
leaves at that address is `func_80000010`: none is named `.L80000010`. -/
theorem pass1_branch_targets_counterexample :
    (sample_call_branch.getD 2 zero_insn).grp_jump = true ∧
    (sample_call_branch.getD 2 zero_insn).id ≠ .JR ∧
    (sample_call_branch.getD 2 zero_insn).id ≠ .JALR ∧
    op_imm 2147483664 ∈ (sample_call_branch.getD 2 zero_insn).operands ∧
    (mipsdisasm_pass1 (sample_env sample_call_branch) (stream_bytes sample_call_branch)
      2147483648 .ASM_GAS true none).labels = [func_label 2147483664] ∧
    ¬ ∃ l ∈ (mipsdisasm_pass1 (sample_env sample_call_branch) (stream_bytes sample_call_branch)
      2147483648 .ASM_GAS true none).labels,
      l.vaddr = to_u32 2147483664 ∧ l.name = ".L" ++ fmt_08X (to_u32 2147483664) := by
  decide

/-- The call rule (the `else` arm of the JUMP test) for a `jal` or `bal` at index `i`:
the label at its target, what its iteration does to the table, and the labels at the
target in the table pass one returns. -/
theorem pass1_call_rule (env : Env) (data : List Nat) (vaddr : Nat) (syn : asm_syntax)
    (mp : Bool) (st : Option disasm_state) (i : Nat)
    (hi : i < (env.cs_disasm data vaddr).length)
    (hid : ((env.cs_disasm data vaddr).getD i zero_insn).id = .JAL ∨
      ((env.cs_disasm data vaddr).getD i zero_insn).id = .BAL)
    (hj : ((env.cs_disasm data vaddr).getD i zero_insn).grp_jump = false) :
    has_label (mipsdisasm_pass1 env data vaddr syn mp st).labels
      (to_u32 (operand ((env.cs_disasm data vaddr).getD i zero_insn) 0).imm) ∧
    (¬ has_label
        (block_upto env mp (env.cs_disasm data vaddr) vaddr (pass1_entry syn st) i).labels
        (to_u32 (operand ((env.cs_disasm data vaddr).getD i zero_insn) 0).imm) →
      (block_upto env mp (env.cs_disasm data vaddr) vaddr (pass1_entry syn st) (i + 1)).labels =
        (block_upto env mp (env.cs_disasm data vaddr) vaddr (pass1_entry syn st) i).labels ++
          [func_label (to_u32 (operand ((env.cs_disasm data vaddr).getD i zero_insn) 0).imm)]) ∧
    (has_label
        (block_upto env mp (env.cs_disasm data vaddr) vaddr (pass1_entry syn st) i).labels
        (to_u32 (operand ((env.cs_disasm data vaddr).getD i zero_insn) 0).imm) →
      (block_upto env mp (env.cs_disasm data vaddr) vaddr (pass1_entry syn st) (i + 1)).labels =
        (block_upto env mp (env.cs_disasm data vaddr) vaddr (pass1_entry syn st) i).labels) ∧
    (∀ l ∈ (block_upto env mp (env.cs_disasm data vaddr) vaddr (pass1_entry syn st) (i + 1)).labels,
      l ∈ (mipsdisasm_pass1 env data vaddr syn mp st).labels) ∧
    (¬ has_label
        (block_upto env mp (env.cs_disasm data vaddr) vaddr (pass1_entry syn st) i).labels
        (to_u32 (operand ((env.cs_disasm data vaddr).getD i zero_insn) 0).imm) →
      labels_at (mipsdisasm_pass1 env data vaddr syn mp st).labels
          (to_u32 (operand ((env.cs_disasm data vaddr).getD i zero_insn) 0).imm) =
        [func_label (to_u32 (operand ((env.cs_disasm data vaddr).getD i zero_insn) 0).imm)]) ∧
    (has_label
        (block_upto env mp (env.cs_disasm data vaddr) vaddr (pass1_entry syn st) i).labels
        (to_u32 (operand ((env.cs_disasm data vaddr).getD i zero_insn) 0).imm) →
      (labels_at (mipsdisasm_pass1 env data vaddr syn mp st).labels
          (to_u32 (operand ((env.cs_disasm data vaddr).getD i zero_insn) 0).imm)).Perm
        (labels_at
          (block_upto env mp (env.cs_disasm data vaddr) vaddr (pass1_entry syn st) i).labels
          (to_u32 (operand ((env.cs_disasm data vaddr).getD i zero_insn) 0).imm))) := by
  obtain ⟨M, hfresh, hperm⟩ := pass1_labels_at env data vaddr syn mp st i (by omega) (by omega)
  have hkept : has_label
      (block_upto env mp (env.cs_disasm data vaddr) vaddr (pass1_entry syn st) i).labels
      (to_u32 (operand ((env.cs_disasm data vaddr).getD i zero_insn) 0).imm) →
      (labels_at (mipsdisasm_pass1 env data vaddr syn mp st).labels
          (to_u32 (operand ((env.cs_disasm data vaddr).getD i zero_insn) 0).imm)).Perm
        (labels_at
          (block_upto env mp (env.cs_disasm data vaddr) vaddr (pass1_entry syn st) i).labels
          (to_u32 (operand ((env.cs_disasm data vaddr).getD i zero_insn) 0).imm)) := by
    intro hyes
    rw [← adds_fresh_kept hfresh _ hyes]
    exact labels_at_perm hperm _
  have hs1 : insn_at (upd_extra
      (block_upto env mp (env.cs_disasm data vaddr) vaddr (pass1_entry syn st) i) i
      (fun e => { e with linked_insn := -1 })) i = (env.cs_disasm data vaddr).getD i zero_insn := by
    rw [insn_at_upd_extra]
    exact block_upto_insn_ge env mp _ vaddr _ i i (Nat.le_refl i)
  have hpost : block_upto env mp (env.cs_disasm data vaddr) vaddr (pass1_entry syn st) (i + 1) =
      label_step env (upd_extra
        (block_upto env mp (env.cs_disasm data vaddr) vaddr (pass1_entry syn st) i) i
        (fun e => { e with linked_insn := -1 })) i := by
    rw [block_upto_succ, insn_step_eq]
    split_ifs
    · apply pseudo_step_call
      rw [insn_at_label_step, hs1]
      exact hid
    · rfl
  have hsub := block_upto_subset_pass1 env data vaddr syn mp st (i + 1) (by omega)
  rw [hpost] at hsub ⊢
  rw [label_step_call env _ i (by rw [hs1]; exact hj) (by rw [hs1]; exact hid), hs1] at hsub ⊢
  rw [label_find_upd_extra] at hsub ⊢
  by_cases hf : label_find
      (block_upto env mp (env.cs_disasm data vaddr) vaddr (pass1_entry syn st) i)
      (to_u32 (operand ((env.cs_disasm data vaddr).getD i zero_insn) 0).imm) < 0
  · have hno := (label_find_neg _ _).mp hf
    rw [if_pos hf] at hsub ⊢
    have hin : func_label (to_u32 (operand ((env.cs_disasm data vaddr).getD i zero_insn) 0).imm) ∈
        (mipsdisasm_pass1 env data vaddr syn mp st).labels :=
      hsub _ (List.mem_append_right _ (List.mem_singleton_self _))
    refine ⟨⟨func_label _, hin, rfl⟩, fun _ => rfl, fun h => absurd h hno, hsub, ?_, hkept⟩
    intro _
    have hone := adds_fresh_single hfresh
      (func_label (to_u32 (operand ((env.cs_disasm data vaddr).getD i zero_insn) 0).imm)) hno
      (hperm.subset hin)
    exact List.perm_singleton.mp ((labels_at_perm hperm _).trans (List.Perm.of_eq hone))
  · have hyes : has_label
        (block_upto env mp (env.cs_disasm data vaddr) vaddr (pass1_entry syn st) i).labels
        (to_u32 (operand ((env.cs_disasm data vaddr).getD i zero_insn) 0).imm) := by
      by_contra hc
      exact hf ((label_find_neg _ _).mpr hc)
    rw [if_neg hf] at hsub ⊢
    refine ⟨?_, fun h => absurd hyes h, fun _ => rfl, hsub, fun h => absurd hyes h, hkept⟩
    obtain ⟨l, hl, hv⟩ := hyes
    exact ⟨l, hsub l hl, hv⟩

/-- A control transfer of the JUMP group other than `jr`/`jalr` leaves a label at the
32-bit value of each immediate operand. -/
theorem pass1_jump_operand_label (env : Env) (data : List Nat) (vaddr : Nat)
    (syn : asm_syntax) (mp : Bool) (st : Option disasm_state) (i : Nat) (op : cs_mips_op)
    (hi : i < (env.cs_disasm data vaddr).length)
    (hj : ((env.cs_disasm data vaddr).getD i zero_insn).grp_jump = true)
    (hid : ((env.cs_disasm data vaddr).getD i zero_insn).id ≠ .JR ∧
      ((env.cs_disasm data vaddr).getD i zero_insn).id ≠ .JALR)
    (hop : op ∈ ((env.cs_disasm data vaddr).getD i zero_insn).operands)
    (himm : op.type = .MIPS_OP_IMM) :
    has_label (mipsdisasm_pass1 env data vaddr syn mp st).labels (to_u32 op.imm) := by
  have hs1 : insn_at (upd_extra
      (block_upto env mp (env.cs_disasm data vaddr) vaddr (pass1_entry syn st) i) i
      (fun e => { e with linked_insn := -1 })) i = (env.cs_disasm data vaddr).getD i zero_insn := by
    rw [insn_at_upd_extra]
    exact block_upto_insn_ge env mp _ vaddr _ i i (Nat.le_refl i)
  have hstep : (label_step env (upd_extra
      (block_upto env mp (env.cs_disasm data vaddr) vaddr (pass1_entry syn st) i) i
      (fun e => { e with linked_insn := -1 })) i).labels <+:
      (block_upto env mp (env.cs_disasm data vaddr) vaddr (pass1_entry syn st) (i + 1)).labels := by
    rw [block_upto_succ, insn_step_eq]
    split_ifs
    · exact pseudo_step_grows env _ i
    · exact List.prefix_refl _
  have hsub : ∀ l, l ∈ (label_step env (upd_extra
      (block_upto env mp (env.cs_disasm data vaddr) vaddr (pass1_entry syn st) i) i
      (fun e => { e with linked_insn := -1 })) i).labels →
      l ∈ (mipsdisasm_pass1 env data vaddr syn mp st).labels := fun l hl =>
    block_upto_subset_pass1 env data vaddr syn mp st (i + 1) (by omega) l (hstep.subset hl)
  rw [label_step_jump env _ i (by rw [hs1]; exact hj) (by rw [hs1]; exact hid), hs1] at hsub
  obtain ⟨l, hl, hv⟩ := foldl_branch_label_has _ (upd_extra
    (block_upto env mp (env.cs_disasm data vaddr) vaddr (pass1_entry syn st) i) i
    (fun e => { e with linked_insn := -1 })) op hop himm
  exact ⟨l, hsub l hl, hv⟩

theorem operand_mem_of_imm (insn : cs_insn) (k : Nat)
    (h : (operand insn k).type = .MIPS_OP_IMM) : operand insn k ∈ insn.operands := by
  unfold operand at h ⊢
  by_cases hk : k < insn.operands.length
  · rw [List.getD_eq_getElem _ _ hk]
    exact List.getElem_mem _
  · rw [List.getD_eq_default _ _ (by omega)] at h
    exact absurd h (by decide)

/-- C3: for every `jal` or `bal` of the stream, with `k` the 32-bit value of its first
operand. When the instruction reaches the call rule (the `else` arm of the JUMP
test): after pass one a label sits at `k`; when none sat there before the instruction
was processed, its iteration appends exactly the global label `func_%08X`, which is
then the only label at `k` in the returned table; when one did, its iteration leaves
the table as it was; and every label of the table after the iteration is in the table
pass one returns. In either arm: when a label sat at `k` before the instruction was
processed, the labels at `k` in the returned table are exactly the ones that sat
there (none is added, none changed); and a label sits at `k` after pass one whenever
the instruction reaches the call rule or its first operand is an immediate. -/
theorem pass1_call_targets (env : Env) (data : List Nat) (vaddr : Nat) (syn : asm_syntax)
    (mp : Bool) (st : Option disasm_state) (i : Nat)
    (hi : i < (env.cs_disasm data vaddr).length)
    (hid : ((env.cs_disasm data vaddr).getD i zero_insn).id = .JAL ∨
      ((env.cs_disasm data vaddr).getD i zero_insn).id = .BAL) :
    (((env.cs_disasm data vaddr).getD i zero_insn).grp_jump = false →
      has_label (mipsdisasm_pass1 env data vaddr syn mp st).labels
        (to_u32 (operand ((env.cs_disasm data vaddr).getD i zero_insn) 0).imm) ∧
      (¬ has_label
          (block_upto env mp (env.cs_disasm data vaddr) vaddr (pass1_entry syn st) i).labels
          (to_u32 (operand ((env.cs_disasm data vaddr).getD i zero_insn) 0).imm) →
        (block_upto env mp (env.cs_disasm data vaddr) vaddr (pass1_entry syn st) (i + 1)).labels =
          (block_upto env mp (env.cs_disasm data vaddr) vaddr (pass1_entry syn st) i).labels ++
            [func_label (to_u32 (operand ((env.cs_disasm data vaddr).getD i zero_insn) 0).imm)]) ∧
      (has_label
          (block_upto env mp (env.cs_disasm data vaddr) vaddr (pass1_entry syn st) i).labels
          (to_u32 (operand ((env.cs_disasm data vaddr).getD i zero_insn) 0).imm) →
        (block_upto env mp (env.cs_disasm data vaddr) vaddr (pass1_entry syn st) (i + 1)).labels =
          (block_upto env mp (env.cs_disasm data vaddr) vaddr (pass1_entry syn st) i).labels) ∧
      (∀ l ∈ (block_upto env mp (env.cs_disasm data vaddr) vaddr (pass1_entry syn st) (i + 1)).labels,
        l ∈ (mipsdisasm_pass1 env data vaddr syn mp st).labels) ∧
      (¬ has_label
          (block_upto env mp (env.cs_disasm data vaddr) vaddr (pass1_entry syn st) i).labels
          (to_u32 (operand ((env.cs_disasm data vaddr).getD i zero_insn) 0).imm) →
        labels_at (mipsdisasm_pass1 env data vaddr syn mp st).labels
            (to_u32 (operand ((env.cs_disasm data vaddr).getD i zero_insn) 0).imm) =
          [func_label (to_u32 (operand ((env.cs_disasm data vaddr).getD i zero_insn) 0).imm)])) ∧
    (has_label
        (block_upto env mp (env.cs_disasm data vaddr) vaddr (pass1_entry syn st) i).labels
        (to_u32 (operand ((env.cs_disasm data vaddr).getD i zero_insn) 0).imm) →
      (labels_at (mipsdisasm_pass1 env data vaddr syn mp st).labels
          (to_u32 (operand ((env.cs_disasm data vaddr).getD i zero_insn) 0).imm)).Perm
        (labels_at
          (block_upto env mp (env.cs_disasm data vaddr) vaddr (pass1_entry syn st) i).labels
          (to_u32 (operand ((env.cs_disasm data vaddr).getD i zero_insn) 0).imm))) ∧
    ((((env.cs_disasm data vaddr).getD i zero_insn).grp_jump = false ∨
        (operand ((env.cs_disasm data vaddr).getD i zero_insn) 0).type = .MIPS_OP_IMM) →
      has_label (mipsdisasm_pass1 env data vaddr syn mp st).labels
        (to_u32 (operand ((env.cs_disasm data vaddr).getD i zero_insn) 0).imm)) := by
  obtain ⟨M, hfresh, hperm⟩ := pass1_labels_at env data vaddr syn mp st i (by omega) (by omega)
  refine ⟨?_, ?_, ?_⟩
  · intro hj
    obtain ⟨c1, c2, c3, c4, c5, _⟩ := pass1_call_rule env data vaddr syn mp st i hi hid hj
    exact ⟨c1, c2, c3, c4, c5⟩
  · intro hyes
    rw [← adds_fresh_kept hfresh _ hyes]
    exact labels_at_perm hperm _
  · intro h
    by_cases hj : ((env.cs_disasm data vaddr).getD i zero_insn).grp_jump = false
    · exact (pass1_call_rule env data vaddr syn mp st i hi hid hj).1
    · rcases h with h | h
      · exact absurd h hj
      · have hne : ((env.cs_disasm data vaddr).getD i zero_insn).id ≠ .JR ∧
            ((env.cs_disasm data vaddr).getD i zero_insn).id ≠ .JALR := by
          rcases hid with e | e <;> (rw [e]; exact ⟨by decide, by decide⟩)
        exact pass1_jump_operand_label env data vaddr syn mp st i _ hi (by simpa using hj) hne
          (operand_mem_of_imm _ 0 h) h

/-- The stream `jal 0x80000010; nop` gets the global label `func_80000010`, the only
label at `0x80000010`. -/
theorem pass1_call_targets_witness :
    has_label (mipsdisasm_pass1 (sample_env sample_jal_stream) (stream_bytes sample_jal_stream)
      2147483648 .ASM_GAS true none).labels 2147483664 ∧
    labels_at (mipsdisasm_pass1 (sample_env sample_jal_stream) (stream_bytes sample_jal_stream)
      2147483648 .ASM_GAS true none).labels 2147483664 = [func_label 2147483664] :=
  have h := (pass1_call_targets (sample_env sample_jal_stream) (stream_bytes sample_jal_stream)
      2147483648 .ASM_GAS true none 0 (by decide) (by decide)).1 (by decide)
  ⟨h.1, h.2.2.2.2 (by
    rintro ⟨l, hl, _⟩
    exact absurd hl (List.not_mem_nil l))⟩

/-! ## The loop body of `disassemble_block`: the extras -/

theorem pair_addr_congr (a b : disasm_state) (s m : Nat) (h : insn_at a s = insn_at b s) :
    pair_addr a s m = pair_addr b s m := by
  unfold pair_addr
  rw [h]

/-- An iteration changes the extras of another index `j` only by linking a `lui` at
`j` to the current instruction. -/
theorem pseudo_step_extra_other (env : Env) (st : disasm_state) (i j : Nat) (hj : j ≠ i) :
    extra_at (pseudo_step env st i) j = extra_at st j ∨
    (j < i ∧ (insn_at st j).id = .LUI ∧ (extra_at (pseudo_step env st i) j).linked_insn = (i : Int)) := by
  rcases pseudo_step_cases env st i with h | ⟨s, hs, hl, _, h⟩ | ⟨_, h⟩ | ⟨_, h⟩
  · left; rw [h]
  · rw [h, extra_at_mtc1_link]
    by_cases hc : s = j ∧ s < st.insn_extra.length
    · rw [if_pos hc]
      obtain ⟨rfl, _⟩ := hc
      right
      exact ⟨hs, hl, rfl⟩
    · rw [if_neg hc]
      left; rfl
  · left; rw [h]; rfl
  · rcases link_with_lui_cases env st i (user_reg (insn_at st i)) (user_imm (insn_at st i)) with
      h2 | ⟨s, _, hs, _, hl, _, _, h2⟩
    · left; rw [h, h2]
    · rw [h, h2, extra_at_link_pair]
      have n1 : ¬ (i = j ∧ i < st.insn_extra.length) := fun hh => hj hh.1.symm
      rw [if_neg n1]
      by_cases hc : s = j ∧ s < st.insn_extra.length
      · rw [if_pos hc]
        obtain ⟨rfl, _⟩ := hc
        right
        exact ⟨hs, hl, rfl⟩
      · rw [if_neg hc]
        left; rfl

/-- The extras of the current index after the pairing switch: unchanged, or linked by
`link_with_lui` with a `lui` inside the window. -/
theorem pseudo_step_extra_self (env : Env) (st : disasm_state) (i : Nat)
    (hi : i < st.insn_extra.length) :
    extra_at (pseudo_step env st i) i = extra_at st i ∨
    (is_low_user (insn_at st i).id ∧ user_imm (insn_at st i) ≠ 0 ∧
      ∃ s, s < i ∧ (i : Int) - 128 ≤ s ∧ (insn_at st s).id = .LUI ∧
        (operand (insn_at st s) 0).reg = user_reg (insn_at st i) ∧
        (extra_at (pseudo_step env st i) i).linked_insn = (s : Int) ∧
        (extra_at (pseudo_step env st i) i).linked_value =
          pair_addr st s (user_imm (insn_at st i)) ∧
        (extra_at (pseudo_step env st i) s).linked_insn = (i : Int) ∧
        (extra_at (pseudo_step env st i) s).linked_value =
          pair_addr st s (user_imm (insn_at st i))) := by
  rcases pseudo_step_cases env st i with h | ⟨s, hs, hl, _, h⟩ | ⟨_, h⟩ | ⟨hu, h⟩
  · left; rw [h]
  · left
    rw [h, extra_at_mtc1_link]
    have n1 : ¬ (s = i ∧ s < st.insn_extra.length) := by omega
    rw [if_neg n1]
  · left; rw [h]; rfl
  · rcases link_with_lui_cases env st i (user_reg (insn_at st i)) (user_imm (insn_at st i)) with
      h2 | ⟨s, hm, hs, hwin, hl, hr, _, h2⟩
    · left; rw [h, h2]
    · right
      refine ⟨hu, hm, s, hs, hwin, hl, hr, ?_⟩
      rw [h, h2]
      have p1 : i = i ∧ i < st.insn_extra.length := ⟨rfl, hi⟩
      have n1 : ¬ (i = s ∧ i < st.insn_extra.length) := by omega
      have p2 : s = s ∧ s < st.insn_extra.length := ⟨rfl, by omega⟩
      refine ⟨?_, ?_, ?_, ?_⟩
      · rw [extra_at_link_pair, if_pos p1]
      · rw [extra_at_link_pair, if_pos p1]
      · rw [extra_at_link_pair, if_neg n1, if_pos p2]
      · rw [extra_at_link_pair, if_neg n1, if_pos p2]

theorem extra_at_reset_label_step (env : Env) (st : disasm_state) (i j : Nat) :
    (extra_at (label_step env (upd_extra st i (fun e => { e with linked_insn := -1 })) i) j).linked_insn =
      (if i = j ∧ i < st.insn_extra.length then -1 else (extra_at st j).linked_insn) ∧
    (extra_at (label_step env (upd_extra st i (fun e => { e with linked_insn := -1 })) i) j).linked_value =
      (extra_at st j).linked_value := by
  obtain ⟨h1, h2, _⟩ := extra_at_label_step env
    (upd_extra st i (fun e => { e with linked_insn := -1 })) i j
  rw [h1, h2, extra_at_upd_extra]
  by_cases hc : i = j ∧ i < st.insn_extra.length
  · rw [if_pos hc, if_pos hc]
    obtain ⟨rfl, _⟩ := hc
    exact ⟨rfl, rfl⟩
  · rw [if_neg hc, if_neg hc]
    exact ⟨rfl, rfl⟩

theorem insn_step_extra_other (env : Env) (mp : Bool) (st : disasm_state) (i j : Nat)
    (hj : j ≠ i) :
    ((extra_at (insn_step env mp st i) j).linked_insn = (extra_at st j).linked_insn ∧
      (extra_at (insn_step env mp st i) j).linked_value = (extra_at st j).linked_value) ∨
    (j < i ∧ (insn_at st j).id = .LUI ∧
      (extra_at (insn_step env mp st i) j).linked_insn = (i : Int)) := by
  obtain ⟨h1, h2⟩ := extra_at_reset_label_step env st i j
  have n1 : ¬ (i = j ∧ i < st.insn_extra.length) := fun hh => hj hh.1.symm
  rw [if_neg n1] at h1
  rw [insn_step_eq]
  split_ifs
  · rcases pseudo_step_extra_other env
      (label_step env (upd_extra st i (fun e => { e with linked_insn := -1 })) i) i j hj with
      h | ⟨hlt, hl, h⟩
    · left
      rw [h]
      exact ⟨h1, h2⟩
    · right
      rw [insn_at_label_step, insn_at_upd_extra] at hl
      exact ⟨hlt, hl, h⟩
  · left
    exact ⟨h1, h2⟩

theorem insn_step_extra_self (env : Env) (mp : Bool) (st : disasm_state) (i : Nat)
    (hi : i < st.insn_extra.length) :
    (extra_at (insn_step env mp st i) i).linked_insn = -1 ∨
    (mp = true ∧ is_low_user (insn_at st i).id ∧ user_imm (insn_at st i) ≠ 0 ∧
      ∃ s, s < i ∧ (i : Int) - 128 ≤ s ∧ (insn_at st s).id = .LUI ∧
        (operand (insn_at st s) 0).reg = user_reg (insn_at st i) ∧
        (extra_at (insn_step env mp st i) i).linked_insn = (s : Int) ∧
        (extra_at (insn_step env mp st i) i).linked_value =
          pair_addr st s (user_imm (insn_at st i)) ∧
        (extra_at (insn_step env mp st i) s).linked_insn = (i : Int) ∧
        (extra_at (insn_step env mp st i) s).linked_value =
          pair_addr st s (user_imm (insn_at st i))) := by
  obtain ⟨h1, _⟩ := extra_at_reset_label_step env st i i
  rw [if_pos ⟨rfl, hi⟩] at h1
  have hbase : ∀ k, insn_at
      (label_step env (upd_extra st i (fun e => { e with linked_insn := -1 })) i) k =
      insn_at st k := fun k => by rw [insn_at_label_step]; rfl
  rw [insn_step_eq]
  split_ifs with hmp
  · rcases pseudo_step_extra_self env
      (label_step env (upd_extra st i (fun e => { e with linked_insn := -1 })) i) i
      (by rw [label_step_extra_length, upd_extra_length]; exact hi) with
      h | ⟨hu, hm, s, hs, hwin, hl, hr, e1, e2, e3, e4⟩
    · left
      rw [h]
      exact h1
    · right
      rw [hbase] at hu hm hr e2 e4
      rw [hbase] at hl hr
      rw [pair_addr_congr _ st s _ (hbase s)] at e2 e4
      exact ⟨hmp, hu, hm, s, hs, hwin, hl, hr, e1, e2, e3, e4⟩
  · left
    exact h1


/-! ## Invariants of the loop of `disassemble_block` -/

/-- After any number of iterations a record keeps its decoded operands, bytes and
group, and it is the decoded record unless it was a `lui`, `addiu` or `ori` that was
rewritten to `li`. -/
theorem block_upto_insn (env : Env) (mp : Bool) (insn : List cs_insn) (vaddr : Nat)
    (st : disasm_state) (n j : Nat) :
    (insn_at (block_upto env mp insn vaddr st n) j).operands = (insn.getD j zero_insn).operands ∧
    (insn_at (block_upto env mp insn vaddr st n) j).bytes = (insn.getD j zero_insn).bytes ∧
    (insn_at (block_upto env mp insn vaddr st n) j).grp_jump = (insn.getD j zero_insn).grp_jump ∧
    (insn_at (block_upto env mp insn vaddr st n) j = insn.getD j zero_insn ∨
      ((insn_at (block_upto env mp insn vaddr st n) j).id = .LI ∧
        ((insn.getD j zero_insn).id = .LUI ∨ (insn.getD j zero_insn).id = .ADDIU ∨
          (insn.getD j zero_insn).id = .ORI))) := by
  induction n with
  | zero => exact ⟨rfl, rfl, rfl, Or.inl rfl⟩
  | succ n ih =>
    obtain ⟨i1, i2, i3, i4⟩ := ih
    rw [block_upto_succ]
    rcases insn_step_insn env mp (block_upto env mp insn vaddr st n) n j with
      h | ⟨hli, hold, h1, h2, h3⟩
    · rw [h]
      exact ⟨i1, i2, i3, i4⟩
    · refine ⟨h1.trans i1, h2.trans i2, h3.trans i3, Or.inr ⟨hli, ?_⟩⟩
      rcases i4 with e | ⟨eli, _⟩
      · rw [e] at hold
        rcases hold with ⟨_, h⟩ | ⟨_, h | h⟩
        · exact Or.inl h
        · exact Or.inr (Or.inl h)
        · exact Or.inr (Or.inr h)
      · rw [eli] at hold
        rcases hold with ⟨_, h⟩ | ⟨_, h | h⟩ <;> exact absurd h (by decide)

theorem block_upto_operand (env : Env) (mp : Bool) (insn : List cs_insn) (vaddr : Nat)
    (st : disasm_state) (n j k : Nat) :
    operand (insn_at (block_upto env mp insn vaddr st n) j) k =
      operand (insn.getD j zero_insn) k := by
  unfold operand
  rw [(block_upto_insn env mp insn vaddr st n j).1]

theorem block_upto_stable (env : Env) (mp : Bool) (insn : List cs_insn) (vaddr : Nat)
    (st : disasm_state) (n j : Nat)
    (h : (insn.getD j zero_insn).id ≠ .LUI ∧ (insn.getD j zero_insn).id ≠ .ADDIU ∧
      (insn.getD j zero_insn).id ≠ .ORI) :
    insn_at (block_upto env mp insn vaddr st n) j = insn.getD j zero_insn := by
  rcases (block_upto_insn env mp insn vaddr st n j).2.2.2 with e | ⟨_, h1 | h1 | h1⟩
  · exact e
  · exact absurd h1 h.1
  · exact absurd h1 h.2.1
  · exact absurd h1 h.2.2

theorem block_upto_lui (env : Env) (mp : Bool) (insn : List cs_insn) (vaddr : Nat)
    (st : disasm_state) (n j : Nat)
    (h : (insn_at (block_upto env mp insn vaddr st n) j).id = .LUI) :
    (insn.getD j zero_insn).id = .LUI := by
  rcases (block_upto_insn env mp insn vaddr st n j).2.2.2 with e | ⟨h1, _⟩
  · rw [← e]; exact h
  · rw [h1] at h
    exact absurd h (by decide)

theorem block_upto_not_lui (env : Env) (mp : Bool) (insn : List cs_insn) (vaddr : Nat)
    (st : disasm_state) (n j : Nat) (h : (insn.getD j zero_insn).id ≠ .LUI) :
    (insn_at (block_upto env mp insn vaddr st n) j).id ≠ .LUI :=
  fun hc => h (block_upto_lui env mp insn vaddr st n j hc)

theorem low_user_not_lui (id : mips_insn) (h : is_low_user id) : id ≠ .LUI := by
  intro hc
  subst hc
  revert h
  decide

theorem mem_user_stable (id : mips_insn) (h : is_mem_user id) :
    id ≠ .LUI ∧ id ≠ .ADDIU ∧ id ≠ .ORI := by
  refine ⟨?_, ?_, ?_⟩ <;>
    (intro hc
     subst hc
     revert h
     decide)

theorem pass1_extra (env : Env) (data : List Nat) (vaddr : Nat) (syn : asm_syntax)
    (mp : Bool) (st : Option disasm_state) :
    (mipsdisasm_pass1 env data vaddr syn mp st).insn_extra =
      (disassemble_block env data vaddr (pass1_entry syn st) mp).insn_extra := by
  rw [pass1_eq]

theorem pass1_instructions (env : Env) (data : List Nat) (vaddr : Nat) (syn : asm_syntax)
    (mp : Bool) (st : Option disasm_state) :
    (mipsdisasm_pass1 env data vaddr syn mp st).instructions =
      (disassemble_block env data vaddr (pass1_entry syn st) mp).instructions := by
  rw [pass1_eq]

theorem extra_at_pass1 (env : Env) (data : List Nat) (vaddr : Nat) (syn : asm_syntax)
    (mp : Bool) (st : Option disasm_state) (j : Nat)
    (h : 0 < (env.cs_disasm data vaddr).length) :
    extra_at (mipsdisasm_pass1 env data vaddr syn mp st) j =
      extra_at (block_upto env mp (env.cs_disasm data vaddr) vaddr (pass1_entry syn st)
        (env.cs_disasm data vaddr).length) j := by
  unfold extra_at
  rw [pass1_extra, disassemble_block_eq env data vaddr _ mp h]

theorem insn_at_pass1 (env : Env) (data : List Nat) (vaddr : Nat) (syn : asm_syntax)
    (mp : Bool) (st : Option disasm_state) (j : Nat)
    (h : 0 < (env.cs_disasm data vaddr).length) :
    insn_at (mipsdisasm_pass1 env data vaddr syn mp st) j =
      insn_at (block_upto env mp (env.cs_disasm data vaddr) vaddr (pass1_entry syn st)
        (env.cs_disasm data vaddr).length) j := by
  unfold insn_at
  rw [pass1_instructions, disassemble_block_eq env data vaddr _ mp h]

/-- The link fields of a record that is not a decoded `lui` are final once its own
iteration is over. -/
theorem block_upto_extra_frozen (env : Env) (mp : Bool) (insn : List cs_insn) (vaddr : Nat)
    (st : disasm_state) (j : Nat) (hl : (insn.getD j zero_insn).id ≠ .LUI) (n : Nat)
    (hn : j < n) :
    (extra_at (block_upto env mp insn vaddr st n) j).linked_insn =
      (extra_at (block_upto env mp insn vaddr st (j + 1)) j).linked_insn ∧
    (extra_at (block_upto env mp insn vaddr st n) j).linked_value =
      (extra_at (block_upto env mp insn vaddr st (j + 1)) j).linked_value := by
  induction n with
  | zero => omega
  | succ n ih =>
    by_cases hjn : j = n
    · subst hjn
      exact ⟨rfl, rfl⟩
    · obtain ⟨i1, i2⟩ := ih (by omega)
      rw [block_upto_succ]
      rcases insn_step_extra_other env mp (block_upto env mp insn vaddr st n) n j hjn with
        ⟨h1, h2⟩ | ⟨_, hlui, _⟩
      · exact ⟨h1.trans i1, h2.trans i2⟩
      · exact absurd hlui (block_upto_not_lui env mp insn vaddr st n j hl)


/-! ## Claims about pairing over a whole stream -/

theorem user_imm_mem (insn : cs_insn) (h : is_mem_user insn.id) :
    user_imm insn = to_u32 (operand insn 1).mem_disp := by
  have hs := mem_user_stable insn.id h
  unfold user_imm
  rw [if_neg]
  rintro (hc | hc)
  · exact hs.2.1 hc
  · exact hs.2.2 hc

/-- C9: `link_with_lui(offset, reg, 0)` returns the state unchanged, whatever precedes
`offset`; hence after pass one a load or store whose displacement is 0 has
`linked_insn = -1`, its record is as decoded, and pass two writes it by the default
path `"%-5s %s\n"`. -/
theorem zero_offset_not_paired (env : Env) (data : List Nat) (vaddr : Nat) (syn : asm_syntax)
    (mp : Bool) (st : Option disasm_state) (s0 : disasm_state) (offset reg i : Nat)
    (out : String)
    (hi : i < (env.cs_disasm data vaddr).length)
    (hmem : is_mem_user ((env.cs_disasm data vaddr).getD i zero_insn).id)
    (hz : to_u32 (operand ((env.cs_disasm data vaddr).getD i zero_insn) 1).mem_disp = 0)
    (hj : ((env.cs_disasm data vaddr).getD i zero_insn).grp_jump = false) :
    link_with_lui env s0 offset reg 0 = s0 ∧
    (extra_at (mipsdisasm_pass1 env data vaddr syn mp st) i).linked_insn = -1 ∧
    insn_at (mipsdisasm_pass1 env data vaddr syn mp st) i =
      (env.cs_disasm data vaddr).getD i zero_insn ∧
    emit_insn env (mipsdisasm_pass1 env data vaddr syn mp st) i out =
      some (out ++ fmt_pad5 ((env.cs_disasm data vaddr).getD i zero_insn).mnemonic ++ " " ++
        ((env.cs_disasm data vaddr).getD i zero_insn).op_str ++ "\n") := by
  have hpos : 0 < (env.cs_disasm data vaddr).length := by omega
  have hstab := mem_user_stable _ hmem
  have hlink : (extra_at (mipsdisasm_pass1 env data vaddr syn mp st) i).linked_insn = -1 := by
    rw [extra_at_pass1 env data vaddr syn mp st i hpos,
      (block_upto_extra_frozen env mp _ vaddr _ i hstab.1 _ hi).1, block_upto_succ]
    rcases insn_step_extra_self env mp
      (block_upto env mp (env.cs_disasm data vaddr) vaddr (pass1_entry syn st) i) i
      (by rw [block_upto_extra_length]; exact hi) with h | ⟨_, _, hm, _⟩
    · exact h
    · rw [block_upto_insn_ge env mp _ vaddr _ i i (Nat.le_refl i), user_imm_mem _ hmem] at hm
      exact absurd hz hm
  have hinsn : insn_at (mipsdisasm_pass1 env data vaddr syn mp st) i =
      (env.cs_disasm data vaddr).getD i zero_insn := by
    rw [insn_at_pass1 env data vaddr syn mp st i hpos]
    exact block_upto_stable env mp _ vaddr _ _ i hstab
  refine ⟨?_, hlink, hinsn, ?_⟩
  · unfold link_with_lui
    simp
  · have h1 : ¬ (((env.cs_disasm data vaddr).getD i zero_insn).id = .JAL ∨
        ((env.cs_disasm data vaddr).getD i zero_insn).id = .BAL) := by
      rintro (hc | hc) <;>
        (rw [hc] at hmem
         revert hmem
         decide)
    have h2 : ¬ (((env.cs_disasm data vaddr).getD i zero_insn).id = .MTC0 ∨
        ((env.cs_disasm data vaddr).getD i zero_insn).id = .MFC0) := by
      rintro (hc | hc) <;>
        (rw [hc] at hmem
         revert hmem
         decide)
    unfold emit_insn
    simp only [hinsn, hj, Bool.false_eq_true, if_false, h1, h2, hlink]
    simp

/-- The zero-offset scenario of the specification: in `lui $at, 0x8024; lw $at, 0($at)`
the load is not paired and is written as decoded. -/
theorem zero_offset_not_paired_witness :
    link_with_lui (sample_env sample_zero_disp) sample_pair_state 1 2 0 = sample_pair_state ∧
    (extra_at (mipsdisasm_pass1 (sample_env sample_zero_disp) (stream_bytes sample_zero_disp)
      2147483648 .ASM_GAS true none) 1).linked_insn = -1 ∧
    insn_at (mipsdisasm_pass1 (sample_env sample_zero_disp) (stream_bytes sample_zero_disp)
      2147483648 .ASM_GAS true none) 1 =
      ((sample_env sample_zero_disp).cs_disasm (stream_bytes sample_zero_disp) 2147483648).getD 1
        zero_insn ∧
    emit_insn (sample_env sample_zero_disp)
      (mipsdisasm_pass1 (sample_env sample_zero_disp) (stream_bytes sample_zero_disp)
        2147483648 .ASM_GAS true none) 1 "" =
      some ("" ++ fmt_pad5
        (((sample_env sample_zero_disp).cs_disasm (stream_bytes sample_zero_disp)
          2147483648).getD 1 zero_insn).mnemonic ++ " " ++
        (((sample_env sample_zero_disp).cs_disasm (stream_bytes sample_zero_disp)
          2147483648).getD 1 zero_insn).op_str ++ "\n") :=
  zero_offset_not_paired (sample_env sample_zero_disp) (stream_bytes sample_zero_disp)
    2147483648 .ASM_GAS true none sample_pair_state 1 2 1 "" (by decide) (by decide)
    (by decide) (by decide)

/-- Once a `lui` at `l` is linked to `u`, later iterations either leave its link
fields or link it to a later instruction. -/
theorem block_upto_lui_link (env : Env) (mp : Bool) (insn : List cs_insn) (vaddr : Nat)
    (st : disasm_state) (l u V : Nat) (hlu : l < u)
    (h0 : (extra_at (block_upto env mp insn vaddr st (u + 1)) l).linked_insn = (u : Int))
    (h1 : (extra_at (block_upto env mp insn vaddr st (u + 1)) l).linked_value = V) :
    ∀ n, u + 1 ≤ n →
      (u : Int) ≤ (extra_at (block_upto env mp insn vaddr st n) l).linked_insn ∧
      ((extra_at (block_upto env mp insn vaddr st n) l).linked_insn = (u : Int) →
        (extra_at (block_upto env mp insn vaddr st n) l).linked_value = V) := by
  intro n
  induction n with
  | zero => intro h; omega
  | succ n ih =>
    intro hn
    by_cases hun : u = n
    · subst hun
      exact ⟨by omega, fun _ => h1⟩
    · obtain ⟨i1, i2⟩ := ih (by omega)
      rw [block_upto_succ]
      rcases insn_step_extra_other env mp (block_upto env mp insn vaddr st n) n l
        (by omega) with ⟨e1, e2⟩ | ⟨_, _, e⟩
      · rw [e1, e2]
        exact ⟨i1, i2⟩
      · rw [e]
        exact ⟨by omega, fun h => by omega⟩

/-- C7 (as amended): after pass one with `merge_pseudo`, for every low-half user `u`
(load/store, `addiu` or `ori`) with `extras[u].linked_insn = l >= 0`: `l` is a decoded
`lui` of the user's register with `u - 128 <= l < u`, `extras[u]` holds
`((lui_imm(l) << 16) + mem_imm(u)) mod 2^32`, `extras[l].linked_insn >= u`, and when
`extras[l].linked_insn = u` both extras hold the same address. -/
theorem pass1_pairs (env : Env) (data : List Nat) (vaddr : Nat) (syn : asm_syntax)
    (st : Option disasm_state) (u l : Nat)
    (hu : u < (env.cs_disasm data vaddr).length)
    (huser : is_low_user ((env.cs_disasm data vaddr).getD u zero_insn).id)
    (hl : (extra_at (mipsdisasm_pass1 env data vaddr syn true st) u).linked_insn = (l : Int)) :
    l < u ∧ (u : Int) - 128 ≤ l ∧
    ((env.cs_disasm data vaddr).getD l zero_insn).id = .LUI ∧
    (operand ((env.cs_disasm data vaddr).getD l zero_insn) 0).reg =
      user_reg ((env.cs_disasm data vaddr).getD u zero_insn) ∧
    (extra_at (mipsdisasm_pass1 env data vaddr syn true st) u).linked_value =
      (to_u32 (operand ((env.cs_disasm data vaddr).getD l zero_insn) 1).imm * 65536 +
        user_imm ((env.cs_disasm data vaddr).getD u zero_insn)) % 4294967296 ∧
    (u : Int) ≤ (extra_at (mipsdisasm_pass1 env data vaddr syn true st) l).linked_insn ∧
    ((extra_at (mipsdisasm_pass1 env data vaddr syn true st) l).linked_insn = (u : Int) →
      (extra_at (mipsdisasm_pass1 env data vaddr syn true st) l).linked_value =
        (extra_at (mipsdisasm_pass1 env data vaddr syn true st) u).linked_value) := by
  have hpos : 0 < (env.cs_disasm data vaddr).length := by omega
  have hnl := low_user_not_lui _ huser
  obtain ⟨f1, f2⟩ := block_upto_extra_frozen env true (env.cs_disasm data vaddr) vaddr
    (pass1_entry syn st) u hnl _ hu
  rw [extra_at_pass1 env data vaddr syn true st u hpos] at hl ⊢
  rw [extra_at_pass1 env data vaddr syn true st l hpos]
  rw [f1] at hl
  rw [f2]
  have hself := insn_step_extra_self env true
    (block_upto env true (env.cs_disasm data vaddr) vaddr (pass1_entry syn st) u) u
    (by rw [block_upto_extra_length]; exact hu)
  rw [← block_upto_succ] at hself
  rcases hself with h | ⟨_, _, _, s, hs, hwin, hlui, hreg, e1, e2, e3, e4⟩
  · rw [h] at hl
    omega
  · have hsl : s = l := by
      rw [e1] at hl
      omega
    subst hsl
    rw [block_upto_insn_ge env true _ vaddr _ u u (Nat.le_refl u)] at hreg e2 e4
    rw [block_upto_operand] at hreg
    have hpa : pair_addr
        (block_upto env true (env.cs_disasm data vaddr) vaddr (pass1_entry syn st) u) s
        (user_imm ((env.cs_disasm data vaddr).getD u zero_insn)) =
        (to_u32 (operand ((env.cs_disasm data vaddr).getD s zero_insn) 1).imm * 65536 +
          user_imm ((env.cs_disasm data vaddr).getD u zero_insn)) % 4294967296 := by
      rw [pair_addr_eq, block_upto_operand]
    rw [hpa] at e2 e4
    obtain ⟨g1, g2⟩ := block_upto_lui_link env true (env.cs_disasm data vaddr) vaddr
      (pass1_entry syn st) s u _ hs e3 e4 (env.cs_disasm data vaddr).length (by omega)
    refine ⟨hs, hwin, block_upto_lui env true _ vaddr _ u s hlui, hreg, e2, g1, ?_⟩
    intro h
    rw [g2 h, e2]

/-- The pair of the specification: in `lui $at, 0x8024; addiu $at, $at, 0x1000` the
`addiu` at index 1 is linked with the `lui` at index 0. -/
theorem pass1_pairs_witness :
    0 < 1 ∧
    ((sample_pair_stream).getD 0 zero_insn).id = .LUI ∧
    (extra_at (mipsdisasm_pass1 (sample_env sample_pair_stream) (stream_bytes sample_pair_stream)
      2147483648 .ASM_GAS true none) 1).linked_value = 2149847040 :=
  have h := pass1_pairs (sample_env sample_pair_stream) (stream_bytes sample_pair_stream)
    2147483648 .ASM_GAS none 1 0 (by decide) (by decide) (by decide)
  ⟨h.1, h.2.2.1, h.2.2.2.2.1⟩

/-- C7 as stated fails: in `lui $at, 0x8000; lw $t0, 4($at); lw $t1, 8($at)` the load
at index 1 is linked with the `lui` at index 0, but the `lui` ends linked with the
load at index 2 and holds that load's address. -/
theorem pass1_pairs_counterexample :
    is_low_user (sample_two_loads.getD 1 zero_insn).id ∧
    (extra_at (mipsdisasm_pass1 (sample_env sample_two_loads) (stream_bytes sample_two_loads)
      2147483648 .ASM_GAS true none) 1).linked_insn = 0 ∧
    (extra_at (mipsdisasm_pass1 (sample_env sample_two_loads) (stream_bytes sample_two_loads)
      2147483648 .ASM_GAS true none) 0).linked_insn = 2 ∧
    (extra_at (mipsdisasm_pass1 (sample_env sample_two_loads) (stream_bytes sample_two_loads)
      2147483648 .ASM_GAS true none) 1).linked_value = 2147483652 ∧
    (extra_at (mipsdisasm_pass1 (sample_env sample_two_loads) (stream_bytes sample_two_loads)
      2147483648 .ASM_GAS true none) 0).linked_value = 2147483656 := by
  decide


/-! ## The `lui`/`addiu` pair, end to end -/

theorem to_u32_small (H : Nat) (h : H < 4294967296) : to_u32 (H : Int) = H := by
  unfold to_u32
  omega

theorem pair_value (H : Nat) (L : Int) (hH : H < 65536) :
    ((to_u32 (H : Int) * 65536) % 4294967296 + to_u32 L) % 4294967296 =
      (((H : Int) * 65536 + L) % 4294967296).toNat := by
  rw [to_u32_small H (by omega)]
  unfold to_u32
  omega

theorem to_u32_ne_zero (L : Int) (h0 : L ≠ 0) (h1 : -32768 ≤ L) (h2 : L ≤ 32767) :
    to_u32 L ≠ 0 := by
  unfold to_u32
  omega

theorem fmt_08X_mod (n : Nat) : fmt_08X (n % 4294967296) = fmt_08X n := by
  unfold fmt_08X
  rw [Nat.mod_mod]


theorem pair_block (env : Env) (B r : Nat) (i0 i1 : cs_insn)
    (h0id : i0.id = .LUI) (h0j : i0.grp_jump = false) (h0r : (operand i0 0).reg = r)
    (h1id : i1.id = .ADDIU) (h1j : i1.grp_jump = false)
    (h1rd : (operand i1 0).reg = r) (h1rs : (operand i1 1).reg = r)
    (hr : r ≠ env.MIPS_REG_ZERO) (hm : to_u32 (operand i1 2).imm ≠ 0)
    (st : disasm_state) (hlab : st.labels = []) :
    block_upto env true [i0, i1] B st 2 =
      { labels := [data_label (((to_u32 (operand i0 1).imm * 65536) % 4294967296 +
            to_u32 (operand i1 2).imm) % 4294967296)],
        label_alloc := if 0 ≥ st.label_alloc then st.label_alloc * 2 else st.label_alloc,
        instructions := [i0, i1],
        insn_extra :=
          [{ linked_insn := 1,
             linked_value := ((to_u32 (operand i0 1).imm * 65536) % 4294967296 +
               to_u32 (operand i1 2).imm) % 4294967296, newline := 0 },
           { linked_insn := 0,
             linked_value := ((to_u32 (operand i0 1).imm * 65536) % 4294967296 +
               to_u32 (operand i1 2).imm) % 4294967296, newline := 0 }],
        vaddr := B, syntax_ := st.syntax_ } := by
  have e0 : block_upto env true [i0, i1] B st 1 =
      { st with instructions := [i0, i1], vaddr := B,
                insn_extra := [{ linked_insn := -1, linked_value := 0, newline := 0 }, zero_extra] } := by
    rw [block_upto_succ, block_upto_zero, insn_step_eq]
    simp only [if_true]
    have hi : insn_at (upd_extra (block_init [i0, i1] B st) 0
        (fun e => { e with linked_insn := -1 })) 0 = i0 := rfl
    have hl : label_step env (upd_extra (block_init [i0, i1] B st) 0
        (fun e => { e with linked_insn := -1 })) 0 =
        upd_extra (block_init [i0, i1] B st) 0 (fun e => { e with linked_insn := -1 }) := by
      unfold label_step
      simp only [hi, h0j, h0id, Bool.false_eq_true, if_false]
      simp
    rw [hl]
    unfold pseudo_step
    simp only [hi, h0id]
    rfl
  rw [block_upto_succ, e0, insn_step_eq]
  simp only [if_true]
  have hi : ∀ k, insn_at (upd_extra
      { st with instructions := [i0, i1], vaddr := B,
                insn_extra := [{ linked_insn := -1, linked_value := 0, newline := 0 }, zero_extra] } 1
      (fun e => { e with linked_insn := -1 })) k = [i0, i1].getD k zero_insn := fun k => rfl
  have hl : label_step env (upd_extra
      { st with instructions := [i0, i1], vaddr := B,
                insn_extra := [{ linked_insn := -1, linked_value := 0, newline := 0 }, zero_extra] } 1
      (fun e => { e with linked_insn := -1 })) 1 =
      upd_extra
      { st with instructions := [i0, i1], vaddr := B,
                insn_extra := [{ linked_insn := -1, linked_value := 0, newline := 0 }, zero_extra] } 1
      (fun e => { e with linked_insn := -1 }) := by
    unfold label_step
    have hi1 := hi 1
    simp only [List.getD_cons_succ, List.getD_cons_zero] at hi1
    simp only [hi1, h1j, h1id, Bool.false_eq_true, if_false]
    simp
  rw [hl]
  have hp : pseudo_step env (upd_extra
      { st with instructions := [i0, i1], vaddr := B,
                insn_extra := [{ linked_insn := -1, linked_value := 0, newline := 0 }, zero_extra] } 1
      (fun e => { e with linked_insn := -1 })) 1 =
      link_with_lui env (upd_extra
      { st with instructions := [i0, i1], vaddr := B,
                insn_extra := [{ linked_insn := -1, linked_value := 0, newline := 0 }, zero_extra] } 1
      (fun e => { e with linked_insn := -1 })) 1 r (to_u32 (operand i1 2).imm) := by
    unfold pseudo_step
    have hi1 := hi 1
    simp only [List.getD_cons_succ, List.getD_cons_zero] at hi1
    simp only [hi1, h1id, h1rs, h1rd, hr, if_false, if_true]
  rw [hp, link_with_lui_hit env _ 1 r _ 0 hm (by omega) (by omega)
    (by rw [hi 0]; exact h0id) (by rw [hi 0]; exact h0r) (fun j h1 h2 => by omega),
    link_pair_def]
  have hi1 := hi 1
  simp only [List.getD_cons_succ, List.getD_cons_zero] at hi1
  have hne : i1.id ≠ .ORI := by rw [h1id]; decide
  have hf : label_find (upd_extra
      { st with instructions := [i0, i1], vaddr := B,
                insn_extra := [{ linked_insn := -1, linked_value := 0, newline := 0 }, zero_extra] } 1
      (fun e => { e with linked_insn := -1 }))
      (pair_addr (upd_extra
      { st with instructions := [i0, i1], vaddr := B,
                insn_extra := [{ linked_insn := -1, linked_value := 0, newline := 0 }, zero_extra] } 1
      (fun e => { e with linked_insn := -1 })) 0 (to_u32 (operand i1 2).imm)) < 0 := by
    rw [label_find_neg]
    rintro ⟨l, hl', _⟩
    have : l ∈ st.labels := hl'
    rw [hlab] at this
    exact absurd this (List.not_mem_nil l)
  rw [if_pos (by rw [hi1]; exact hne), if_pos hf]
  simp [label_add, upd_extra, extra_at, pair_addr, insn_at, data_label, hlab, zero_extra]

theorem emit_pair_lui (env : Env) (F : disasm_state) (A r : Nat) (i0 : cs_insn) (out : String)
    (hlab : F.labels = [data_label A]) (hsyn : F.syntax_ = .ASM_GAS)
    (hi : insn_at F 0 = i0) (hx : extra_at F 0 = { linked_insn := 1, linked_value := A, newline := 0 })
    (h0id : i0.id = .LUI) (h0j : i0.grp_jump = false) (h0r : (operand i0 0).reg = r)
    (h0m : i0.mnemonic = "lui") :
    emit_insn env F 0 out =
      some (out ++ "lui   $" ++ env.cs_reg_name r ++ ", %hi(D_" ++ fmt_08X A ++ ")\n") := by
  have hfind : label_find F A = 0 := by
    unfold label_find
    rw [hlab]
    simp [label_find_from, data_label]
  have hname : label_name F 0 = some ("D_" ++ fmt_08X A) := by
    unfold label_name
    rw [hlab]
    simp [data_label]
  have hpad : fmt_pad5 "lui" = "lui  " := by decide
  unfold emit_insn
  simp only [hi, h0j, h0id, hx, Bool.false_eq_true, if_false]
  simp only [reduceCtorEq, or_self, if_false, ge_iff_le, zero_le_one, if_true]
  unfold emit_linked
  simp only [h0id, hx, hsyn, hfind, hname, h0m, h0r, hpad, reduceCtorEq, if_false, if_true,
    Option.map_some']
  have e : "lui   $" = "lui  " ++ " $" := by decide
  have e2 : ", %hi(D_" = ", %hi(" ++ "D_" := by decide
  rw [e, e2]
  simp only [String.append_assoc]

theorem emit_pair_addiu (env : Env) (F : disasm_state) (A r : Nat) (i1 : cs_insn) (out : String)
    (hlab : F.labels = [data_label A]) (hsyn : F.syntax_ = .ASM_GAS)
    (hi : insn_at F 1 = i1) (hx : extra_at F 1 = { linked_insn := 0, linked_value := A, newline := 0 })
    (h1id : i1.id = .ADDIU) (h1j : i1.grp_jump = false) (h1r : (operand i1 0).reg = r)
    (h1m : i1.mnemonic = "addiu") :
    emit_insn env F 1 out =
      some (out ++ "addiu $" ++ env.cs_reg_name r ++ ", %lo(D_" ++ fmt_08X A ++ ")\n") := by
  have hfind : label_find F A = 0 := by
    unfold label_find
    rw [hlab]
    simp [label_find_from, data_label]
  have hname : label_name F 0 = some ("D_" ++ fmt_08X A) := by
    unfold label_name
    rw [hlab]
    simp [data_label]
  have hpad : fmt_pad5 "addiu" = "addiu" := by decide
  unfold emit_insn
  simp only [hi, h1j, h1id, hx, Bool.false_eq_true, if_false]
  simp only [reduceCtorEq, or_self, if_false, ge_iff_le, le_refl, if_true]
  unfold emit_linked
  simp only [h1id, hx, hsyn, hfind, hname, h1m, h1r, hpad, reduceCtorEq, if_false, if_true,
    Option.map_some', true_or]
  have e : "addiu $" = "addiu" ++ " $" := by decide
  have e2 : ", %lo(D_" = ", %lo(" ++ "D_" := by decide
  rw [e, e2]
  simp only [String.append_assoc]

theorem pair_labels_none (A v : Nat) (rest : List asm_label) (out : String)
    (hrest : rest = [] ∨ (rest = [data_label A] ∧ v ≠ A)) :
    emit_labels v rest out = (out, rest) := by
  rcases hrest with h | ⟨h, hv⟩
  · rw [h]; rfl
  · rw [h]
    unfold emit_labels
    simp only [data_label, hv, if_false]

theorem byte_comment_mod (v : Nat) (insn : cs_insn) :
    byte_comment (v % 4294967296) insn = byte_comment v insn := by
  unfold byte_comment
  rw [fmt_08X_mod]

theorem skip_labels_pair (A B : Nat) (hA0 : A ≠ B) :
    skip_labels B [data_label A] = [] ∨
      (skip_labels B [data_label A] = [data_label A] ∧ B < A) := by
  unfold skip_labels
  by_cases h : B > (data_label A).vaddr
  · left
    simp only [h, if_true]
    rfl
  · right
    simp only [h, if_false]
    have : (data_label A).vaddr = A := rfl
    refine ⟨trivial, ?_⟩
    omega

theorem pair_pass2 (env : Env) (A B r : Nat) (i0 i1 : cs_insn) (out : String)
    (h0id : i0.id = .LUI) (h0m : i0.mnemonic = "lui") (h0j : i0.grp_jump = false)
    (h0r : (operand i0 0).reg = r)
    (h1id : i1.id = .ADDIU) (h1m : i1.mnemonic = "addiu") (h1j : i1.grp_jump = false)
    (h1rd : (operand i1 0).reg = r)
    (hB : B < 4294967296) (hAlt : A < 4294967296) (hA0 : A ≠ B) (hA4 : A ≠ B + 4) :
    mipsdisasm_pass2 env out (pair_result A B i0 i1) =
      some (out ++ byte_comment B i0 ++ "lui   $" ++ env.cs_reg_name r ++ ", %hi(D_" ++
        fmt_08X A ++ ")\n" ++
        byte_comment (B + 4) i1 ++ "addiu $" ++ env.cs_reg_name r ++ ", %lo(D_" ++
        fmt_08X A ++ ")\n") := by
  have hcount : instruction_count (pair_result A B i0 i1) = 2 := rfl
  have hlabels : (pair_result A B i0 i1).labels = [data_label A] := rfl
  have hva : (pair_result A B i0 i1).vaddr = B := rfl
  have hin0 : insn_at (pair_result A B i0 i1) 0 = i0 := rfl
  have hin1 : insn_at (pair_result A B i0 i1) 1 = i1 := rfl
  unfold mipsdisasm_pass2
  rw [hcount, hlabels, hva]
  have hrest := skip_labels_pair A B hA0
  have hl0 : ∀ o : String, emit_labels B (skip_labels B [data_label A]) o =
      (o, skip_labels B [data_label A]) := by
    intro o
    apply pair_labels_none A
    rcases hrest with h | ⟨h, _⟩
    · left; exact h
    · right; exact ⟨h, fun hc => hA0 hc.symm⟩
  have hl1 : ∀ o : String, emit_labels ((B + 4) % 4294967296) (skip_labels B [data_label A]) o =
      (o, skip_labels B [data_label A]) := by
    intro o
    apply pair_labels_none A
    rcases hrest with h | ⟨h, hlt⟩
    · left; exact h
    · right
      refine ⟨h, ?_⟩
      omega
  have x0 : extra_at (pair_result A B i0 i1) 0 =
      { linked_insn := 1, linked_value := A, newline := 0 } := rfl
  have x1 : extra_at (pair_result A B i0 i1) 1 =
      { linked_insn := 0, linked_value := A, newline := 0 } := rfl
  unfold pass2_loop
  simp only [hl0]
  rw [x0]
  simp only [ne_eq, not_true_eq_false, if_false]
  rw [emit_pair_lui env (pair_result A B i0 i1) A r i0 _ rfl rfl rfl x0 h0id h0j h0r h0m]
  simp only []
  unfold pass2_loop
  rw [x1]
  simp only [ne_eq, not_true_eq_false, if_false, hl1]
  rw [emit_pair_addiu env (pair_result A B i0 i1) A r i1 _ rfl rfl rfl x1 h1id h1j h1rd h1m]
  simp only []
  unfold pass2_loop
  rw [byte_comment_mod]
  simp only [String.append_assoc]
  rfl

/-- C10: under GAS with `merge_pseudo`, from a new state at base `B`, for every stream
of the two records `lui r, H; addiu r, r, L` with `r` not `zero`, `L` non-zero and
`A = ((H << 16) + L) mod 2^32` different from `B` and `B + 4`: pass one leaves exactly
the global label `D_<A>`, and pass two writes exactly the byte prefix and
`lui   $<r>, %hi(D_<A>)`, then the byte prefix and `addiu $<r>, %lo(D_<A>)`. -/
theorem lui_addiu_emission (env : Env) (data : List Nat) (B H r : Nat) (L : Int)
    (i0 i1 : cs_insn) (out : String)
    (hdec : env.cs_disasm data B = [i0, i1])
    (h0id : i0.id = .LUI) (h0m : i0.mnemonic = "lui") (h0j : i0.grp_jump = false)
    (h0r : (operand i0 0).reg = r) (h0i : (operand i0 1).imm = (H : Int))
    (h1id : i1.id = .ADDIU) (h1m : i1.mnemonic = "addiu") (h1j : i1.grp_jump = false)
    (h1rd : (operand i1 0).reg = r) (h1rs : (operand i1 1).reg = r)
    (h1i : (operand i1 2).imm = L)
    (hr : r ≠ env.MIPS_REG_ZERO) (hH : H < 65536)
    (hL0 : L ≠ 0) (hL1 : -32768 ≤ L) (hL2 : L ≤ 32767) (hB : B < 4294967296)
    (hA0 : (((H : Int) * 65536 + L) % 4294967296).toNat ≠ B)
    (hA4 : (((H : Int) * 65536 + L) % 4294967296).toNat ≠ B + 4) :
    (mipsdisasm_pass1 env data B .ASM_GAS true none).labels =
      [data_label (((H : Int) * 65536 + L) % 4294967296).toNat] ∧
    mipsdisasm_pass2 env out (mipsdisasm_pass1 env data B .ASM_GAS true none) =
      some (out ++ byte_comment B i0 ++ "lui   $" ++ env.cs_reg_name r ++ ", %hi(D_" ++
        fmt_08X (((H : Int) * 65536 + L) % 4294967296).toNat ++ ")\n" ++
        byte_comment (B + 4) i1 ++ "addiu $" ++ env.cs_reg_name r ++ ", %lo(D_" ++
        fmt_08X (((H : Int) * 65536 + L) % 4294967296).toNat ++ ")\n") := by
  have hm : to_u32 (operand i1 2).imm ≠ 0 := by
    rw [h1i]
    exact to_u32_ne_zero L hL0 hL1 hL2
  have hval : ((to_u32 (operand i0 1).imm * 65536) % 4294967296 +
      to_u32 (operand i1 2).imm) % 4294967296 =
      (((H : Int) * 65536 + L) % 4294967296).toNat := by
    rw [h0i, h1i]
    exact pair_value H L hH
  have hAlt : (((H : Int) * 65536 + L) % 4294967296).toNat < 4294967296 := by omega
  have hstate : mipsdisasm_pass1 env data B .ASM_GAS true none =
      { labels := [data_label (((H : Int) * 65536 + L) % 4294967296).toNat],
        label_alloc := 1024,
        instructions := [i0, i1],
        insn_extra :=
          [{ linked_insn := 1,
             linked_value := (((H : Int) * 65536 + L) % 4294967296).toNat, newline := 0 },
           { linked_insn := 0,
             linked_value := (((H : Int) * 65536 + L) % 4294967296).toNat, newline := 0 }],
        vaddr := B, syntax_ := .ASM_GAS } := by
    rw [pass1_eq, disassemble_block_eq env data B _ true (by rw [hdec]; exact Nat.succ_pos 1), hdec]
    have hb := pair_block env B r i0 i1 h0id h0j h0r h1id h1j h1rd h1rs hr hm
      (pass1_entry .ASM_GAS none) rfl
    have hlen : [i0, i1].length = 2 := rfl
    rw [hlen, hb, hval]
    rfl
  rw [hstate]
  exact ⟨rfl, pair_pass2 env _ B r i0 i1 out h0id h0m h0j h0r h1id h1m h1j h1rd hB hAlt hA0 hA4⟩

/-- The pair of the specification: `3C 01 80 24  24 21 10 00` at `0x80000000` gives the
label `D_80241000` and the two lines of the specification. -/
theorem lui_addiu_emission_witness :
    (mipsdisasm_pass1 (sample_env sample_pair_stream) (stream_bytes sample_pair_stream)
      2147483648 .ASM_GAS true none).labels =
      [{ name := "D_80241000", global := 1, vaddr := 2149847040 }] ∧
    mipsdisasm_pass2 (sample_env sample_pair_stream) ""
      (mipsdisasm_pass1 (sample_env sample_pair_stream) (stream_bytes sample_pair_stream)
        2147483648 .ASM_GAS true none) =
      some ("/* 80000000 3C018024 */  lui   $at, %hi(D_80241000)\n" ++
        "/* 80000004 24211000 */  addiu $at, %lo(D_80241000)\n") :=
  have h := lui_addiu_emission (sample_env sample_pair_stream) (stream_bytes sample_pair_stream)
    2147483648 32804 2 4096
    (sample_lui 2 32804 [60, 1, 128, 36] "$at, 0x8024")
    (sample_addiu 2 2 4096 [36, 33, 16, 0] "$at, $at, 0x1000") ""
    rfl (by decide) (by decide) (by decide) (by decide) (by decide)
    (by decide) (by decide) (by decide) (by decide) (by decide) (by decide)
    (by decide) (by decide) (by decide) (by decide) (by decide) (by decide)
    (by decide) (by decide)
  ⟨h.1.trans (by decide), h.2.trans (by decide)⟩


/-! ## Pass one does not depend on the label table except through `label_find` -/

@[simp] theorem insn_at_relabel (a : disasm_state) (L : List asm_label) (K k : Nat) :
    insn_at (relabel a L K) k = insn_at a k := rfl

@[simp] theorem extra_at_relabel (a : disasm_state) (L : List asm_label) (K k : Nat) :
    extra_at (relabel a L K) k = extra_at a k := rfl

@[simp] theorem instruction_count_relabel (a : disasm_state) (L : List asm_label) (K : Nat) :
    instruction_count (relabel a L K) = instruction_count a := rfl

@[simp] theorem relabel_labels (a : disasm_state) (L : List asm_label) (K : Nat) :
    (relabel a L K).labels = L := rfl

@[simp] theorem relabel_dialect (a : disasm_state) (L : List asm_label) (K : Nat) :
    (relabel a L K).syntax_ = a.syntax_ := rfl

theorem upd_extra_relabel (a : disasm_state) (L : List asm_label) (K i : Nat)
    (f : disasm_extra → disasm_extra) :
    upd_extra (relabel a L K) i f = relabel (upd_extra a i f) L K := rfl

theorem relabel_label_add (a : disasm_state) (L : List asm_label) (K : Nat) (nm : String)
    (v : Nat) (g : Int) : relabel (label_add a nm v g) L K = relabel a L K := rfl

theorem label_find_relabel_nonneg (a : disasm_state) (L : List asm_label) (K v : Nat)
    (h : has_label L v) : ¬ label_find (relabel a L K) v < 0 := by
  rw [label_find_neg]
  exact fun hc => hc h

theorem covers_of_grows {L : List asm_label} {a b : disasm_state} (h : a.labels <+: b.labels)
    (hc : covers L b) : covers L a :=
  fun l hl => hc l (h.subset hl)

theorem covers_has {L : List asm_label} {a : disasm_state} {v : Nat} (hc : covers L a)
    (h : has_label a.labels v) : has_label L v := by
  obtain ⟨l, hl, hv⟩ := h
  rw [← hv]
  exact hc l hl

theorem branch_label_relabel (a : disasm_state) (L : List asm_label) (K : Nat)
    (op : cs_mips_op) (hc : covers L (branch_label a op)) :
    branch_label (relabel a L K) op = relabel (branch_label a op) L K := by
  have hr : relabel (branch_label a op) L K = relabel a L K := by
    unfold branch_label
    simp only []
    split_ifs <;> rfl
  rw [hr]
  unfold branch_label
  simp only []
  by_cases h1 : op.type = .MIPS_OP_IMM
  · have := label_find_relabel_nonneg a L K _ (covers_has hc (branch_label_has a op h1))
    simp only [h1, this, if_true, if_false]
  · simp only [h1, if_false]

theorem foldl_branch_label_relabel (ops : List cs_mips_op) (a : disasm_state)
    (L : List asm_label) (K : Nat) (hc : covers L (ops.foldl branch_label a)) :
    ops.foldl branch_label (relabel a L K) = relabel (ops.foldl branch_label a) L K := by
  induction ops generalizing a with
  | nil => rfl
  | cons op rest ih =>
    rw [List.foldl_cons, List.foldl_cons] at *
    rw [branch_label_relabel a L K op (covers_of_grows (foldl_branch_label_grows rest _) hc)]
    exact ih _ hc

theorem label_step_relabel (env : Env) (a : disasm_state) (L : List asm_label) (K i : Nat)
    (hc : covers L (label_step env a i)) :
    label_step env (relabel a L K) i = relabel (label_step env a i) L K := by
  unfold label_step at hc ⊢
  simp only [insn_at_relabel, instruction_count_relabel] at hc ⊢
  by_cases hj : (insn_at a i).grp_jump = true
  · simp only [hj, if_true] at hc ⊢
    by_cases hid : (insn_at a i).id = .JR ∨ (insn_at a i).id = .JALR
    · simp only [hid, if_true] at hc ⊢
      split_ifs <;> rfl
    · simp only [hid, if_false] at hc ⊢
      exact foldl_branch_label_relabel _ a L K hc
  · rw [if_neg hj] at hc ⊢
    by_cases hid : (insn_at a i).id = .JAL ∨ (insn_at a i).id = .BAL
    · rw [if_pos hid] at hc ⊢
      have hhas : has_label L (to_u32 (operand (insn_at a i) 0).imm) := by
        by_cases hf : label_find a (to_u32 (operand (insn_at a i) 0).imm) < 0
        · rw [if_pos hf] at hc
          exact hc _ (List.mem_append_right _ (List.mem_singleton_self _))
        · rw [if_neg hf] at hc
          apply covers_has hc
          by_contra hno
          exact hf ((label_find_neg _ _).mpr hno)
      rw [if_neg (label_find_relabel_nonneg a L K _ hhas)]
      split_ifs <;> rfl
    · simp only [if_neg hj, if_neg hid]

theorem link_pair_relabel (a : disasm_state) (L : List asm_label) (K o s m : Nat)
    (hc : covers L (link_pair a o s m)) :
    link_pair (relabel a L K) o s m = relabel (link_pair a o s m) L K := by
  have hr : relabel (link_pair a o s m) L K =
      relabel (upd_extra (upd_extra a s
        (fun e => { e with linked_insn := (o : Int), linked_value := pair_addr a s m })) o
        (fun e => { e with linked_insn := (s : Int), linked_value := pair_addr a s m })) L K := by
    rw [link_pair_def]
    split_ifs <;> rfl
  rw [hr, link_pair_def]
  have hp : pair_addr (relabel a L K) s m = pair_addr a s m := rfl
  rw [hp, insn_at_relabel]
  by_cases h1 : (insn_at a o).id ≠ .ORI
  · rw [if_pos h1]
    have hhas : has_label (link_pair a o s m).labels (pair_addr a s m) := by
      rw [link_pair_labels]
      by_cases hf : label_find a (pair_addr a s m) < 0
      · rw [if_pos ⟨h1, hf⟩]
        exact ⟨_, List.mem_append_right _ (List.mem_singleton_self _), rfl⟩
      · rw [if_neg (fun hh => hf hh.2)]
        by_contra hno
        exact hf ((label_find_neg _ _).mpr hno)
    rw [if_neg (label_find_relabel_nonneg a L K _ (covers_has hc hhas))]
    rfl
  · rw [if_neg h1]
    rfl

theorem link_with_lui_relabel (env : Env) (a : disasm_state) (L : List asm_label)
    (K o reg m : Nat) (hc : covers L (link_with_lui env a o reg m)) :
    link_with_lui env (relabel a L K) o reg m = relabel (link_with_lui env a o reg m) L K := by
  have hit : ∀ s, m ≠ 0 → s < o → (o : Int) - 128 ≤ s → (insn_at a s).id = .LUI →
      (operand (insn_at a s) 0).reg = reg →
      (∀ j, s < j → j < o → scan_passes env a reg j) →
      link_with_lui env (relabel a L K) o reg m = relabel (link_with_lui env a o reg m) L K := by
    intro s hm hs hwin hl hr hp
    have ea := link_with_lui_hit env a o reg m s hm hs hwin hl hr hp
    have eb := link_with_lui_hit env (relabel a L K) o reg m s hm hs hwin hl hr hp
    rw [ea] at hc ⊢
    rw [eb]
    exact link_pair_relabel a L K o s m hc
  rcases link_with_lui_cases env (relabel a L K) o reg m with
    hb | ⟨s, hm, hs, hwin, hl, hr, hp, _⟩
  · rcases link_with_lui_cases env a o reg m with ha | ⟨s, hm, hs, hwin, hl, hr, hp, _⟩
    · rw [ha, hb]
    · exact hit s hm hs hwin hl hr hp
  · exact hit s hm hs hwin hl hr hp

theorem mtc1_scan_relabel (env : Env) (a : disasm_state) (L : List asm_label)
    (K i rt : Nat) :
    ∀ k, mtc1_scan env (relabel a L K) i rt k = relabel (mtc1_scan env a i rt k) L K := by
  intro k
  induction k with
  | zero => rfl
  | succ k ih =>
    unfold mtc1_scan
    simp only [insn_at_relabel]
    split_ifs <;> first | rfl | exact ih

theorem pseudo_step_relabel (env : Env) (a : disasm_state) (L : List asm_label) (K i : Nat)
    (hc : covers L (pseudo_step env a i)) :
    pseudo_step env (relabel a L K) i = relabel (pseudo_step env a i) L K := by
  unfold pseudo_step at hc ⊢
  simp only [insn_at_relabel] at hc ⊢
  generalize (insn_at a i).id = id at hc ⊢
  cases id
  case MTC1 => exact mtc1_scan_relabel env a L K i _ i
  case ADDIU =>
    simp only [] at hc ⊢
    split_ifs at hc ⊢
    · rfl
    · exact link_with_lui_relabel env a L K i _ _ hc
    · rfl
  case ORI =>
    simp only [] at hc ⊢
    split_ifs at hc ⊢
    · rfl
    · exact link_with_lui_relabel env a L K i _ _ hc
    · rfl
  all_goals first
    | rfl
    | exact link_with_lui_relabel env a L K i _ _ hc

theorem insn_step_relabel (env : Env) (mp : Bool) (a : disasm_state) (L : List asm_label)
    (K i : Nat) (hc : covers L (insn_step env mp a i)) :
    insn_step env mp (relabel a L K) i = relabel (insn_step env mp a i) L K := by
  have hg : (label_step env (upd_extra a i (fun e => { e with linked_insn := -1 })) i).labels
      <+: (insn_step env mp a i).labels := by
    unfold insn_step
    simp only []
    split_ifs
    · exact pseudo_step_grows env _ i
    · exact List.prefix_refl _
  have h2 := label_step_relabel env (upd_extra a i (fun e => { e with linked_insn := -1 }))
    L K i (covers_of_grows hg hc)
  unfold insn_step at hc ⊢
  simp only [] at hc ⊢
  rw [upd_extra_relabel, h2]
  cases mp
  · rfl
  · simp only [if_true] at hc ⊢
    exact pseudo_step_relabel env _ L K i hc

theorem block_upto_relabel (env : Env) (mp : Bool) (insn : List cs_insn) (vaddr : Nat)
    (st : disasm_state) (L : List asm_label) (K n : Nat)
    (hc : covers L (block_upto env mp insn vaddr st n)) :
    block_upto env mp insn vaddr (relabel st L K) n =
      relabel (block_upto env mp insn vaddr st n) L K := by
  induction n with
  | zero => rfl
  | succ n ih =>
    rw [block_upto_succ] at hc ⊢
    rw [block_upto_succ, ih (covers_of_grows (insn_step_grows env mp _ n) hc)]
    exact insn_step_relabel env mp _ L K n hc

theorem qsort_idem (l : List asm_label) : qsort_labels (qsort_labels l) = qsort_labels l :=
  qsort_sorted_eq _ (List.sorted_insertionSort label_le l)

theorem covers_qsort (st : disasm_state) : covers (qsort_labels st.labels) st := by
  intro l hl
  exact ⟨l, (List.perm_insertionSort label_le st.labels).mem_iff.mpr hl, rfl⟩

/-- C8: running pass one a second time on the state it returned, with the same
decoder, data, base address, dialect and pseudo-instruction flag, returns that state
unchanged: the same labels in the same order, the same instructions, the same
per-instruction links and values, and no further label. -/
theorem pass1_idempotent (env : Env) (data : List Nat) (vaddr : Nat) (syn : asm_syntax)
    (mp : Bool) (st : Option disasm_state) :
    mipsdisasm_pass1 env data vaddr syn mp
        (some (mipsdisasm_pass1 env data vaddr syn mp st)) =
      mipsdisasm_pass1 env data vaddr syn mp st := by
  rw [pass1_eq env data vaddr syn mp st, pass1_eq]
  by_cases hz : (env.cs_disasm data vaddr).length = 0
  · rw [disassemble_block_zero env data vaddr _ mp hz,
      disassemble_block_zero env data vaddr _ mp hz]
    show ({ (pass1_entry syn st) with
      labels := qsort_labels (qsort_labels (pass1_entry syn st).labels) } : disasm_state) = _
    rw [qsort_idem]
  · have hpos : 0 < (env.cs_disasm data vaddr).length := Nat.pos_of_ne_zero hz
    rw [disassemble_block_eq env data vaddr _ mp hpos,
      disassemble_block_eq env data vaddr _ mp hpos]
    have hrel := block_upto_relabel env mp (env.cs_disasm data vaddr) vaddr (pass1_entry syn st)
      (qsort_labels (block_upto env mp (env.cs_disasm data vaddr) vaddr (pass1_entry syn st)
        (env.cs_disasm data vaddr).length).labels)
      (block_upto env mp (env.cs_disasm data vaddr) vaddr (pass1_entry syn st)
        (env.cs_disasm data vaddr).length).label_alloc
      (env.cs_disasm data vaddr).length (covers_qsort _)
    have hinit : block_upto env mp (env.cs_disasm data vaddr) vaddr
        (pass1_entry syn (some
          { block_upto env mp (env.cs_disasm data vaddr) vaddr (pass1_entry syn st)
              (env.cs_disasm data vaddr).length with
            labels := qsort_labels (block_upto env mp (env.cs_disasm data vaddr) vaddr
              (pass1_entry syn st) (env.cs_disasm data vaddr).length).labels }))
        (env.cs_disasm data vaddr).length =
      block_upto env mp (env.cs_disasm data vaddr) vaddr
        (relabel (pass1_entry syn st)
          (qsort_labels (block_upto env mp (env.cs_disasm data vaddr) vaddr (pass1_entry syn st)
            (env.cs_disasm data vaddr).length).labels)
          (block_upto env mp (env.cs_disasm data vaddr) vaddr (pass1_entry syn st)
            (env.cs_disasm data vaddr).length).label_alloc)
        (env.cs_disasm data vaddr).length := rfl
    rw [hinit, hrel]
    show ({ (block_upto env mp (env.cs_disasm data vaddr) vaddr (pass1_entry syn st)
        (env.cs_disasm data vaddr).length) with
      labels := qsort_labels (qsort_labels (block_upto env mp (env.cs_disasm data vaddr) vaddr
        (pass1_entry syn st) (env.cs_disasm data vaddr).length).labels) } : disasm_state) = _
    rw [qsort_idem]

/-! ## The label cursor of pass two -/

set_option maxRecDepth 100000 in
/-- C5 (defect of the label cursor): for the stream
`lui $at, 0x8000; lb $t1, 1($at); b 0x80000008; nop` at base `0x80000000`, pass one
returns the sorted table `D_80000001, .L80000008`, and `.L80000008` sits at
`base + 4 * 2`, the address pass two reaches at instruction 2; yet the text pass two
writes has no line `.L80000008:` before the comment of instruction 2, although the
branch there prints `.L80000008` -- the cursor stays on `D_80000001`, an address no
instruction has. -/
theorem pass2_label_cursor_stuck :
    (mipsdisasm_pass1 (sample_env sample_unaligned) (stream_bytes sample_unaligned)
        2147483648 .ASM_GAS true none).labels =
      [{ name := "D_80000001", global := 1, vaddr := 2147483649 },
       { name := ".L80000008", global := 0, vaddr := 2147483648 + 4 * 2 }] ∧
    (mipsdisasm_pass1 (sample_env sample_unaligned) (stream_bytes sample_unaligned)
        2147483648 .ASM_GAS true none).labels.Sorted label_le ∧
    (mipsdisasm_pass1 (sample_env sample_unaligned) (stream_bytes sample_unaligned)
        2147483648 .ASM_GAS true none).vaddr = 2147483648 ∧
    mipsdisasm_pass2 (sample_env sample_unaligned) ""
        (mipsdisasm_pass1 (sample_env sample_unaligned) (stream_bytes sample_unaligned)
          2147483648 .ASM_GAS true none) =
      some ("/* 80000000 3C018000 */  lui   $at, %hi(D_80000001)\n" ++
        "/* 80000004 80290001 */  lb    $t1, %lo(D_80000001)($at)\n" ++
        "/* 80000008 1000FFFF */  b     .L80000008\n" ++
        "/* 8000000C 00000000 */  nop   \n") := by
  refine ⟨by decide, ?_, by decide, by decide⟩
  rw [pass1_eq]
  exact List.sorted_insertionSort label_le _

/-! ## `label_find`: the first label at an address -/

theorem label_find_from_spec (L : List asm_label) (v n : Nat) :
    label_find_from L v n = -1 ∨
    ∃ i, i < L.length ∧ label_find_from L v n = ((n + i : Nat) : Int) ∧
      (L.getD i zero_label).vaddr = v ∧ ∀ k, k < i → (L.getD k zero_label).vaddr ≠ v := by
  induction L generalizing n with
  | nil => left; rfl
  | cons l rest ih =>
    unfold label_find_from
    by_cases h : l.vaddr = v
    · right
      refine ⟨0, by simp, ?_, h, fun k hk => by omega⟩
      rw [if_pos h]
      rfl
    · rw [if_neg h]
      rcases ih (n + 1) with h1 | ⟨i, hi, h1, h2, h3⟩
      · left; exact h1
      · right
        refine ⟨i + 1, by simpa using hi, ?_, ?_, ?_⟩
        · rw [h1]
          congr 1
          omega
        · simpa using h2
        · intro k hk
          cases k with
          | zero => simpa using h
          | succ k => simpa using h3 k (by omega)

theorem canonical_le_refl (a : asm_label) : canonical_le a a :=
  Or.inr ⟨rfl, Or.inr ⟨rfl, le_refl _⟩⟩

theorem sorted_first_le (L : List asm_label) (hs : L.Sorted label_le) (i : Nat)
    (hi : i < L.length) (v : Nat)
    (hmin : ∀ k, k < i → (L.getD k zero_label).vaddr ≠ v) :
    ∀ l ∈ L, l.vaddr = v → canonical_le (L.getD i zero_label) l := by
  intro l hl hv
  obtain ⟨k, hk, rfl⟩ := List.getElem_of_mem hl
  rw [List.getD_eq_getElem L zero_label hi]
  have hki : ¬ k < i := fun hlt => hmin k hlt (by rw [List.getD_eq_getElem L zero_label hk]; exact hv)
  by_cases hik : i = k
  · subst hik
    exact canonical_le_refl _
  · have hlt : i < k := by omega
    have := List.pairwise_iff_getElem.mp hs i k hi hk hlt
    exact (cmp_label_le_iff _ _).mp this

/-- C17: `label_find` returns -1 exactly when no label of the table has the address,
and otherwise the smallest index whose label has it; on a table sorted by
`cmp_label` the label at that index comes first in the canonical order among all
labels at the address (so a local label before a global one). -/
theorem label_find_first (st : disasm_state) (v : Nat) :
    (label_find st v = -1 ↔ ¬ has_label st.labels v) ∧
    (has_label st.labels v → 0 ≤ label_find st v) ∧
    (∀ i : Nat, label_find st v = (i : Int) ↔
      (i < st.labels.length ∧ (st.labels.getD i zero_label).vaddr = v ∧
        ∀ k, k < i → (st.labels.getD k zero_label).vaddr ≠ v)) ∧
    (st.labels.Sorted label_le → ∀ i : Nat, label_find st v = (i : Int) →
      ∀ l ∈ st.labels, l.vaddr = v →
        canonical_le (st.labels.getD i zero_label) l ∧
        (st.labels.getD i zero_label).global ≤ l.global) := by
  have hneg := label_find_neg st v
  have hspec := label_find_from_spec st.labels v 0
  have hiff : ∀ i : Nat, label_find st v = (i : Int) ↔
      (i < st.labels.length ∧ (st.labels.getD i zero_label).vaddr = v ∧
        ∀ k, k < i → (st.labels.getD k zero_label).vaddr ≠ v) := by
    intro i
    constructor
    · intro h
      rcases hspec with h1 | ⟨i', hi, h1, h2, h3⟩
      · unfold label_find at h
        omega
      · unfold label_find at h
        have : i' = i := by omega
        subst this
        exact ⟨hi, h2, h3⟩
    · rintro ⟨hi, h2, h3⟩
      rcases hspec with h1 | ⟨i', hi', h1, h2', h3'⟩
      · have hno : ¬ has_label st.labels v := hneg.mp (by unfold label_find; omega)
        exact absurd ⟨st.labels.getD i zero_label,
          by rw [List.getD_eq_getElem _ _ hi]; exact List.getElem_mem _, h2⟩ hno
      · have : i' = i := by
          by_contra hne
          rcases Nat.lt_or_gt_of_ne hne with hlt | hgt
          · exact h3 i' hlt h2'
          · exact h3' i hgt h2
        subst this
        unfold label_find
        rw [h1]
        congr 1
        omega
  refine ⟨?_, ?_, hiff, ?_⟩
  · rw [← hneg]
    unfold label_find
    rcases hspec with h1 | ⟨i', _, h1, _, _⟩ <;> omega
  · intro hh
    by_contra hc
    exact (hneg.mp (by omega)) hh
  · intro hs i hi l hl hv
    obtain ⟨h1, h2, h3⟩ := (hiff i).mp hi
    have hc := sorted_first_le st.labels hs i h1 v h3 l hl hv
    refine ⟨hc, ?_⟩
    rcases hc with hlt | ⟨_, hg | ⟨hg, _⟩⟩
    · omega
    · exact le_of_lt hg
    · exact le_of_eq hg

/-- In the table `D_80000004, .L80000010, func_80000010` the lookup of `0x80000010`
returns index 1, the local label. -/
theorem label_find_first_witness :
    label_find sample_alias_state 2147483664 = 1 ∧
    (sample_alias_state.labels.getD 1 zero_label).global ≤ (func_label 2147483664).global :=
  have h := label_find_first sample_alias_state 2147483664
  ⟨by decide, (h.2.2.2 (by decide) 1 (by decide) (func_label 2147483664) (by decide)
    (by decide)).2⟩

/-! ## `link_with_lui`: which `lui` is linked, and the data label -/

theorem nearest_lui_iff (env : Env) (st : disasm_state) (offset reg s : Nat) :
    nearest_lui env st offset reg s ↔
      (s < offset ∧ (offset : Int) - 128 ≤ s ∧ (insn_at st s).id = .LUI ∧
        (operand (insn_at st s) 0).reg = reg ∧
        ∀ j, s < j → j < offset → scan_passes env st reg j) := by
  unfold nearest_lui scan_passes
  constructor
  · rintro ⟨h1, h2, h3, h4, h5, h6⟩
    refine ⟨h2, h1, h3, h4, fun j hj1 hj2 => ⟨?_, ?_, (h6 j hj1 hj2).2⟩⟩
    · rintro ⟨a, b⟩
      exact h5 j hj1 hj2 ⟨a, b.symm⟩
    · rintro ⟨a, b⟩
      exact (h6 j hj1 hj2).1 ⟨a, b.symm⟩
  · rintro ⟨h1, h2, h3, h4, h5⟩
    refine ⟨h2, h1, h3, h4, fun j hj1 hj2 => ?_, fun j hj1 hj2 => ⟨?_, (h5 j hj1 hj2).2.2⟩⟩
    · rintro ⟨a, b⟩
      exact (h5 j hj1 hj2).1 ⟨a, b.symm⟩
    · rintro ⟨a, b⟩
      exact (h5 j hj1 hj2).2.1 ⟨a, b.symm⟩

theorem link_with_lui_nearest_eq (env : Env) (st : disasm_state) (offset reg m s : Nat)
    (hm : m ≠ 0) (h : nearest_lui env st offset reg s) :
    link_with_lui env st offset reg m = link_pair st offset s m := by
  obtain ⟨h1, h2, h3, h4, h5⟩ := (nearest_lui_iff env st offset reg s).mp h
  exact link_with_lui_hit env st offset reg m s hm h1 h2 h3 h4 h5

theorem link_with_lui_nearest_cases (env : Env) (st : disasm_state) (offset reg m : Nat) :
    link_with_lui env st offset reg m = st ∨
      ∃ s, m ≠ 0 ∧ nearest_lui env st offset reg s ∧
        link_with_lui env st offset reg m = link_pair st offset s m := by
  rcases link_with_lui_cases env st offset reg m with h | ⟨s, hm, h1, h2, h3, h4, h5, h6⟩
  · left; exact h
  · right
    exact ⟨s, hm, (nearest_lui_iff env st offset reg s).mpr ⟨h1, h2, h3, h4, h5⟩, h6⟩

theorem extra_at_link_pair_user (st : disasm_state) (o s m : Nat)
    (ho : o < st.insn_extra.length) :
    (extra_at (link_pair st o s m) o).linked_insn = (s : Int) ∧
    (extra_at (link_pair st o s m) o).linked_value = pair_addr st s m := by
  rw [extra_at_link_pair, if_pos ⟨rfl, ho⟩]
  exact ⟨rfl, rfl⟩

theorem extra_at_link_pair_lui (st : disasm_state) (o s m : Nat) (hs : s < o)
    (ho : o < st.insn_extra.length) :
    (extra_at (link_pair st o s m) s).linked_insn = (o : Int) ∧
    (extra_at (link_pair st o s m) s).linked_value = pair_addr st s m := by
  have n1 : ¬ (o = s ∧ o < st.insn_extra.length) := by omega
  rw [extra_at_link_pair, if_neg n1, if_pos ⟨rfl, by omega⟩]
  exact ⟨rfl, rfl⟩

/-- C19: for non-zero `mem_imm` and an index `offset` whose extras are unlinked (as
pass one leaves them before the call), `link_with_lui` links `offset` with `s` if and
only if `s` is the greatest index in `[max(0, offset - 128), offset - 1]` holding a
`lui` of `reg` with no `lw, ld, addiu, add, sub, subu` of `reg` and no `jr $ra`
between `s` and `offset`; then the extras of `s` point back at `offset`; when no such
`s` exists the state (extras, labels, instructions) is unchanged. -/
theorem link_with_lui_nearest (env : Env) (st : disasm_state) (offset reg mem_imm : Nat)
    (hm : mem_imm ≠ 0) (hoff : offset < st.insn_extra.length)
    (hpre : (extra_at st offset).linked_insn = -1) :
    (∀ s : Nat, (extra_at (link_with_lui env st offset reg mem_imm) offset).linked_insn = (s : Int) ↔
      nearest_lui env st offset reg s) ∧
    (∀ s : Nat, nearest_lui env st offset reg s →
      (extra_at (link_with_lui env st offset reg mem_imm) s).linked_insn = (offset : Int)) ∧
    ((¬ ∃ s, nearest_lui env st offset reg s) →
      link_with_lui env st offset reg mem_imm = st) := by
  refine ⟨fun s => ⟨?_, ?_⟩, ?_, ?_⟩
  · intro hpost
    rcases link_with_lui_nearest_cases env st offset reg mem_imm with h | ⟨s', _, hn, heq⟩
    · rw [h, hpre] at hpost
      omega
    · rw [heq, (extra_at_link_pair_user st offset s' mem_imm hoff).1] at hpost
      have : s' = s := by omega
      subst this
      exact hn
  · intro hn
    rw [link_with_lui_nearest_eq env st offset reg mem_imm s hm hn]
    exact (extra_at_link_pair_user st offset s mem_imm hoff).1
  · intro s hn
    rw [link_with_lui_nearest_eq env st offset reg mem_imm s hm hn]
    exact (extra_at_link_pair_lui st offset s mem_imm hn.2.1 hoff).1
  · intro hno
    rcases link_with_lui_nearest_cases env st offset reg mem_imm with h | ⟨s', _, hn, _⟩
    · exact h
    · exact absurd ⟨s', hn⟩ hno

/-- In `lui $at, 0x8024; addiu $at, $at, 0x1000` the `addiu` at index 1 is linked with
index 0. -/
theorem link_with_lui_nearest_witness :
    nearest_lui (sample_env []) sample_pair_state 1 2 0 ∧
    (extra_at (link_with_lui (sample_env []) sample_pair_state 1 2 4096) 1).linked_insn =
      ((0 : Nat) : Int) :=
  have h := link_with_lui_nearest (sample_env []) sample_pair_state 1 2 4096
    (by decide) (by decide) (by decide)
  have hn : nearest_lui (sample_env []) sample_pair_state 1 2 0 :=
    ⟨by decide, by decide, by decide, by decide, fun j h1 h2 => by omega,
      fun j h1 h2 => by omega⟩
  ⟨hn, (h.1 0).mpr hn⟩

/-- C20: on a successful link of `offset` with the `lui` at `s`, with
`addr = ((lui_imm << 16) + mem_imm) mod 2^32`: when the instruction at `offset` is not
`ori` and no label sits at `addr`, exactly the global label `D_%08X` of `addr` is
appended; when it is `ori`, or a label sits at `addr`, the table is unchanged; in
both cases the instruction stream is unchanged and both cross-links, with `addr`,
are written. -/
theorem link_with_lui_data_label (env : Env) (st : disasm_state) (offset reg mem_imm s : Nat)
    (hm : mem_imm ≠ 0) (hoff : offset < st.insn_extra.length)
    (hit : nearest_lui env st offset reg s) :
    (((insn_at st offset).id ≠ .ORI ∧
        ¬ has_label st.labels ((to_u32 (operand (insn_at st s) 1).imm * 65536 + mem_imm) % 4294967296)) →
      (link_with_lui env st offset reg mem_imm).labels = st.labels ++
        [{ name := "D_" ++ fmt_08X ((to_u32 (operand (insn_at st s) 1).imm * 65536 + mem_imm) % 4294967296),
           global := 1,
           vaddr := (to_u32 (operand (insn_at st s) 1).imm * 65536 + mem_imm) % 4294967296 }]) ∧
    (((insn_at st offset).id = .ORI ∨
        has_label st.labels ((to_u32 (operand (insn_at st s) 1).imm * 65536 + mem_imm) % 4294967296)) →
      (link_with_lui env st offset reg mem_imm).labels = st.labels) ∧
    (link_with_lui env st offset reg mem_imm).instructions = st.instructions ∧
    (extra_at (link_with_lui env st offset reg mem_imm) s).linked_insn = (offset : Int) ∧
    (extra_at (link_with_lui env st offset reg mem_imm) offset).linked_insn = (s : Int) ∧
    (extra_at (link_with_lui env st offset reg mem_imm) s).linked_value =
      (to_u32 (operand (insn_at st s) 1).imm * 65536 + mem_imm) % 4294967296 ∧
    (extra_at (link_with_lui env st offset reg mem_imm) offset).linked_value =
      (to_u32 (operand (insn_at st s) 1).imm * 65536 + mem_imm) % 4294967296 := by
  rw [link_with_lui_nearest_eq env st offset reg mem_imm s hm hit, ← pair_addr_eq]
  refine ⟨?_, ?_, link_pair_instructions _ _ _ _,
    (extra_at_link_pair_lui st offset s mem_imm hit.2.1 hoff).1,
    (extra_at_link_pair_user st offset s mem_imm hoff).1,
    (extra_at_link_pair_lui st offset s mem_imm hit.2.1 hoff).2,
    (extra_at_link_pair_user st offset s mem_imm hoff).2⟩
  · rintro ⟨h1, h2⟩
    rw [link_pair_labels, if_pos ⟨h1, (label_find_neg _ _).mpr h2⟩]
  · intro h
    rw [link_pair_labels]
    have : ¬ ((insn_at st offset).id ≠ .ORI ∧ label_find st (pair_addr st s mem_imm) < 0) := by
      rintro ⟨h1, h2⟩
      rcases h with h | h
      · exact h1 h
      · exact ((label_find_neg _ _).mp h2) h
    rw [if_neg this]

/-- The `addiu` of `lui $at, 0x8024; addiu $at, $at, 0x1000` adds `D_80241000` to the
empty table. -/
theorem link_with_lui_data_label_witness :
    (link_with_lui (sample_env []) sample_pair_state 1 2 4096).labels =
      [{ name := "D_80241000", global := 1, vaddr := 2149847040 }] :=
  have hn : nearest_lui (sample_env []) sample_pair_state 1 2 0 :=
    ⟨by decide, by decide, by decide, by decide, fun j h1 h2 => by omega,
      fun j h1 h2 => by omega⟩
  have h := link_with_lui_data_label (sample_env []) sample_pair_state 1 2 4096 0
    (by decide) (by decide) hn
  (h.1 ⟨by decide, by rintro ⟨l, hl, _⟩; exact absurd hl (List.not_mem_nil l)⟩).trans
    (by decide)

/-! ## A decode that yields no instruction -/

/-- C12: when the decoder yields zero instructions, `mipsdisasm_pass1` returns the
starting state (a newly allocated one for `NULL`) with the same labels (their set
and number; the table is sorted as always), the same capacity, instruction stream,
instruction count, extras and base address: no extras entry is written and no label
is added. -/
theorem pass1_decode_failure (env : Env) (data : List Nat) (vaddr : Nat) (syn : asm_syntax)
    (mp : Bool) (st : Option disasm_state) (h : (env.cs_disasm data vaddr).length = 0) :
    (mipsdisasm_pass1 env data vaddr syn mp st).labels.Perm
      (st.getD disasm_state_alloc).labels ∧
    (∀ l, l ∈ (mipsdisasm_pass1 env data vaddr syn mp st).labels ↔
      l ∈ (st.getD disasm_state_alloc).labels) ∧
    (mipsdisasm_pass1 env data vaddr syn mp st).labels.length =
      (st.getD disasm_state_alloc).labels.length ∧
    (mipsdisasm_pass1 env data vaddr syn mp st).label_alloc =
      (st.getD disasm_state_alloc).label_alloc ∧
    (mipsdisasm_pass1 env data vaddr syn mp st).instructions =
      (st.getD disasm_state_alloc).instructions ∧
    instruction_count (mipsdisasm_pass1 env data vaddr syn mp st) =
      instruction_count (st.getD disasm_state_alloc) ∧
    (mipsdisasm_pass1 env data vaddr syn mp st).insn_extra =
      (st.getD disasm_state_alloc).insn_extra ∧
    (mipsdisasm_pass1 env data vaddr syn mp st).vaddr = (st.getD disasm_state_alloc).vaddr := by
  rw [pass1_eq, disassemble_block_zero env data vaddr _ mp h]
  have hp : (qsort_labels (pass1_entry syn st).labels).Perm (st.getD disasm_state_alloc).labels :=
    List.perm_insertionSort label_le _
  exact ⟨hp, fun l => hp.mem_iff, hp.length_eq, rfl, rfl, rfl, rfl, rfl⟩

/-- A second call with no data on the state pass one returned for
`lui $at, 0x8024; addiu $at, $at, 0x1000`. -/
theorem pass1_decode_failure_witness :
    (mipsdisasm_pass1 (sample_decoder sample_pair_stream) [] 2147487744 .ASM_GAS true
      (some (mipsdisasm_pass1 (sample_decoder sample_pair_stream)
        (stream_bytes sample_pair_stream) 2147483648 .ASM_GAS true none))).insn_extra =
      [{ linked_insn := 1, linked_value := 2149847040, newline := 0 },
       { linked_insn := 0, linked_value := 2149847040, newline := 0 }] ∧
    (mipsdisasm_pass1 (sample_decoder sample_pair_stream) [] 2147487744 .ASM_GAS true
      (some (mipsdisasm_pass1 (sample_decoder sample_pair_stream)
        (stream_bytes sample_pair_stream) 2147483648 .ASM_GAS true none))).vaddr =
      2147483648 :=
  have h := pass1_decode_failure (sample_decoder sample_pair_stream) [] 2147487744 .ASM_GAS
    true (some (mipsdisasm_pass1 (sample_decoder sample_pair_stream)
      (stream_bytes sample_pair_stream) 2147483648 .ASM_GAS true none)) (by decide)
  ⟨h.2.2.2.2.2.2.1.trans (by decide), h.2.2.2.2.2.2.2.trans (by decide)⟩

/-! ## Pass two appends text -/

theorem emit_labels_append (v : Nat) (rest : List asm_label) (out : String) :
    emit_labels v rest out =
      (out ++ (emit_labels v rest "").1, (emit_labels v rest "").2) := by
  induction rest generalizing out with
  | nil => simp [emit_labels]
  | cons l rest ih =>
    unfold emit_labels
    by_cases h : v = l.vaddr
    · rw [if_pos h, if_pos h, ih (out ++ l.name ++ ":\n"), ih ("" ++ l.name ++ ":\n")]
      simp [String.append_assoc]
    · rw [if_neg h, if_neg h]
      simp

theorem emit_jump_operands_append (env : Env) (st : disasm_state) (ops : List cs_mips_op)
    (o : Nat) (out : String) :
    emit_jump_operands env st ops o out =
      (emit_jump_operands env st ops o "").map (fun t => out ++ t) := by
  induction ops generalizing o out with
  | nil => simp [emit_jump_operands]
  | cons op rest ih =>
    unfold emit_jump_operands
    simp only []
    cases op.type <;> simp only []
    · rw [ih, ih (o + 1) (if o > 0 then "" ++ ", " else "")]
      cases emit_jump_operands env st rest (o + 1) "" <;> by_cases ho : o > 0 <;>
        simp [ho, String.append_assoc]
    · rw [ih, ih (o + 1) ((if o > 0 then "" ++ ", " else "") ++ "$" ++ env.cs_reg_name op.reg)]
      cases emit_jump_operands env st rest (o + 1) "" <;> by_cases ho : o > 0 <;>
        simp [ho, String.append_assoc]
    · cases label_name st (label_find st (to_u32 op.imm)) with
      | none => rfl
      | some nm =>
        simp only []
        rw [ih, ih (o + 1) ((if o > 0 then "" ++ ", " else "") ++ nm)]
        cases emit_jump_operands env st rest (o + 1) "" <;> by_cases ho : o > 0 <;>
        simp [ho, String.append_assoc]
    · rw [ih, ih (o + 1) (if o > 0 then "" ++ ", " else "")]
      cases emit_jump_operands env st rest (o + 1) "" <;> by_cases ho : o > 0 <;>
        simp [ho, String.append_assoc]

theorem emit_linked_append (env : Env) (st : disasm_state) (i : Nat) (insn : cs_insn)
    (l : Int) (out : String) :
    emit_linked env st i insn l out =
      (emit_linked env st i insn l "").map (fun t => out ++ t) := by
  unfold emit_linked
  simp only []
  generalize label_name st (label_find st (extra_at st i).linked_value) = ln
  generalize (insn_at st l.toNat).id = lid
  generalize st.syntax_ = syn
  by_cases h1 : insn.id = .LI
  · simp only [h1, if_true]
    cases syn <;> simp [String.append_assoc]
  · simp only [h1, if_false]
    by_cases h2 : insn.id = .LUI
    · simp only [h2, if_true]
      cases syn
      · cases ln <;> simp [String.append_assoc]
      · cases ln <;> cases lid <;> simp [String.append_assoc]
    · simp only [h2, if_false]
      by_cases h3 : insn.id = .ADDIU ∨ insn.id = .ORI
      · simp only [h3, if_true]
        cases syn
        · cases ln <;> simp [String.append_assoc]
        · by_cases h4 : insn.id = .ADDIU
          · simp only [h4, if_true]
            cases ln <;> simp [String.append_assoc]
          · simp only [h4, if_false]
            simp [String.append_assoc]
      · simp only [h3, if_false]
        cases ln <;> simp [String.append_assoc]

theorem emit_insn_append (env : Env) (st : disasm_state) (i : Nat) (out : String) :
    emit_insn env st i out = (emit_insn env st i "").map (fun t => out ++ t) := by
  unfold emit_insn
  simp only []
  split_ifs
  · rw [emit_jump_operands_append,
      emit_jump_operands_append env st _ 0 ("" ++ fmt_pad5 (insn_at st i).mnemonic ++ " ")]
    cases emit_jump_operands env st (insn_at st i).operands 0 "" <;>
      simp [String.append_assoc]
  · cases label_name st (label_find st (to_u32 (operand (insn_at st i) 0).imm)) <;>
      simp [String.append_assoc]
  · simp [String.append_assoc]
  · simp [String.append_assoc]
  · rw [emit_linked_append]
  · simp [String.append_assoc]

theorem pass2_loop_succ (env : Env) (st : disasm_state) (n i v : Nat)
    (rest : List asm_label) (out : String) :
    pass2_loop env st (n + 1) i v rest out =
      (emit_insn env st i "").bind (fun body =>
        pass2_loop env st n (i + 1) ((v + 4) % 4294967296) (emit_labels v rest "").2
          (out ++ (if (extra_at st i).newline ≠ 0 then "\n" else "") ++
            (emit_labels v rest "").1 ++ byte_comment v (insn_at st i) ++ body)) := by
  rw [pass2_loop, emit_labels_append, emit_insn_append]
  cases emit_insn env st i "" with
  | none => rfl
  | some body =>
    by_cases h : (extra_at st i).newline ≠ 0
    · simp [h]
    · simp [h]

theorem pass2_loop_append (env : Env) (st : disasm_state) (n i v : Nat)
    (rest : List asm_label) (out : String) :
    pass2_loop env st n i v rest out =
      (pass2_loop env st n i v rest "").map (fun t => out ++ t) := by
  induction n generalizing i v rest out with
  | zero => simp [pass2_loop]
  | succ n ih =>
    rw [pass2_loop_succ, pass2_loop_succ env st n i v rest ""]
    cases emit_insn env st i "" with
    | none => rfl
    | some body =>
      simp only [Option.some_bind]
      rw [ih, ih (i + 1) _ _ ("" ++ _ ++ _ ++ _ ++ _)]
      cases pass2_loop env st n (i + 1) ((v + 4) % 4294967296) (emit_labels v rest "").2 "" <;>
        simp [String.append_assoc]

theorem byte_comment_length (v : Nat) (insn : cs_insn) : 0 < (byte_comment v insn).length := by
  unfold byte_comment
  simp only [String.length_append]
  have : ("/* " : String).length = 3 := by decide
  omega

theorem pass2_loop_length (env : Env) (st : disasm_state) (n i v : Nat)
    (rest : List asm_label) (out res : String)
    (h : pass2_loop env st (n + 1) i v rest out = some res) : out.length < res.length := by
  rw [pass2_loop_succ] at h
  cases hb : emit_insn env st i "" with
  | none => rw [hb] at h; exact absurd h (by simp)
  | some body =>
    rw [hb, Option.some_bind, pass2_loop_append] at h
    cases ht : pass2_loop env st n (i + 1) ((v + 4) % 4294967296) (emit_labels v rest "").2 "" with
    | none => rw [ht] at h; exact absurd h (by simp)
    | some t =>
      rw [ht] at h
      simp only [Option.map_some', Option.some.injEq] at h
      rw [← h]
      simp only [String.length_append]
      have := byte_comment_length v (insn_at st i)
      omega

/-! ## Pass two after a decode that yields no instruction -/

/-- C13 as stated fails: pass one on `lui $at, 0x8024; lw $at, 0($at)`, followed by a
call whose decode yields no instruction, leaves the two instructions in the state,
and pass two writes their two lines. -/
theorem pass1_decode_failure_stream_counterexample :
    ((sample_decoder sample_zero_disp).cs_disasm [] 2147487744).length = 0 ∧
    instruction_count
      (mipsdisasm_pass1 (sample_decoder sample_zero_disp) [] 2147487744 .ASM_GAS true
        (some (mipsdisasm_pass1 (sample_decoder sample_zero_disp)
          (stream_bytes sample_zero_disp) 2147483648 .ASM_GAS true none))) = 2 ∧
    mipsdisasm_pass2 (sample_decoder sample_zero_disp) ""
      (mipsdisasm_pass1 (sample_decoder sample_zero_disp) [] 2147487744 .ASM_GAS true
        (some (mipsdisasm_pass1 (sample_decoder sample_zero_disp)
          (stream_bytes sample_zero_disp) 2147483648 .ASM_GAS true none))) =
      some ("/* 80000000 3C018024 */  lui   $at, 0x8024\n" ++
        "/* 80000004 8C210000 */  lw    $at, ($at)\n") := by
  decide

/-- C13 (as amended): after a `mipsdisasm_pass1` call whose decode yields zero
instructions the instruction stream and the instruction count are those of the
starting state (a newly allocated, empty one for `NULL`), and a following
`mipsdisasm_pass2` writes nothing if and only if that stream is empty. -/
theorem pass1_decode_failure_stream (env : Env) (data : List Nat) (vaddr : Nat)
    (syn : asm_syntax) (mp : Bool) (st : Option disasm_state) (out : String)
    (h : (env.cs_disasm data vaddr).length = 0) :
    (mipsdisasm_pass1 env data vaddr syn mp st).instructions =
      (st.getD disasm_state_alloc).instructions ∧
    instruction_count (mipsdisasm_pass1 env data vaddr syn mp st) =
      instruction_count (st.getD disasm_state_alloc) ∧
    (mipsdisasm_pass1 env data vaddr syn mp none).instructions = [] ∧
    (mipsdisasm_pass2 env out (mipsdisasm_pass1 env data vaddr syn mp st) = some out ↔
      instruction_count (st.getD disasm_state_alloc) = 0) := by
  have hi : (mipsdisasm_pass1 env data vaddr syn mp st).instructions =
      (st.getD disasm_state_alloc).instructions := by
    rw [pass1_eq, disassemble_block_zero env data vaddr _ mp h]
    rfl
  have hn : (mipsdisasm_pass1 env data vaddr syn mp none).instructions = [] := by
    rw [pass1_eq, disassemble_block_zero env data vaddr _ mp h]
    rfl
  have hc : instruction_count (mipsdisasm_pass1 env data vaddr syn mp st) =
      instruction_count (st.getD disasm_state_alloc) := by
    unfold instruction_count
    rw [hi]
  refine ⟨hi, hc, hn, ?_⟩
  unfold mipsdisasm_pass2
  rw [hc]
  cases hk : instruction_count (st.getD disasm_state_alloc) with
  | zero => simp [pass2_loop]
  | succ n =>
    constructor
    · intro hp
      have := pass2_loop_length env _ n 0 _ _ out out hp
      omega
    · intro hz
      omega

/-- On a newly allocated state a call whose decode yields no instruction leaves the
stream empty and pass two writes nothing. -/
theorem pass1_decode_failure_stream_witness :
    mipsdisasm_pass2 (sample_decoder sample_zero_disp) ""
      (mipsdisasm_pass1 (sample_decoder sample_zero_disp) [] 2147487744 .ASM_GAS true none) =
      some "" :=
  have h := pass1_decode_failure_stream (sample_decoder sample_zero_disp) [] 2147487744
    .ASM_GAS true none "" (by decide)
  h.2.2.2.mpr (by decide)

/-! ## Label lookups of pass two -/

/-- C11 (defect of the `lui`/`ori` pair under GAS): for the stream
`lui $at, 0x8024; ori $at, $at, 0x1000` at base `0x80000000`, pass one with
`merge_pseudo` links the two instructions at address `0x80241000` but, the user being
`ori`, adds no label; pass two then looks the linked address of the `lui` up, gets
-1, and reads `labels[-1].name`. -/
theorem pass2_lookup_fails :
    (mipsdisasm_pass1 (sample_env sample_lui_ori) (stream_bytes sample_lui_ori)
        2147483648 .ASM_GAS true none).labels = [] ∧
    (insn_at (mipsdisasm_pass1 (sample_env sample_lui_ori) (stream_bytes sample_lui_ori)
        2147483648 .ASM_GAS true none) 0).id = .LUI ∧
    (extra_at (mipsdisasm_pass1 (sample_env sample_lui_ori) (stream_bytes sample_lui_ori)
        2147483648 .ASM_GAS true none) 0).linked_insn = 1 ∧
    (extra_at (mipsdisasm_pass1 (sample_env sample_lui_ori) (stream_bytes sample_lui_ori)
        2147483648 .ASM_GAS true none) 0).linked_value = 2149847040 ∧
    (extra_at (mipsdisasm_pass1 (sample_env sample_lui_ori) (stream_bytes sample_lui_ori)
        2147483648 .ASM_GAS true none) 1).linked_insn = 0 ∧
    label_find (mipsdisasm_pass1 (sample_env sample_lui_ori) (stream_bytes sample_lui_ori)
        2147483648 .ASM_GAS true none) 2149847040 = -1 ∧
    emit_insn (sample_env sample_lui_ori)
      (mipsdisasm_pass1 (sample_env sample_lui_ori) (stream_bytes sample_lui_ori)
        2147483648 .ASM_GAS true none) 0 "" = none ∧
    emit_insn (sample_env sample_lui_ori)
      (mipsdisasm_pass1 (sample_env sample_lui_ori) (stream_bytes sample_lui_ori)
        2147483648 .ASM_GAS true none) 1 "" = none ∧
    mipsdisasm_pass2 (sample_env sample_lui_ori) ""
      (mipsdisasm_pass1 (sample_env sample_lui_ori) (stream_bytes sample_lui_ori)
        2147483648 .ASM_GAS true none) = none := by
  decide

/-! ## The `mtc1` case: float literals -/

theorem insn_at_lt_of_lui (st : disasm_state) (s : Nat) (h : (insn_at st s).id = .LUI) :
    s < st.instructions.length := by
  by_contra hc
  unfold insn_at at h
  rw [List.getD_eq_default _ _ (by omega)] at h
  exact absurd h (by decide)

theorem mtc1_link_eq (st : disasm_state) (i s : Nat) :
    upd_insn (upd_extra st s (fun e =>
      { e with linked_insn := (i : Int),
               linked_value := (to_u32 (operand (insn_at st s) 1).imm * 65536) % 4294967296 }))
      s (fun r => { r with id := .LI, mnemonic := "li" }) = mtc1_link st i s := rfl

theorem mtc1_scan_hit (env : Env) (st : disasm_state) (i rt s : Nat)
    (hlui : (insn_at st s).id = .LUI) (hreg : (operand (insn_at st s) 0).reg = rt) :
    ∀ k, s < k → (∀ j, s < j → j < k → mtc1_passes env st rt j) →
      mtc1_scan env st i rt k = mtc1_link st i s := by
  intro k
  induction k with
  | zero => intro h; omega
  | succ k ih =>
    intro hk hp
    unfold mtc1_scan
    simp only []
    by_cases hs : s = k
    · subst hs
      rw [if_pos ⟨hlui, hreg⟩]
      rfl
    · have hlt : s < k := by omega
      obtain ⟨p1, p2, p3⟩ := hp k hlt (by omega)
      have hrec := ih hlt (fun j h1 h2 => hp j h1 (by omega))
      rw [if_neg p1]
      by_cases hc : (insn_at st k).id = .LW ∨ (insn_at st k).id = .LD ∨
          (insn_at st k).id = .LH ∨ (insn_at st k).id = .LHU ∨
          (insn_at st k).id = .LB ∨ (insn_at st k).id = .LBU ∨
          (insn_at st k).id = .ADDIU ∨ (insn_at st k).id = .ADD ∨
          (insn_at st k).id = .SUB ∨ (insn_at st k).id = .SUBU
      · rw [if_pos hc, if_neg (fun hrt => p2 ⟨hc, hrt⟩)]
        exact hrec
      · rw [if_neg hc, if_neg p3]
        exact hrec

theorem mtc1_scan_nearest_cases (env : Env) (st : disasm_state) (i rt : Nat) :
    ∀ k, mtc1_scan env st i rt k = st ∨
      ∃ s, s < k ∧ (insn_at st s).id = .LUI ∧ (operand (insn_at st s) 0).reg = rt ∧
        (∀ j, s < j → j < k → mtc1_passes env st rt j) ∧
        mtc1_scan env st i rt k = mtc1_link st i s := by
  intro k
  induction k with
  | zero => left; rfl
  | succ k ih =>
    unfold mtc1_scan
    simp only []
    by_cases h1 : (insn_at st k).id = .LUI ∧ (operand (insn_at st k) 0).reg = rt
    · right
      refine ⟨k, by omega, h1.1, h1.2, fun j a b => by omega, ?_⟩
      rw [if_pos h1]
      rfl
    · rw [if_neg h1]
      by_cases hc : (insn_at st k).id = .LW ∨ (insn_at st k).id = .LD ∨
          (insn_at st k).id = .LH ∨ (insn_at st k).id = .LHU ∨
          (insn_at st k).id = .LB ∨ (insn_at st k).id = .LBU ∨
          (insn_at st k).id = .ADDIU ∨ (insn_at st k).id = .ADD ∨
          (insn_at st k).id = .SUB ∨ (insn_at st k).id = .SUBU
      · rw [if_pos hc]
        by_cases hrt : rt = (operand (insn_at st k) 0).reg
        · rw [if_pos hrt]
          left; rfl
        · rw [if_neg hrt]
          rcases ih with h | ⟨s, hs, hl, hr, hp, heq⟩
          · left; exact h
          · right
            refine ⟨s, by omega, hl, hr, fun j a b => ?_, heq⟩
            by_cases hjk : j = k
            · subst hjk
              refine ⟨h1, fun hh => hrt hh.2, fun hh => ?_⟩
              rcases hc with c | c | c | c | c | c | c | c | c | c <;>
                (rw [c] at hh; exact absurd hh.1 (by decide))
            · exact hp j a (by omega)
      · rw [if_neg hc]
        by_cases hj : (insn_at st k).id = .JR ∧ (operand (insn_at st k) 0).reg = env.MIPS_REG_RA
        · rw [if_pos hj]
          left; rfl
        · rw [if_neg hj]
          rcases ih with h | ⟨s, hs, hl, hr, hp, heq⟩
          · left; exact h
          · right
            refine ⟨s, by omega, hl, hr, fun j a b => ?_, heq⟩
            by_cases hjk : j = k
            · subst hjk
              exact ⟨h1, fun hh => hc hh.1, hj⟩
            · exact hp j a (by omega)

theorem pseudo_step_mtc1 (env : Env) (st : disasm_state) (i : Nat)
    (h : (insn_at st i).id = .MTC1) :
    pseudo_step env st i = mtc1_scan env st i (operand (insn_at st i) 0).reg i := by
  unfold pseudo_step
  simp only [h]

theorem pseudo_step_float (env : Env) (st : disasm_state) (i s : Nat)
    (hid : (insn_at st i).id = .MTC1) (hm : float_lui env st i s) :
    pseudo_step env st i = mtc1_link st i s := by
  rw [pseudo_step_mtc1 env st i hid]
  exact mtc1_scan_hit env st i _ s hm.2.1 hm.2.2.1 i hm.1 hm.2.2.2

theorem pseudo_step_float_cases (env : Env) (st : disasm_state) (i : Nat)
    (hid : (insn_at st i).id = .MTC1) :
    pseudo_step env st i = st ∨
      ∃ s, float_lui env st i s ∧ pseudo_step env st i = mtc1_link st i s := by
  rw [pseudo_step_mtc1 env st i hid]
  rcases mtc1_scan_nearest_cases env st i (operand (insn_at st i) 0).reg i with
    h | ⟨s, hs, hl, hr, hp, heq⟩
  · left; exact h
  · right
    exact ⟨s, ⟨hs, hl, hr, hp⟩, heq⟩

theorem float_lui_congr (env : Env) (a b : disasm_state) (i s : Nat)
    (h : ∀ k, insn_at a k = insn_at b k) : float_lui env a i s ↔ float_lui env b i s := by
  unfold float_lui mtc1_passes
  simp only [h]

theorem insn_at_reset_label_step (env : Env) (st : disasm_state) (i k : Nat) :
    insn_at (label_step env (upd_extra st i (fun e => { e with linked_insn := -1 })) i) k =
      insn_at st k := by
  rw [insn_at_label_step]
  rfl

theorem extra_at_reset_label_step_lt (env : Env) (st : disasm_state) (i k : Nat) (hk : k < i) :
    extra_at (label_step env (upd_extra st i (fun e => { e with linked_insn := -1 })) i) k =
      extra_at st k := by
  rw [(extra_at_label_step env _ i k).2.2 (by omega), extra_at_upd_extra,
    if_neg (fun hh => by omega)]

/-- The iteration of a `mtc1` whose scan reaches a `lui` at `s`. -/
theorem insn_step_float (env : Env) (st : disasm_state) (i s : Nat)
    (hid : (insn_at st i).id = .MTC1) (hs : s < st.insn_extra.length)
    (hm : float_lui env st i s) :
    (extra_at (insn_step env true st i) s).linked_insn = (i : Int) ∧
    (extra_at (insn_step env true st i) s).linked_value =
      (to_u32 (operand (insn_at st s) 1).imm * 65536) % 4294967296 ∧
    insn_at (insn_step env true st i) s = { insn_at st s with id := .LI, mnemonic := "li" } ∧
    (∀ k, k ≠ s → insn_at (insn_step env true st i) k = insn_at st k) ∧
    (∀ k, k < i → k ≠ s → extra_at (insn_step env true st i) k = extra_at st k) := by
  have hbase := insn_at_reset_label_step env st i
  have hm2 : float_lui env
      (label_step env (upd_extra st i (fun e => { e with linked_insn := -1 })) i) i s :=
    (float_lui_congr env _ st i s hbase).mpr hm
  have hid2 : (insn_at
      (label_step env (upd_extra st i (fun e => { e with linked_insn := -1 })) i) i).id = .MTC1 := by
    rw [hbase]; exact hid
  have hlen : s < (label_step env
      (upd_extra st i (fun e => { e with linked_insn := -1 })) i).insn_extra.length := by
    rw [label_step_extra_length, upd_extra_length]; exact hs
  have hlen2 : s < (label_step env
      (upd_extra st i (fun e => { e with linked_insn := -1 })) i).instructions.length :=
    insn_at_lt_of_lui _ s hm2.2.1
  rw [insn_step_eq, if_pos rfl, pseudo_step_float env _ i s hid2 hm2]
  refine ⟨?_, ?_, ?_, ?_, ?_⟩
  · rw [extra_at_mtc1_link, if_pos ⟨rfl, hlen⟩]
  · rw [extra_at_mtc1_link, if_pos ⟨rfl, hlen⟩, hbase]
  · rw [insn_at_mtc1_link, if_pos ⟨rfl, hlen2⟩, hbase]
  · intro k hk
    rw [insn_at_mtc1_link, if_neg (fun hh => hk hh.1.symm), hbase]
  · intro k hk hks
    rw [extra_at_mtc1_link, if_neg (fun hh => hks hh.1.symm),
      extra_at_reset_label_step_lt env st i k hk]

/-- C14: with `merge_pseudo`, in the iteration of a `mtc1` at index `i` whose backward
scan reaches a `lui` of its register at index `s` before a stop condition:
`extras[s].linked_insn = i`, the 32 payload bits of `extras[s]` are
`(lui_imm << 16) mod 2^32`, the record at `s` becomes `li` (id and mnemonic, nothing
else), and no other record and no extras entry of another earlier index changes. -/
theorem mtc1_links_lui (env : Env) (st : disasm_state) (i s : Nat)
    (hid : (insn_at st i).id = .MTC1) (hs : s < st.insn_extra.length)
    (hm : float_lui env st i s) :
    (extra_at (insn_step env true st i) s).linked_insn = (i : Int) ∧
    (extra_at (insn_step env true st i) s).linked_value =
      (to_u32 (operand (insn_at st s) 1).imm * 65536) % 4294967296 ∧
    (insn_at (insn_step env true st i) s).id = .LI ∧
    (insn_at (insn_step env true st i) s).mnemonic = "li" ∧
    insn_at (insn_step env true st i) s = { insn_at st s with id := .LI, mnemonic := "li" } ∧
    (∀ k, k ≠ s → insn_at (insn_step env true st i) k = insn_at st k) ∧
    (∀ k, k < i → k ≠ s → extra_at (insn_step env true st i) k = extra_at st k) := by
  obtain ⟨h1, h2, h3, h4, h5⟩ := insn_step_float env st i s hid hs hm
  refine ⟨h1, h2, ?_, ?_, h3, h4, h5⟩
  · rw [h3]
  · rw [h3]

/-- The stream `lui $at, 0x3F80; mtc1 $at, $f0`: the iteration of the `mtc1` links the
`lui` with the bits `0x3F800000` and rewrites it to `li`. -/
theorem mtc1_links_lui_witness :
    (extra_at (mipsdisasm_pass1 (sample_env sample_float) (stream_bytes sample_float)
      2147483648 .ASM_GAS true none) 0).linked_insn = 1 ∧
    (extra_at (mipsdisasm_pass1 (sample_env sample_float) (stream_bytes sample_float)
      2147483648 .ASM_GAS true none) 0).linked_value = 1065353216 ∧
    (insn_at (mipsdisasm_pass1 (sample_env sample_float) (stream_bytes sample_float)
      2147483648 .ASM_GAS true none) 0).mnemonic = "li" :=
  have hst : mipsdisasm_pass1 (sample_env sample_float) (stream_bytes sample_float)
      2147483648 .ASM_GAS true none =
      insn_step (sample_env sample_float) true
        (block_upto (sample_env sample_float) true sample_float 2147483648
          (pass1_entry .ASM_GAS none) 1) 1 := by decide
  have h := mtc1_links_lui (sample_env sample_float)
    (block_upto (sample_env sample_float) true sample_float 2147483648
      (pass1_entry .ASM_GAS none) 1) 1 0 (by decide) (by decide)
    ⟨by decide, by decide, by decide, fun j h1 h2 => by omega⟩
  ⟨by rw [hst]; exact h.1, by rw [hst]; exact h.2.1.trans (by decide),
    by rw [hst]; exact h.2.2.2.1⟩

/-! ## The `mtc1` scan has no window -/

theorem insn_step_insn_plain (env : Env) (mp : Bool) (st : disasm_state) (i : Nat)
    (h : (insn_at st i).id ≠ .MTC1 ∧ (insn_at st i).id ≠ .ADDIU ∧ (insn_at st i).id ≠ .ORI)
    (j : Nat) : insn_at (insn_step env mp st i) j = insn_at st j := by
  have hbase := insn_at_reset_label_step env st i
  rw [insn_step_eq]
  split_ifs
  · rcases pseudo_step_cases env
      (label_step env (upd_extra st i (fun e => { e with linked_insn := -1 })) i) i with
      e | ⟨s, _, _, hid, _⟩ | ⟨hid, _⟩ | ⟨_, e⟩
    · rw [e, hbase]
    · rw [hbase] at hid
      exact absurd hid h.1
    · rw [hbase] at hid
      rcases hid with c | c
      · exact absurd c h.2.1
      · exact absurd c h.2.2
    · unfold insn_at
      rw [e, link_with_lui_instructions]
      exact hbase j
  · exact hbase j

theorem block_upto_plain (env : Env) (mp : Bool) (insn : List cs_insn) (vaddr : Nat)
    (st : disasm_state) (n : Nat)
    (h : ∀ k, k < n → (insn.getD k zero_insn).id ≠ .MTC1 ∧
      (insn.getD k zero_insn).id ≠ .ADDIU ∧ (insn.getD k zero_insn).id ≠ .ORI) (j : Nat) :
    insn_at (block_upto env mp insn vaddr st n) j = insn.getD j zero_insn := by
  induction n with
  | zero => rfl
  | succ n ih =>
    have ih2 := ih (fun k hk => h k (by omega))
    rw [block_upto_succ, insn_step_insn_plain env mp _ n
      (by rw [block_upto_insn_ge env mp insn vaddr st n n (le_refl n)]; exact h n (by omega))]
    exact ih2

set_option maxRecDepth 100000 in
theorem sample_far_float_plain : ∀ k, k < 130 →
    (sample_far_float.getD k zero_insn).id ≠ .MTC1 ∧
    (sample_far_float.getD k zero_insn).id ≠ .ADDIU ∧
    (sample_far_float.getD k zero_insn).id ≠ .ORI := by
  decide

set_option maxRecDepth 100000 in
theorem sample_far_float_passes : ∀ j, j < 130 → 0 < j →
    mtc1_passes (sample_env sample_far_float)
      (block_init sample_far_float 2147483648 (pass1_entry .ASM_GAS none)) 2 j := by
  decide

theorem mtc1_passes_congr (env : Env) (a b : disasm_state) (rt j : Nat)
    (h : insn_at a j = insn_at b j) : mtc1_passes env a rt j ↔ mtc1_passes env b rt j := by
  unfold mtc1_passes
  rw [h]

set_option maxRecDepth 100000 in
/-- C18 as stated fails: in the stream `lui $at, 0x3F80`, 129 `nop`s, `mtc1 $at, $f0`
the `mtc1` is at index 130 and the `lui` at index 0, 130 instructions before it,
outside `[130 - 128, 130)`; pass one still links the `lui` with the `mtc1` and
rewrites it to `li`. -/
theorem mtc1_window_counterexample :
    (sample_far_float.getD 130 zero_insn).id = .MTC1 ∧
    (sample_far_float.getD 0 zero_insn).id = .LUI ∧
    ¬ ((130 : Int) - 128 ≤ 0) ∧
    (extra_at (mipsdisasm_pass1 (sample_env sample_far_float) (stream_bytes sample_far_float)
      2147483648 .ASM_GAS true none) 0).linked_insn = 130 ∧
    (insn_at (mipsdisasm_pass1 (sample_env sample_far_float) (stream_bytes sample_far_float)
      2147483648 .ASM_GAS true none) 0).id = .LI := by
  have hlen : (sample_far_float).length = 131 := by decide
  have hpos : 0 < ((sample_env sample_far_float).cs_disasm (stream_bytes sample_far_float)
      2147483648).length := by
    show 0 < sample_far_float.length
    omega
  have hplain := block_upto_plain (sample_env sample_far_float) true sample_far_float
    2147483648 (pass1_entry .ASM_GAS none) 130 sample_far_float_plain
  have hid : (insn_at (block_upto (sample_env sample_far_float) true sample_far_float
      2147483648 (pass1_entry .ASM_GAS none) 130) 130).id = .MTC1 := by
    rw [hplain]; decide
  have hm : float_lui (sample_env sample_far_float)
      (block_upto (sample_env sample_far_float) true sample_far_float
        2147483648 (pass1_entry .ASM_GAS none) 130) 130 0 := by
    refine ⟨by omega, ?_, ?_, ?_⟩
    · rw [hplain]; decide
    · rw [hplain, hplain]; decide
    · intro j h1 h2
      rw [hplain 130]
      exact (mtc1_passes_congr _ _
        (block_init sample_far_float 2147483648 (pass1_entry .ASM_GAS none)) _ j
        (hplain j)).mpr (sample_far_float_passes j h2 h1)
  have hstep := insn_step_float (sample_env sample_far_float)
    (block_upto (sample_env sample_far_float) true sample_far_float
      2147483648 (pass1_entry .ASM_GAS none) 130) 130 0 hid
    (by rw [block_upto_extra_length]; omega) hm
  rw [← block_upto_succ] at hstep
  refine ⟨by decide, by decide, by decide, ?_, ?_⟩
  · rw [extra_at_pass1 _ _ _ _ _ _ _ hpos]
    exact hstep.1
  · rw [insn_at_pass1 _ _ _ _ _ _ _ hpos]
    show (insn_at (block_upto (sample_env sample_far_float) true sample_far_float
      2147483648 (pass1_entry .ASM_GAS none) 131) 0).id = .LI
    rw [hstep.2.2.1]

/-- C18 (as amended): with `merge_pseudo`, in the iteration of a `mtc1` at index `i`
the float-literal pairing links and rewrites exactly the `lui` of its register that
the backward scan from `i - 1` down to 0 reaches before a stop condition, at whatever
distance below `i` (the scan has no 128-instruction limit): such a `lui` at `s < i` is
linked with `i` and rewritten to `li`, and a record that changes, or an extras entry
of another index whose link changes, is that `lui`. -/
theorem mtc1_pairing_reach (env : Env) (st : disasm_state) (i : Nat)
    (hid : (insn_at st i).id = .MTC1) :
    (∀ s, float_lui env st i s → s < st.insn_extra.length →
      (extra_at (insn_step env true st i) s).linked_insn = (i : Int) ∧
      (insn_at (insn_step env true st i) s).id = .LI) ∧
    (∀ k, insn_at (insn_step env true st i) k ≠ insn_at st k → float_lui env st i k) ∧
    (∀ k, k ≠ i →
      (extra_at (insn_step env true st i) k).linked_insn ≠ (extra_at st k).linked_insn →
      float_lui env st i k) ∧
    (∀ s, float_lui env st i s → s < i) := by
  have hbase := insn_at_reset_label_step env st i
  have hid2 : (insn_at
      (label_step env (upd_extra st i (fun e => { e with linked_insn := -1 })) i) i).id = .MTC1 := by
    rw [hbase]; exact hid
  have hex : ∀ k, k ≠ i → (extra_at
      (label_step env (upd_extra st i (fun e => { e with linked_insn := -1 })) i) k).linked_insn =
      (extra_at st k).linked_insn := by
    intro k hk
    rw [(extra_at_reset_label_step env st i k).1, if_neg (fun hh => hk hh.1.symm)]
  refine ⟨?_, ?_, ?_, fun s hs => hs.1⟩
  · intro s hm hs
    obtain ⟨h1, _, h3, _, _⟩ := insn_step_float env st i s hid hs hm
    exact ⟨h1, by rw [h3]⟩
  · intro k hk
    rw [insn_step_eq, if_pos rfl] at hk
    rcases pseudo_step_float_cases env _ i hid2 with e | ⟨s, hm, e⟩
    · rw [e, hbase] at hk
      exact absurd rfl hk
    · rw [e, insn_at_mtc1_link] at hk
      by_cases hc : s = k ∧ s < (label_step env
          (upd_extra st i (fun e => { e with linked_insn := -1 })) i).instructions.length
      · rw [← hc.1]
        exact (float_lui_congr env _ st i s hbase).mp hm
      · rw [if_neg hc, hbase] at hk
        exact absurd rfl hk
  · intro k hki hk
    rw [insn_step_eq, if_pos rfl] at hk
    rcases pseudo_step_float_cases env _ i hid2 with e | ⟨s, hm, e⟩
    · rw [e, hex k hki] at hk
      exact absurd rfl hk
    · rw [e, extra_at_mtc1_link] at hk
      by_cases hc : s = k ∧ s < (label_step env
          (upd_extra st i (fun e => { e with linked_insn := -1 })) i).insn_extra.length
      · rw [← hc.1]
        exact (float_lui_congr env _ st i s hbase).mp hm
      · rw [if_neg hc, hex k hki] at hk
        exact absurd rfl hk

/-- In `lui $at, 0x3F80; mtc1 $at, $f0` the iteration of the `mtc1` links the `lui`
at index 0. -/
theorem mtc1_pairing_reach_witness :
    (extra_at (insn_step (sample_env sample_float) true
      (block_upto (sample_env sample_float) true sample_float 2147483648
        (pass1_entry .ASM_GAS none) 1) 1) 0).linked_insn = ((1 : Nat) : Int) ∧
    (insn_at (insn_step (sample_env sample_float) true
      (block_upto (sample_env sample_float) true sample_float 2147483648
        (pass1_entry .ASM_GAS none) 1) 1) 0).id = .LI :=
  (mtc1_pairing_reach (sample_env sample_float)
    (block_upto (sample_env sample_float) true sample_float 2147483648
      (pass1_entry .ASM_GAS none) 1) 1 (by decide)).1 0
    ⟨by decide, by decide, by decide, fun j h1 h2 => by omega⟩ (by decide)

/-! ## `addiu` and `ori`: `li`, pairing, or nothing -/

theorem pseudo_step_addiu (env : Env) (st : disasm_state) (i : Nat)
    (hid : (insn_at st i).id = .ADDIU ∨ (insn_at st i).id = .ORI) :
    pseudo_step env st i =
      if (operand (insn_at st i) 1).reg = env.MIPS_REG_ZERO then li_rewrite env st i
      else if (operand (insn_at st i) 0).reg = (operand (insn_at st i) 1).reg then
        link_with_lui env st i (operand (insn_at st i) 1).reg
          (to_u32 (operand (insn_at st i) 2).imm)
      else st := by
  rcases hid with h | h <;>
    (unfold pseudo_step li_rewrite; simp only [h])

theorem block_upto_insn_frozen (env : Env) (mp : Bool) (insn : List cs_insn) (vaddr : Nat)
    (st : disasm_state) (j m : Nat) (hj : j < m)
    (hl : (insn_at (block_upto env mp insn vaddr st m) j).id ≠ .LUI) (n : Nat) (hn : m ≤ n) :
    insn_at (block_upto env mp insn vaddr st n) j =
      insn_at (block_upto env mp insn vaddr st m) j := by
  induction n with
  | zero =>
    have : m = 0 := by omega
    subst this
    rfl
  | succ n ih =>
    by_cases hmn : m = n + 1
    · subst hmn
      rfl
    · have ih2 := ih (by omega)
      rw [block_upto_succ]
      rcases insn_step_insn env mp (block_upto env mp insn vaddr st n) n j with e | ⟨_, h2, _⟩
      · rw [e, ih2]
      · rcases h2 with ⟨_, h3⟩ | ⟨h3, _⟩
        · rw [ih2] at h3
          exact absurd h3 hl
        · omega

theorem block_upto_extra_ahead (env : Env) (mp : Bool) (insn : List cs_insn) (vaddr : Nat)
    (st : disasm_state) (n j : Nat) (h : n ≤ j) :
    (extra_at (block_upto env mp insn vaddr st n) j).linked_insn = 0 ∧
    (extra_at (block_upto env mp insn vaddr st n) j).linked_value = 0 := by
  induction n with
  | zero =>
    have : extra_at (block_upto env mp insn vaddr st 0) j = zero_extra := by
      rw [block_upto_zero]
      unfold extra_at block_init
      simp only []
      by_cases hj : j < insn.length
      · rw [List.getD_eq_getElem _ _ (by simpa using hj)]
        simp
      · rw [List.getD_eq_default _ _ (by simpa using hj)]
    rw [this]
    exact ⟨rfl, rfl⟩
  | succ n ih =>
    obtain ⟨i1, i2⟩ := ih (by omega)
    rw [block_upto_succ]
    rcases insn_step_extra_other env mp (block_upto env mp insn vaddr st n) n j (by omega) with
      ⟨e1, e2⟩ | ⟨hlt, _, _⟩
    · rw [e1, e2]
      exact ⟨i1, i2⟩
    · omega

/-- The iteration of an `addiu`/`ori` at index `i` of the decoded stream, at pass
level: the record and the link fields of `extras[i]` after the whole pass are those
right after iteration `i`. -/
theorem pass1_addiu_final (env : Env) (data : List Nat) (vaddr : Nat) (syn : asm_syntax)
    (st : Option disasm_state) (i : Nat) (hi : i < (env.cs_disasm data vaddr).length)
    (hid : ((env.cs_disasm data vaddr).getD i zero_insn).id = .ADDIU ∨
      ((env.cs_disasm data vaddr).getD i zero_insn).id = .ORI)
    (hli : (insn_at (block_upto env true (env.cs_disasm data vaddr) vaddr
      (pass1_entry syn st) (i + 1)) i).id ≠ .LUI) :
    insn_at (mipsdisasm_pass1 env data vaddr syn true st) i =
      insn_at (block_upto env true (env.cs_disasm data vaddr) vaddr
        (pass1_entry syn st) (i + 1)) i ∧
    (extra_at (mipsdisasm_pass1 env data vaddr syn true st) i).linked_insn =
      (extra_at (block_upto env true (env.cs_disasm data vaddr) vaddr
        (pass1_entry syn st) (i + 1)) i).linked_insn ∧
    (extra_at (mipsdisasm_pass1 env data vaddr syn true st) i).linked_value =
      (extra_at (block_upto env true (env.cs_disasm data vaddr) vaddr
        (pass1_entry syn st) (i + 1)) i).linked_value := by
  have hpos : 0 < (env.cs_disasm data vaddr).length := by omega
  have hnl : ((env.cs_disasm data vaddr).getD i zero_insn).id ≠ .LUI := by
    rcases hid with h | h <;> (rw [h]; decide)
  rw [insn_at_pass1 env data vaddr syn true st i hpos,
    extra_at_pass1 env data vaddr syn true st i hpos]
  obtain ⟨f1, f2⟩ := block_upto_extra_frozen env true (env.cs_disasm data vaddr) vaddr
    (pass1_entry syn st) i hnl (env.cs_disasm data vaddr).length hi
  exact ⟨block_upto_insn_frozen env true _ vaddr _ i (i + 1) (by omega) hli _ (by omega),
    f1, f2⟩

/-- C15: with `merge_pseudo`, for an `addiu` or `ori` at index `i` of the decoded
stream with operands `(rd, rs, imm)`: if `rs` is `zero`, after pass one the record
has id `LI`, mnemonic `"li"` and `op_str` `"$<regname(rd)>, <imm in decimal>"` (the
rest as decoded) and `extras[i].linked_insn` is -1; if `rs` is not `zero` and
`rd != rs`, the record is as decoded and `extras[i]` is unlinked with value 0; and the
pairing switch calls `link_with_lui` exactly when `rs` is not `zero` and `rd == rs`. -/
theorem pass1_addiu_ori (env : Env) (data : List Nat) (vaddr : Nat) (syn : asm_syntax)
    (st : Option disasm_state) (i : Nat) (hi : i < (env.cs_disasm data vaddr).length)
    (hid : ((env.cs_disasm data vaddr).getD i zero_insn).id = .ADDIU ∨
      ((env.cs_disasm data vaddr).getD i zero_insn).id = .ORI) :
    ((operand ((env.cs_disasm data vaddr).getD i zero_insn) 1).reg = env.MIPS_REG_ZERO →
      insn_at (mipsdisasm_pass1 env data vaddr syn true st) i =
        { (env.cs_disasm data vaddr).getD i zero_insn with
          id := .LI, mnemonic := "li",
          op_str := "$" ++
            env.cs_reg_name (operand ((env.cs_disasm data vaddr).getD i zero_insn) 0).reg ++
            ", " ++ fmt_d (operand ((env.cs_disasm data vaddr).getD i zero_insn) 2).imm } ∧
      (extra_at (mipsdisasm_pass1 env data vaddr syn true st) i).linked_insn = -1) ∧
    ((operand ((env.cs_disasm data vaddr).getD i zero_insn) 1).reg ≠ env.MIPS_REG_ZERO →
      (operand ((env.cs_disasm data vaddr).getD i zero_insn) 0).reg ≠
        (operand ((env.cs_disasm data vaddr).getD i zero_insn) 1).reg →
      insn_at (mipsdisasm_pass1 env data vaddr syn true st) i =
        (env.cs_disasm data vaddr).getD i zero_insn ∧
      (extra_at (mipsdisasm_pass1 env data vaddr syn true st) i).linked_insn = -1 ∧
      (extra_at (mipsdisasm_pass1 env data vaddr syn true st) i).linked_value = 0) ∧
    (∀ s : disasm_state, insn_at s i = (env.cs_disasm data vaddr).getD i zero_insn →
      pseudo_step env s i =
        if (operand ((env.cs_disasm data vaddr).getD i zero_insn) 1).reg = env.MIPS_REG_ZERO then
          li_rewrite env s i
        else if (operand ((env.cs_disasm data vaddr).getD i zero_insn) 0).reg =
            (operand ((env.cs_disasm data vaddr).getD i zero_insn) 1).reg then
          link_with_lui env s i (operand ((env.cs_disasm data vaddr).getD i zero_insn) 1).reg
            (to_u32 (operand ((env.cs_disasm data vaddr).getD i zero_insn) 2).imm)
        else s) := by
  have hA := block_upto_insn_ge env true (env.cs_disasm data vaddr) vaddr (pass1_entry syn st)
    i i (le_refl i)
  have hbase := insn_at_reset_label_step env
    (block_upto env true (env.cs_disasm data vaddr) vaddr (pass1_entry syn st) i) i
  have h2 : insn_at (label_step env (upd_extra
      (block_upto env true (env.cs_disasm data vaddr) vaddr (pass1_entry syn st) i) i
      (fun e => { e with linked_insn := -1 })) i) i =
      (env.cs_disasm data vaddr).getD i zero_insn := by rw [hbase, hA]
  have hps := pseudo_step_addiu env (label_step env (upd_extra
      (block_upto env true (env.cs_disasm data vaddr) vaddr (pass1_entry syn st) i) i
      (fun e => { e with linked_insn := -1 })) i) i (by rw [h2]; exact hid)
  rw [h2] at hps
  have hB : block_upto env true (env.cs_disasm data vaddr) vaddr (pass1_entry syn st) (i + 1) =
      pseudo_step env (label_step env (upd_extra
        (block_upto env true (env.cs_disasm data vaddr) vaddr (pass1_entry syn st) i) i
        (fun e => { e with linked_insn := -1 })) i) i := by
    rw [block_upto_succ, insn_step_eq, if_pos rfl]
  have hlenE : i < (block_upto env true (env.cs_disasm data vaddr) vaddr
      (pass1_entry syn st) i).insn_extra.length := by
    rw [block_upto_extra_length]; exact hi
  have hlenI : i < (label_step env (upd_extra
      (block_upto env true (env.cs_disasm data vaddr) vaddr (pass1_entry syn st) i) i
      (fun e => { e with linked_insn := -1 })) i).instructions.length := by
    rw [label_step_instructions, upd_extra_instructions, block_upto_insn_length]; exact hi
  obtain ⟨hr1, hr2⟩ := extra_at_reset_label_step env
    (block_upto env true (env.cs_disasm data vaddr) vaddr (pass1_entry syn st) i) i i
  rw [if_pos ⟨rfl, hlenE⟩] at hr1
  refine ⟨?_, ?_, ?_⟩
  · intro hz
    rw [if_pos hz] at hps
    have hrec : insn_at (block_upto env true (env.cs_disasm data vaddr) vaddr
        (pass1_entry syn st) (i + 1)) i =
        { (env.cs_disasm data vaddr).getD i zero_insn with
          id := .LI, mnemonic := "li",
          op_str := "$" ++
            env.cs_reg_name (operand ((env.cs_disasm data vaddr).getD i zero_insn) 0).reg ++
            ", " ++ fmt_d (operand ((env.cs_disasm data vaddr).getD i zero_insn) 2).imm } := by
      rw [hB, hps, insn_at_li_rewrite, if_pos ⟨rfl, hlenI⟩, h2]
    obtain ⟨g1, g2, _⟩ := pass1_addiu_final env data vaddr syn st i hi hid
      (by rw [hrec]; show mips_insn.LI ≠ mips_insn.LUI; decide)
    refine ⟨g1.trans hrec, ?_⟩
    rw [g2, hB, hps, extra_at_li_rewrite]
    exact hr1
  · intro hz hne
    rw [if_neg hz, if_neg hne] at hps
    have hrec : insn_at (block_upto env true (env.cs_disasm data vaddr) vaddr
        (pass1_entry syn st) (i + 1)) i = (env.cs_disasm data vaddr).getD i zero_insn := by
      rw [hB, hps, h2]
    obtain ⟨g1, g2, g3⟩ := pass1_addiu_final env data vaddr syn st i hi hid
      (by rw [hrec]; rcases hid with h | h <;> (rw [h]; decide))
    refine ⟨g1.trans hrec, ?_, ?_⟩
    · rw [g2, hB, hps]
      exact hr1
    · rw [g3, hB, hps, hr2]
      exact (block_upto_extra_ahead env true _ vaddr _ i i (le_refl i)).2
  · intro s hs
    have := pseudo_step_addiu env s i (by rw [hs]; exact hid)
    rw [hs] at this
    exact this

/-- In `jr $ra; nop; addiu $v0, $zero, 1` the `addiu` becomes `li $v0, 1`. -/
theorem pass1_addiu_ori_witness :
    (insn_at (mipsdisasm_pass1 (sample_env sample_return) (stream_bytes sample_return)
      2147483648 .ASM_GAS true none) 2).mnemonic = "li" ∧
    (insn_at (mipsdisasm_pass1 (sample_env sample_return) (stream_bytes sample_return)
      2147483648 .ASM_GAS true none) 2).op_str = "$v0, 1" ∧
    (extra_at (mipsdisasm_pass1 (sample_env sample_return) (stream_bytes sample_return)
      2147483648 .ASM_GAS true none) 2).linked_insn = -1 :=
  have h := (pass1_addiu_ori (sample_env sample_return) (stream_bytes sample_return)
    2147483648 .ASM_GAS none 2 (by decide) (by decide)).1 (by decide)
  ⟨by rw [h.1], by rw [h.1]; decide, h.2⟩

/-! ## The blank line after a return -/

theorem label_step_newline (env : Env) (st : disasm_state) (i j : Nat) :
    (extra_at (label_step env st i) j).newline =
      if is_return env (insn_at st i) ∧ i + 2 < instruction_count st ∧
          i + 2 = j ∧ i + 2 < st.insn_extra.length then 1
      else (extra_at st j).newline := by
  have hret : is_return env (insn_at st i) ↔ ((insn_at st i).grp_jump = true ∧
      ((insn_at st i).id = .JR ∨ (insn_at st i).id = .JALR) ∧
      (operand (insn_at st i) 0).reg = env.MIPS_REG_RA) := Iff.rfl
  unfold label_step
  simp only []
  by_cases hj : (insn_at st i).grp_jump = true
  · rw [if_pos hj]
    by_cases hid : (insn_at st i).id = .JR ∨ (insn_at st i).id = .JALR
    · rw [if_pos hid]
      by_cases hr : (operand (insn_at st i) 0).reg = env.MIPS_REG_RA ∧
          i + 2 < instruction_count st
      · rw [if_pos hr, extra_at_upd_extra]
        by_cases hc : i + 2 = j ∧ i + 2 < st.insn_extra.length
        · have hp : is_return env (insn_at st i) ∧ i + 2 < instruction_count st ∧
              i + 2 = j ∧ i + 2 < st.insn_extra.length :=
            ⟨hret.mpr ⟨hj, hid, hr.1⟩, hr.2, hc.1, hc.2⟩
          rw [if_pos hc, if_pos hp]
        · have hn : ¬ (is_return env (insn_at st i) ∧ i + 2 < instruction_count st ∧
              i + 2 = j ∧ i + 2 < st.insn_extra.length) :=
            fun hh => hc ⟨hh.2.2.1, hh.2.2.2⟩
          rw [if_neg hc, if_neg hn]
      · have hn : ¬ (is_return env (insn_at st i) ∧ i + 2 < instruction_count st ∧
            i + 2 = j ∧ i + 2 < st.insn_extra.length) :=
          fun hh => hr ⟨(hret.mp hh.1).2.2, hh.2.1⟩
        rw [if_neg hr, if_neg hn]
    · have hn : ¬ (is_return env (insn_at st i) ∧ i + 2 < instruction_count st ∧
          i + 2 = j ∧ i + 2 < st.insn_extra.length) :=
        fun hh => hid (hret.mp hh.1).2.1
      rw [if_neg hid, if_neg hn]
      unfold extra_at
      rw [foldl_branch_label_extra]
  · have hn : ¬ (is_return env (insn_at st i) ∧ i + 2 < instruction_count st ∧
        i + 2 = j ∧ i + 2 < st.insn_extra.length) :=
      fun hh => hj (hret.mp hh.1).1
    rw [if_neg hj, if_neg hn]
    split_ifs <;> rfl

theorem pseudo_step_newline (env : Env) (st : disasm_state) (i j : Nat) :
    (extra_at (pseudo_step env st i) j).newline = (extra_at st j).newline := by
  rcases pseudo_step_cases env st i with h | ⟨s, _, _, _, h⟩ | ⟨_, h⟩ | ⟨_, h⟩
  · rw [h]
  · rw [h, extra_at_mtc1_link]
    split_ifs with hc
    · rw [← hc.1]
    · rfl
  · rw [h]
    rfl
  · rcases link_with_lui_cases env st i (user_reg (insn_at st i)) (user_imm (insn_at st i)) with
      h2 | ⟨s, _, _, _, _, _, _, h2⟩
    · rw [h, h2]
    · rw [h, h2, extra_at_link_pair]
      split_ifs with c1 c2
      · rw [extra_at_upd_extra]
        split_ifs with c3
        · rw [← c1.1, ← c3.1]
        · rw [← c1.1]
      · rw [← c2.1]
      · rfl

theorem insn_step_newline (env : Env) (mp : Bool) (st : disasm_state) (i j : Nat) :
    (extra_at (insn_step env mp st i) j).newline =
      if is_return env (insn_at st i) ∧ i + 2 < instruction_count st ∧
          i + 2 = j ∧ i + 2 < st.insn_extra.length then 1
      else (extra_at st j).newline := by
  have h1 := label_step_newline env (upd_extra st i (fun e => { e with linked_insn := -1 })) i j
  have h2 : (extra_at (upd_extra st i (fun e => { e with linked_insn := -1 })) j).newline =
      (extra_at st j).newline := by
    rw [extra_at_upd_extra]
    split_ifs with hc
    · rw [← hc.1]
    · rfl
  rw [h2, upd_extra_length] at h1
  rw [insn_step_eq]
  cases mp
  · rw [if_neg (by decide)]
    exact h1
  · rw [if_pos rfl, pseudo_step_newline]
    exact h1

theorem block_upto_newline (env : Env) (mp : Bool) (insn : List cs_insn) (vaddr : Nat)
    (st : disasm_state) (n j : Nat) (hj : j < insn.length) :
    (extra_at (block_upto env mp insn vaddr st n) j).newline =
      if 2 ≤ j ∧ j - 2 < n ∧ is_return env (insn.getD (j - 2) zero_insn) then 1 else 0 := by
  induction n with
  | zero =>
    have : extra_at (block_upto env mp insn vaddr st 0) j = zero_extra := by
      rw [block_upto_zero]
      unfold extra_at block_init
      simp only []
      rw [List.getD_eq_getElem _ _ (by simpa using hj)]
      simp
    rw [this, if_neg (fun hh => by omega)]
    rfl
  | succ n ih =>
    rw [block_upto_succ, insn_step_newline, ih,
      block_upto_insn_ge env mp insn vaddr st n n (le_refl n), block_upto_extra_length]
    unfold instruction_count
    rw [block_upto_insn_length]
    by_cases hc : is_return env (insn.getD n zero_insn) ∧ n + 2 < insn.length ∧
        n + 2 = j ∧ n + 2 < insn.length
    · have hn : j - 2 = n := by omega
      rw [if_pos hc, if_pos ⟨by omega, by omega, by rw [hn]; exact hc.1⟩]
    · rw [if_neg hc]
      by_cases hd : 2 ≤ j ∧ j - 2 < n ∧ is_return env (insn.getD (j - 2) zero_insn)
      · rw [if_pos hd, if_pos ⟨hd.1, by omega, hd.2.2⟩]
      · rw [if_neg hd, if_neg]
        rintro ⟨a, b, c⟩
        by_cases hn : j - 2 = n
        · rw [hn] at c
          exact hc ⟨c, by omega, by omega, by omega⟩
        · exact hd ⟨a, by omega, c⟩

/-- C16: after pass one over a stream of `count` instructions, for every index
`j < count`, `extras[j].newline` is set (and then 1) if and only if `j >= 2` and the
instruction at `j - 2` is in the JUMP group, is `jr` or `jalr`, and has register `ra`
as first operand; and the iteration of pass two for index `j` writes, in this order,
a blank line exactly for those `j`, the labels at the address, the byte comment and
the text of the instruction. -/
theorem pass1_newline (env : Env) (data : List Nat) (vaddr : Nat) (syn : asm_syntax)
    (mp : Bool) (st : Option disasm_state) (j : Nat)
    (hj : j < (env.cs_disasm data vaddr).length) :
    ((extra_at (mipsdisasm_pass1 env data vaddr syn mp st) j).newline ≠ 0 ↔
      follows_return env (env.cs_disasm data vaddr) j) ∧
    ((extra_at (mipsdisasm_pass1 env data vaddr syn mp st) j).newline = 0 ∨
      (extra_at (mipsdisasm_pass1 env data vaddr syn mp st) j).newline = 1) ∧
    (∀ (n v : Nat) (rest : List asm_label) (out : String),
      pass2_loop env (mipsdisasm_pass1 env data vaddr syn mp st) (n + 1) j v rest out =
        (emit_insn env (mipsdisasm_pass1 env data vaddr syn mp st) j "").bind (fun body =>
          pass2_loop env (mipsdisasm_pass1 env data vaddr syn mp st) n (j + 1)
            ((v + 4) % 4294967296) (emit_labels v rest "").2
            (out ++ (if follows_return env (env.cs_disasm data vaddr) j then "\n" else "") ++
              (emit_labels v rest "").1 ++
              byte_comment v (insn_at (mipsdisasm_pass1 env data vaddr syn mp st) j) ++ body))) := by
  have hpos : 0 < (env.cs_disasm data vaddr).length := by omega
  have hnl : (extra_at (mipsdisasm_pass1 env data vaddr syn mp st) j).newline =
      if follows_return env (env.cs_disasm data vaddr) j then 1 else 0 := by
    rw [extra_at_pass1 env data vaddr syn mp st j hpos,
      block_upto_newline env mp _ vaddr _ _ j hj]
    unfold follows_return
    by_cases hc : 2 ≤ j ∧ is_return env ((env.cs_disasm data vaddr).getD (j - 2) zero_insn)
    · rw [if_pos hc, if_pos ⟨hc.1, by omega, hc.2⟩]
    · rw [if_neg hc, if_neg (fun hh => hc ⟨hh.1, hh.2.2⟩)]
  have hiff : (extra_at (mipsdisasm_pass1 env data vaddr syn mp st) j).newline ≠ 0 ↔
      follows_return env (env.cs_disasm data vaddr) j := by
    rw [hnl]
    by_cases hc : follows_return env (env.cs_disasm data vaddr) j
    · rw [if_pos hc]
      exact ⟨fun _ => hc, fun _ => by decide⟩
    · rw [if_neg hc]
      exact ⟨fun h => absurd rfl h, fun h => absurd h hc⟩
  refine ⟨hiff, ?_, ?_⟩
  · rw [hnl]
    split_ifs
    · right; rfl
    · left; rfl
  · intro n v rest out
    rw [pass2_loop_succ]
    by_cases hc : follows_return env (env.cs_disasm data vaddr) j
    · rw [if_pos (hiff.mpr hc), if_pos hc]
    · rw [if_neg (fun hh => hc (hiff.mp hh)), if_neg hc]

/-- In `jr $ra; nop; addiu $v0, $zero, 1` index 2 follows the return, its flag is set,
and pass two writes the blank line before its line. -/
theorem pass1_newline_witness :
    follows_return (sample_env sample_return) sample_return 2 ∧
    (extra_at (mipsdisasm_pass1 (sample_env sample_return) (stream_bytes sample_return)
      2147483648 .ASM_GAS true none) 2).newline ≠ 0 ∧
    mipsdisasm_pass2 (sample_env sample_return) ""
      (mipsdisasm_pass1 (sample_env sample_return) (stream_bytes sample_return)
        2147483648 .ASM_GAS true none) =
      some ("/* 80000000 03E00008 */  jr    $ra\n" ++
        "/* 80000004 00000000 */  nop   \n" ++
        "\n" ++
        "/* 80000008 24020001 */  li    $v0, 1\n") :=
  have h := pass1_newline (sample_env sample_return) (stream_bytes sample_return)
    2147483648 .ASM_GAS true none 2 (by decide)
  ⟨by decide, h.1.mpr (by decide), by decide⟩

/-! ## Every `label_add` of pass one is guarded -/

theorem distinct_append_one (L : List asm_label) (l : asm_label) (h : distinct_vaddr L)
    (hn : ¬ has_label L l.vaddr) : distinct_vaddr (L ++ [l]) := by
  unfold distinct_vaddr at h ⊢
  rw [List.pairwise_append]
  refine ⟨h, List.pairwise_singleton _ _, ?_⟩
  intro a ha b hb hab
  have hb2 : b = l := by simpa using hb
  subst hb2
  exact hn ⟨a, ha, hab⟩

theorem distinct_perm {L M : List asm_label} (hp : L.Perm M) (h : distinct_vaddr L) :
    distinct_vaddr M := by
  unfold distinct_vaddr at h ⊢
  exact (hp.pairwise_iff (fun {a b} (hab : a.vaddr ≠ b.vaddr) => hab.symm)).mp h

theorem branch_label_distinct (st : disasm_state) (op : cs_mips_op)
    (h : distinct_vaddr st.labels) : distinct_vaddr (branch_label st op).labels := by
  rw [branch_label_labels]
  by_cases hc : op.type = .MIPS_OP_IMM ∧ label_find st (to_u32 op.imm) < 0
  · rw [if_pos hc]
    exact distinct_append_one _ _ h ((label_find_neg st _).mp hc.2)
  · rw [if_neg hc]
    exact h

theorem foldl_branch_label_distinct (ops : List cs_mips_op) (st : disasm_state)
    (h : distinct_vaddr st.labels) : distinct_vaddr (ops.foldl branch_label st).labels := by
  induction ops generalizing st with
  | nil => exact h
  | cons a rest ih =>
    rw [List.foldl_cons]
    exact ih _ (branch_label_distinct st a h)

theorem label_step_distinct (env : Env) (st : disasm_state) (i : Nat)
    (h : distinct_vaddr st.labels) : distinct_vaddr (label_step env st i).labels := by
  unfold label_step
  simp only []
  split_ifs with h1 h2 h3 h4 h5
  · exact h
  · exact h
  · exact foldl_branch_label_distinct _ st h
  · exact distinct_append_one _ _ h ((label_find_neg st _).mp h5)
  · exact h
  · exact h

theorem link_pair_distinct (st : disasm_state) (o s m : Nat)
    (h : distinct_vaddr st.labels) : distinct_vaddr (link_pair st o s m).labels := by
  rw [link_pair_labels]
  by_cases hc : (insn_at st o).id ≠ .ORI ∧ label_find st (pair_addr st s m) < 0
  · rw [if_pos hc]
    exact distinct_append_one _ _ h ((label_find_neg st _).mp hc.2)
  · rw [if_neg hc]
    exact h

theorem link_with_lui_distinct (env : Env) (st : disasm_state) (o reg m : Nat)
    (h : distinct_vaddr st.labels) : distinct_vaddr (link_with_lui env st o reg m).labels := by
  rcases link_with_lui_cases env st o reg m with e | ⟨s, _, _, _, _, _, _, e⟩
  · rw [e]; exact h
  · rw [e]; exact link_pair_distinct st o s m h

theorem pseudo_step_distinct (env : Env) (st : disasm_state) (i : Nat)
    (h : distinct_vaddr st.labels) : distinct_vaddr (pseudo_step env st i).labels := by
  rcases pseudo_step_cases env st i with e | ⟨s, _, _, _, e⟩ | ⟨_, e⟩ | ⟨_, e⟩
  · rw [e]; exact h
  · rw [e]; exact h
  · rw [e]; exact h
  · rw [e]; exact link_with_lui_distinct env st i _ _ h

theorem insn_step_distinct (env : Env) (mp : Bool) (st : disasm_state) (i : Nat)
    (h : distinct_vaddr st.labels) : distinct_vaddr (insn_step env mp st i).labels := by
  have h1 : distinct_vaddr
      (label_step env (upd_extra st i (fun e => { e with linked_insn := -1 })) i).labels :=
    label_step_distinct env _ i h
  rw [insn_step_eq]
  split_ifs
  · exact pseudo_step_distinct env _ i h1
  · exact h1

theorem block_upto_distinct (env : Env) (mp : Bool) (insn : List cs_insn) (vaddr : Nat)
    (st : disasm_state) (n : Nat) (h : distinct_vaddr st.labels) :
    distinct_vaddr (block_upto env mp insn vaddr st n).labels := by
  induction n with
  | zero => exact h
  | succ n ih =>
    rw [block_upto_succ]
    exact insn_step_distinct env mp _ n ih

theorem disassemble_block_distinct (env : Env) (data : List Nat) (vaddr : Nat)
    (st : disasm_state) (mp : Bool) (h : distinct_vaddr st.labels) :
    distinct_vaddr (disassemble_block env data vaddr st mp).labels := by
  unfold disassemble_block
  simp only []
  split_ifs
  · exact block_upto_distinct env mp _ vaddr st _ h
  · exact h

theorem disassemble_block_grows (env : Env) (data : List Nat) (vaddr : Nat)
    (st : disasm_state) (mp : Bool) :
    st.labels <+: (disassemble_block env data vaddr st mp).labels := by
  unfold disassemble_block
  simp only []
  split_ifs
  · exact block_upto_labels_start env mp _ vaddr st _
  · exact List.prefix_refl _

/-- C25: if no two labels of the starting state (the empty table for `NULL`) share a
`vaddr`, no two labels of the table `mipsdisasm_pass1` returns share one, for every
decoder, input, dialect and `merge_pseudo`; and every label of the starting state,
with its name, `vaddr` and `global` flag, is in the returned table. -/
theorem pass1_labels_distinct (env : Env) (data : List Nat) (vaddr : Nat) (syn : asm_syntax)
    (mp : Bool) (st : Option disasm_state) :
    (distinct_vaddr (st.getD disasm_state_alloc).labels →
      distinct_vaddr (mipsdisasm_pass1 env data vaddr syn mp st).labels) ∧
    (∀ l, l ∈ (st.getD disasm_state_alloc).labels →
      l ∈ (mipsdisasm_pass1 env data vaddr syn mp st).labels) ∧
    distinct_vaddr (mipsdisasm_pass1 env data vaddr syn mp none).labels := by
  have key : ∀ s : Option disasm_state, distinct_vaddr (s.getD disasm_state_alloc).labels →
      distinct_vaddr (mipsdisasm_pass1 env data vaddr syn mp s).labels := by
    intro s h
    exact distinct_perm (pass1_labels_perm env data vaddr syn mp s)
      (disassemble_block_distinct env data vaddr (pass1_entry syn s) mp h)
  refine ⟨key st, ?_, key none List.Pairwise.nil⟩
  intro l hl
  exact (pass1_labels_perm env data vaddr syn mp st).subset
    ((disassemble_block_grows env data vaddr (pass1_entry syn st) mp).subset hl)

/-- On the table `D_80000004, .L80000010` the range
`jal 0x80000010; nop; b 0x80000010; nop` adds no label: the label at `0x80000010`
stays the only one there. -/
theorem pass1_labels_distinct_witness :
    (mipsdisasm_pass1 (sample_env sample_call_branch) (stream_bytes sample_call_branch)
      2147483648 .ASM_GAS true
      (some { sample_alias_state with labels := sample_alias_state.labels.take 2 })).labels =
      [{ name := "D_80000004", global := 1, vaddr := 2147483652 },
       { name := ".L80000010", global := 0, vaddr := 2147483664 }] ∧
    distinct_vaddr (mipsdisasm_pass1 (sample_env sample_call_branch)
      (stream_bytes sample_call_branch) 2147483648 .ASM_GAS true
      (some { sample_alias_state with labels := sample_alias_state.labels.take 2 })).labels :=
  have h := pass1_labels_distinct (sample_env sample_call_branch)
    (stream_bytes sample_call_branch) 2147483648 .ASM_GAS true
    (some { sample_alias_state with labels := sample_alias_state.labels.take 2 })
  ⟨by decide, h.1 (by
    show List.Pairwise _ [_, _]
    exact List.Pairwise.cons (fun b hb => by
      have : b = { name := ".L80000010", global := 0, vaddr := 2147483664 } := by simpa using hb
      subst this
      decide) (List.pairwise_singleton _ _))⟩

/-! ## The links stay inside the stream -/

theorem block_upto_linked_range (env : Env) (mp : Bool) (insn : List cs_insn) (vaddr : Nat)
    (st : disasm_state) (n : Nat) (hn : n ≤ insn.length) (j : Nat) (hj : j < n) :
    (extra_at (block_upto env mp insn vaddr st n) j).linked_insn = -1 ∨
    ∃ l : Nat, (extra_at (block_upto env mp insn vaddr st n) j).linked_insn = (l : Int) ∧
      l < n ∧ l ≠ j := by
  induction n with
  | zero => omega
  | succ n ih =>
    rw [block_upto_succ]
    by_cases hjn : j = n
    · subst hjn
      rcases insn_step_extra_self env mp (block_upto env mp insn vaddr st j) j
        (by rw [block_upto_extra_length]; omega) with
        h | ⟨_, _, _, s, hs, _, _, _, e1, _, _, _⟩
      · left; exact h
      · right
        exact ⟨s, e1, by omega, by omega⟩
    · rcases insn_step_extra_other env mp (block_upto env mp insn vaddr st n) n j hjn with
        ⟨e1, _⟩ | ⟨hlt, _, e⟩
      · rw [e1]
        rcases ih (by omega) (by omega) with h | ⟨l, h1, h2, h3⟩
        · left; exact h
        · right
          exact ⟨l, h1, by omega, h3⟩
      · right
        exact ⟨n, e, by omega, fun hh => hjn hh.symm⟩

theorem pass1_instruction_count (env : Env) (data : List Nat) (vaddr : Nat)
    (syn : asm_syntax) (mp : Bool) (st : Option disasm_state)
    (h : 0 < (env.cs_disasm data vaddr).length) :
    instruction_count (mipsdisasm_pass1 env data vaddr syn mp st) =
      (env.cs_disasm data vaddr).length := by
  unfold instruction_count
  rw [pass1_instructions, disassemble_block_eq env data vaddr _ mp h, block_upto_insn_length]

/-- C24: after pass one over a stream of `count` instructions (any `merge_pseudo`),
for every index `i < count`, `extras[i].linked_insn` is -1 or an index `j` with
`0 <= j < count` and `j != i`; so whenever it is not negative it is an index of the
instruction stream of the returned state. -/
theorem pass1_linked_in_range (env : Env) (data : List Nat) (vaddr : Nat) (syn : asm_syntax)
    (mp : Bool) (st : Option disasm_state) (i : Nat)
    (hi : i < (env.cs_disasm data vaddr).length) :
    ((extra_at (mipsdisasm_pass1 env data vaddr syn mp st) i).linked_insn = -1 ∨
      ∃ j : Nat, (extra_at (mipsdisasm_pass1 env data vaddr syn mp st) i).linked_insn = (j : Int) ∧
        j < (env.cs_disasm data vaddr).length ∧ j ≠ i) ∧
    (0 ≤ (extra_at (mipsdisasm_pass1 env data vaddr syn mp st) i).linked_insn →
      (extra_at (mipsdisasm_pass1 env data vaddr syn mp st) i).linked_insn.toNat <
        instruction_count (mipsdisasm_pass1 env data vaddr syn mp st)) := by
  have hpos : 0 < (env.cs_disasm data vaddr).length := by omega
  have h := block_upto_linked_range env mp (env.cs_disasm data vaddr) vaddr
    (pass1_entry syn st) (env.cs_disasm data vaddr).length (le_refl _) i hi
  rw [← extra_at_pass1 env data vaddr syn mp st i hpos] at h
  refine ⟨h, ?_⟩
  intro hnn
  rw [pass1_instruction_count env data vaddr syn mp st hpos]
  rcases h with h | ⟨j, h1, h2, _⟩
  · omega
  · omega

/-- In `lui $at, 0x8000; lw $t0, 4($at); lw $t1, 8($at)` the link of index 0 is 2. -/
theorem pass1_linked_in_range_witness :
    (extra_at (mipsdisasm_pass1 (sample_env sample_two_loads) (stream_bytes sample_two_loads)
      2147483648 .ASM_GAS true none) 0).linked_insn.toNat <
      instruction_count (mipsdisasm_pass1 (sample_env sample_two_loads)
        (stream_bytes sample_two_loads) 2147483648 .ASM_GAS true none) :=
  (pass1_linked_in_range (sample_env sample_two_loads) (stream_bytes sample_two_loads)
    2147483648 .ASM_GAS true none 0 (by decide)).2 (by decide)

/-! ## `%hi` and `%lo` of a paired address -/

theorem and_ffff (x : Nat) : x &&& 65535 = x % 65536 := by
  have h := Nat.and_pow_two_sub_one_eq_mod x 16
  norm_num at h
  exact h

theorem shr_16 (x : Nat) : x >>> 16 = x / 65536 := by
  rw [Nat.shiftRight_eq_div_pow]

theorem gas_hi_eq (addr : Nat) : gas_hi addr = (addr + 32768) / 65536 % 65536 := by
  unfold gas_hi
  rw [and_ffff, shr_16]

theorem gas_lo_eq (addr : Nat) : gas_lo addr = addr % 65536 := by
  unfold gas_lo
  rw [and_ffff]

theorem pair_addr_hi_lo (st : disasm_state) (s H : Nat) (L : Int)
    (hH : H < 65536) (hL : -32768 ≤ L ∧ L ≤ 32767)
    (himm : (operand (insn_at st s) 1).imm = (H : Int)) :
    pair_addr st s (to_u32 L) = (((H : Int) * 65536 + L) % 4294967296).toNat ∧
    gas_hi (pair_addr st s (to_u32 L)) = H ∧
    gas_lo (pair_addr st s (to_u32 L)) = gas_lo (to_u32 L) ∧
    gas_lo (pair_addr st s (to_u32 L)) = (L % 65536).toNat := by
  have hp : pair_addr st s (to_u32 L) = (((H : Int) * 65536 + L) % 4294967296).toNat := by
    unfold pair_addr
    rw [himm]
    exact pair_value H L hH
  rw [hp, gas_hi_eq, gas_lo_eq, gas_lo_eq]
  unfold to_u32
  refine ⟨rfl, ?_, ?_, ?_⟩ <;> omega

/-- C21: for a `lui` at `s` with 16-bit immediate `H` and a low half `L` in the signed
16-bit range, passed as its 32-bit two's-complement value, the address
`addr = ((H << 16) + L) mod 2^32` of the pair satisfies
`((addr + 0x8000) >> 16) & 0xFFFF = H` and `addr & 0xFFFF = L & 0xFFFF`, also for
negative `L`; and for `L != 0` this address is the value `link_with_lui` records in
both extras when it links `offset` with `s`. -/
theorem hi_lo_roundtrip (env : Env) (st : disasm_state) (offset reg s H : Nat) (L : Int)
    (hH : H < 65536) (hL : -32768 ≤ L ∧ L ≤ 32767)
    (himm : (operand (insn_at st s) 1).imm = (H : Int)) :
    pair_addr st s (to_u32 L) = (((H : Int) * 65536 + L) % 4294967296).toNat ∧
    gas_hi (pair_addr st s (to_u32 L)) = H ∧
    gas_lo (pair_addr st s (to_u32 L)) = gas_lo (to_u32 L) ∧
    gas_lo (pair_addr st s (to_u32 L)) = (L % 65536).toNat ∧
    (L ≠ 0 → offset < st.insn_extra.length → nearest_lui env st offset reg s →
      (extra_at (link_with_lui env st offset reg (to_u32 L)) offset).linked_value =
        pair_addr st s (to_u32 L) ∧
      (extra_at (link_with_lui env st offset reg (to_u32 L)) s).linked_value =
        pair_addr st s (to_u32 L) ∧
      gas_hi (extra_at (link_with_lui env st offset reg (to_u32 L)) offset).linked_value = H ∧
      gas_lo (extra_at (link_with_lui env st offset reg (to_u32 L)) offset).linked_value =
        (L % 65536).toNat) := by
  obtain ⟨h1, h2, h3, h4⟩ := pair_addr_hi_lo st s H L hH hL himm
  refine ⟨h1, h2, h3, h4, ?_⟩
  intro h0 hoff hn
  have hm := to_u32_ne_zero L h0 hL.1 hL.2
  rw [link_with_lui_nearest_eq env st offset reg (to_u32 L) s hm hn,
    (extra_at_link_pair_user st offset s (to_u32 L) hoff).2,
    (extra_at_link_pair_lui st offset s (to_u32 L) hn.2.1 hoff).2]
  exact ⟨rfl, rfl, h2, h4⟩

/-- For `lui $at, 0x8025; lw $t0, -4096($at)` the recorded address is `0x8024F000`;
its `%hi` is `0x8025` and its `%lo` is `0xF000`. -/
theorem hi_lo_roundtrip_witness :
    gas_hi (extra_at (link_with_lui (sample_env []) sample_neg_state 1 2
      (to_u32 (-4096))) 1).linked_value = 32805 ∧
    gas_lo (extra_at (link_with_lui (sample_env []) sample_neg_state 1 2
      (to_u32 (-4096))) 1).linked_value = 61440 ∧
    (extra_at (link_with_lui (sample_env []) sample_neg_state 1 2
      (to_u32 (-4096))) 1).linked_value = 2149904384 :=
  have h := hi_lo_roundtrip (sample_env []) sample_neg_state 1 2 0 32805 (-4096)
    (by decide) (by decide) (by decide)
  have h5 := h.2.2.2.2 (by decide) (by decide)
    ⟨by decide, by decide, by decide, by decide, fun j h1 h2 => by omega,
      fun j h1 h2 => by omega⟩
  ⟨h5.2.2.1, h5.2.2.2.trans (by decide), h5.1.trans (h.1.trans (by decide))⟩

/-! ## The `rd` field of `mtc0`/`mfc0` -/

theorem or_eq_add_shift (a b k : Nat) (h : b < 2 ^ k) : a <<< k ||| b = a * 2 ^ k + b := by
  rw [Nat.shiftLeft_eq, Nat.mul_comm a (2 ^ k), ← Nat.mul_add_lt_is_or h a]

theorem be_word_eq (b0 b1 b2 b3 : Nat) (h1 : b1 < 256) (h2 : b2 < 256) (h3 : b3 < 256) :
    be_word b0 b1 b2 b3 = b0 * 16777216 + b1 * 65536 + b2 * 256 + b3 := by
  unfold be_word
  rw [Nat.lor_assoc, Nat.lor_assoc]
  have e3 : b2 <<< 8 ||| b3 = b2 * 256 + b3 := by
    rw [or_eq_add_shift b2 b3 8 (by omega)]
    norm_num
  have e2 : b1 <<< 16 ||| (b2 * 256 + b3) = b1 * 65536 + (b2 * 256 + b3) := by
    rw [or_eq_add_shift b1 _ 16 (by omega)]
    norm_num
  have e1 : b0 <<< 24 ||| (b1 * 65536 + (b2 * 256 + b3)) =
      b0 * 16777216 + (b1 * 65536 + (b2 * 256 + b3)) := by
    rw [or_eq_add_shift b0 _ 24 (by omega)]
    norm_num
  rw [e3, e2, e1]
  omega

set_option maxRecDepth 100000 in
theorem and_f8_shr (b : Nat) (h : b < 256) : (b &&& 0xF8) >>> 3 = b / 8 := by
  revert b
  decide

theorem and_1f (x : Nat) : x &&& 0x1F = x % 32 := by
  have h := Nat.and_pow_two_sub_one_eq_mod x 5
  norm_num at h
  exact h

theorem emit_insn_cop0 (env : Env) (st : disasm_state) (i : Nat) (out : String)
    (hj : (insn_at st i).grp_jump = false)
    (hid : (insn_at st i).id = .MTC0 ∨ (insn_at st i).id = .MFC0) :
    emit_insn env st i out =
      some (out ++ fmt_pad5 (insn_at st i).mnemonic ++ " $" ++
        env.cs_reg_name (operand (insn_at st i) 0).reg ++ ", $" ++
        fmt_d ((cop0_rd (insn_at st i) : Nat) : Int) ++ "\n") := by
  unfold emit_insn cop0_rd
  have h1 : ¬ ((insn_at st i).id = .JAL ∨ (insn_at st i).id = .BAL) := by
    rcases hid with h | h <;> (rw [h]; decide)
  simp only [hj, Bool.false_eq_true, if_false, h1, hid, if_true]

/-- C22: for an `mtc0`/`mfc0` record (not in the JUMP group) whose raw bytes are
`b0, b1, b2, b3`, with big-endian word `w = b0<<24 | b1<<16 | b2<<8 | b3`: the value
pass two prints as second operand, `(b2 & 0xF8) >> 3`, equals `(w >> 11) & 0x1F`, bits
15..11 of `w`, and is below 32; the text written is
`"%-5s $<regname>, $<that value>\n"`. -/
theorem cop0_rd_field (env : Env) (st : disasm_state) (i : Nat) (out : String)
    (b0 b1 b2 b3 : Nat) (hb : b0 < 256 ∧ b1 < 256 ∧ b2 < 256 ∧ b3 < 256)
    (hbytes : (insn_at st i).bytes = [b0, b1, b2, b3])
    (hj : (insn_at st i).grp_jump = false)
    (hid : (insn_at st i).id = .MTC0 ∨ (insn_at st i).id = .MFC0) :
    cop0_rd (insn_at st i) = (b2 &&& 0xF8) >>> 3 ∧
    cop0_rd (insn_at st i) = (be_word b0 b1 b2 b3 >>> 11) &&& 0x1F ∧
    cop0_rd (insn_at st i) < 32 ∧
    emit_insn env st i out =
      some (out ++ fmt_pad5 (insn_at st i).mnemonic ++ " $" ++
        env.cs_reg_name (operand (insn_at st i) 0).reg ++ ", $" ++
        fmt_d (((be_word b0 b1 b2 b3 >>> 11) &&& 0x1F : Nat) : Int) ++ "\n") := by
  have h1 : cop0_rd (insn_at st i) = (b2 &&& 0xF8) >>> 3 := by
    unfold cop0_rd
    rw [hbytes]
    rfl
  have h2 : (b2 &&& 0xF8) >>> 3 = (be_word b0 b1 b2 b3 >>> 11) &&& 0x1F := by
    rw [and_f8_shr b2 hb.2.2.1, and_1f, Nat.shiftRight_eq_div_pow,
      be_word_eq b0 b1 b2 b3 hb.2.1 hb.2.2.1 hb.2.2.2]
    norm_num
    omega
  refine ⟨h1, h1.trans h2, ?_, ?_⟩
  · rw [h1, and_f8_shr b2 hb.2.2.1]
    omega
  · rw [emit_insn_cop0 env st i out hj hid, h1, h2]

/-- The word `0x40886000` (`mtc0 $t0, $12`): pass two prints `$12`. -/
theorem cop0_rd_field_witness :
    cop0_rd (insn_at sample_cop0_state 0) = 12 ∧
    emit_insn (sample_env []) sample_cop0_state 0 "" = some "mtc0  $t0, $12\n" :=
  have h := cop0_rd_field (sample_env []) sample_cop0_state 0 "" 64 136 96 0
    (by decide) (by decide) (by decide) (by decide)
  ⟨h.1.trans (by decide), h.2.2.2.trans (by decide)⟩

/-! ## The text of pass two, instruction by instruction -/

theorem insn_vaddr_succ (base i : Nat) :
    (insn_vaddr base i + 4) % 4294967296 = insn_vaddr base (i + 1) := by
  unfold insn_vaddr
  omega

theorem pass2_loop_lines (env : Env) (st : disasm_state) (n : Nat) :
    ∀ (i : Nat) (out : String),
      (∀ k, i ≤ k → k < i + n → emit_insn env st k "" ≠ none) →
      pass2_loop env st n i (insn_vaddr st.vaddr i) (label_cursor st i) out =
        some (out ++ concat_lines ((List.range' i n).map (line_text env st))) := by
  induction n with
  | zero =>
    intro i out _
    simp [pass2_loop, concat_lines]
  | succ n ih =>
    intro i out hok
    rw [pass2_loop_succ]
    cases hb : emit_insn env st i "" with
    | none => exact absurd hb (hok i (le_refl i) (by omega))
    | some body =>
      rw [Option.some_bind, insn_vaddr_succ]
      have hc : (emit_labels (insn_vaddr st.vaddr i) (label_cursor st i) "").2 =
          label_cursor st (i + 1) := rfl
      rw [hc, ih (i + 1) _ (fun k h1 h2 => hok k (by omega) (by omega))]
      rw [List.range'_succ, List.map_cons, concat_lines]
      have hl : line_text env st i =
          (if (extra_at st i).newline ≠ 0 then "\n" else "") ++
            (emit_labels (insn_vaddr st.vaddr i) (label_cursor st i) "").1 ++
            byte_comment (insn_vaddr st.vaddr i) (insn_at st i) ++ body := by
        unfold line_text line_head line_body
        rw [hb]
        rfl
      rw [hl]
      simp only [String.append_assoc]

theorem pass2_loop_fails (env : Env) (st : disasm_state) (n : Nat) :
    ∀ (i v : Nat) (rest : List asm_label) (out : String),
      (∃ k, i ≤ k ∧ k < i + n ∧ emit_insn env st k "" = none) →
      pass2_loop env st n i v rest out = none := by
  induction n with
  | zero =>
    rintro i v rest out ⟨k, h1, h2, _⟩
    omega
  | succ n ih =>
    rintro i v rest out ⟨k, h1, h2, h3⟩
    rw [pass2_loop_succ]
    cases hb : emit_insn env st i "" with
    | none => rfl
    | some body =>
      rw [Option.some_bind]
      apply ih
      refine ⟨k, ?_, by omega, h3⟩
      by_contra hc
      have : k = i := by omega
      subst this
      rw [hb] at h3
      exact absurd h3 (by simp)

theorem ends_nl (x : String) : ∃ t, x ++ "\n" = t ++ "\n" := ⟨x, rfl⟩

theorem ends_paren_nl (x : String) : ∃ t, x ++ ")\n" = t ++ "\n" :=
  ⟨x ++ ")", by rw [String.append_assoc]; rfl⟩

theorem map_ends_nl (ln : Option String) (f : String → String) (body : String)
    (hf : ∀ nm, ∃ t, f nm = t ++ "\n") (h : ln.map f = some body) :
    ∃ t, body = t ++ "\n" := by
  cases ln with
  | none => exact absurd h (by simp)
  | some nm =>
    simp only [Option.map_some', Option.some.injEq] at h
    rw [← h]
    exact hf nm

theorem some_ends_nl (x body : String) (hx : ∃ t, x = t ++ "\n") (h : some x = some body) :
    ∃ t, body = t ++ "\n" := by
  simp only [Option.some.injEq] at h
  rw [← h]
  exact hx

theorem emit_linked_newline (env : Env) (st : disasm_state) (i : Nat) (insn : cs_insn)
    (l : Int) (out body : String) (h : emit_linked env st i insn l out = some body) :
    ∃ t, body = t ++ "\n" := by
  unfold emit_linked at h
  simp only [] at h
  generalize label_name st (label_find st (extra_at st i).linked_value) = ln at h
  generalize (insn_at st l.toNat).id = lid at h
  generalize st.syntax_ = syn at h
  by_cases h1 : insn.id = .LI
  · simp only [h1, if_true] at h
    cases syn <;> exact some_ends_nl _ _ (ends_nl _) h
  · simp only [h1, if_false] at h
    by_cases h2 : insn.id = .LUI
    · simp only [h2, if_true] at h
      cases syn
      · exact map_ends_nl _ _ _ (fun nm => ends_paren_nl _) h
      · cases lid <;>
          first
          | exact map_ends_nl _ _ _ (fun nm => ends_paren_nl _) h
          | exact map_ends_nl _ _ _ (fun nm => ends_nl _) h
          | exact some_ends_nl _ _ (ends_nl _) h
    · simp only [h2, if_false] at h
      by_cases h3 : insn.id = .ADDIU ∨ insn.id = .ORI
      · simp only [h3, if_true] at h
        cases syn
        · exact map_ends_nl _ _ _ (fun nm => ends_paren_nl _) h
        · by_cases h4 : insn.id = .ADDIU
          · simp only [h4, if_true] at h
            exact map_ends_nl _ _ _ (fun nm => ends_nl _) h
          · simp only [h4, if_false] at h
            exact some_ends_nl _ _ (ends_nl _) h
      · simp only [h3, if_false] at h
        exact map_ends_nl _ _ _ (fun nm => ends_paren_nl _) h

theorem emit_insn_newline (env : Env) (st : disasm_state) (i : Nat) (out body : String)
    (hcall : (insn_at st i).grp_jump = false →
      ((insn_at st i).id = .JAL ∨ (insn_at st i).id = .BAL) →
      has_label st.labels (to_u32 (operand (insn_at st i) 0).imm))
    (h : emit_insn env st i out = some body) : ∃ t, body = t ++ "\n" := by
  unfold emit_insn at h
  simp only [] at h
  by_cases hj : (insn_at st i).grp_jump = true
  · rw [if_pos hj] at h
    cases ho : emit_jump_operands env st (insn_at st i).operands 0
        (out ++ fmt_pad5 (insn_at st i).mnemonic ++ " ") with
    | none =>
      rw [ho] at h
      exact absurd h (by simp)
    | some o =>
      rw [ho] at h
      exact some_ends_nl _ _ (ends_nl _) h
  · rw [if_neg hj] at h
    by_cases hid : (insn_at st i).id = .JAL ∨ (insn_at st i).id = .BAL
    · rw [if_pos hid] at h
      have hhas := hcall (by simpa using hj) hid
      have hge : label_find st (to_u32 (operand (insn_at st i) 0).imm) ≥ 0 := by
        by_contra hc
        exact ((label_find_neg st _).mp (by omega)) hhas
      rw [if_pos hge] at h
      exact map_ends_nl _ _ _ (fun nm => ends_nl _) h
    · rw [if_neg hid] at h
      by_cases hc : (insn_at st i).id = .MTC0 ∨ (insn_at st i).id = .MFC0
      · rw [if_pos hc] at h
        exact some_ends_nl _ _ (ends_nl _) h
      · rw [if_neg hc] at h
        by_cases hl : (extra_at st i).linked_insn ≥ 0
        · rw [if_pos hl] at h
          exact emit_linked_newline env st i _ _ _ _ h
        · rw [if_neg hl] at h
          exact some_ends_nl _ _ (ends_nl _) h

/-- The target of a call (a `jal` or `bal` outside the JUMP group) has a label in the
table pass one returns. -/
theorem pass1_call_label (env : Env) (data : List Nat) (vaddr : Nat) (syn : asm_syntax)
    (mp : Bool) (st : Option disasm_state) (i : Nat)
    (hi : i < (env.cs_disasm data vaddr).length)
    (hj : (insn_at (mipsdisasm_pass1 env data vaddr syn mp st) i).grp_jump = false)
    (hid : (insn_at (mipsdisasm_pass1 env data vaddr syn mp st) i).id = .JAL ∨
      (insn_at (mipsdisasm_pass1 env data vaddr syn mp st) i).id = .BAL) :
    has_label (mipsdisasm_pass1 env data vaddr syn mp st).labels
      (to_u32 (operand (insn_at (mipsdisasm_pass1 env data vaddr syn mp st) i) 0).imm) := by
  have hpos : 0 < (env.cs_disasm data vaddr).length := by omega
  rw [insn_at_pass1 env data vaddr syn mp st i hpos] at hj hid ⊢
  obtain ⟨_, _, g3, g4⟩ := block_upto_insn env mp (env.cs_disasm data vaddr) vaddr
    (pass1_entry syn st) (env.cs_disasm data vaddr).length i
  rw [block_upto_operand]
  have hdec : insn_at (block_upto env mp (env.cs_disasm data vaddr) vaddr (pass1_entry syn st)
      (env.cs_disasm data vaddr).length) i = (env.cs_disasm data vaddr).getD i zero_insn := by
    rcases g4 with e | ⟨e, _⟩
    · exact e
    · rcases hid with h | h <;> (rw [e] at h; exact absurd h (by decide))
  rw [hdec] at hj hid
  have hs1 : insn_at (upd_extra
      (block_upto env mp (env.cs_disasm data vaddr) vaddr (pass1_entry syn st) i) i
      (fun e => { e with linked_insn := -1 })) i = (env.cs_disasm data vaddr).getD i zero_insn := by
    rw [insn_at_upd_extra]
    exact block_upto_insn_ge env mp _ vaddr _ i i (Nat.le_refl i)
  have hpost : block_upto env mp (env.cs_disasm data vaddr) vaddr (pass1_entry syn st) (i + 1) =
      label_step env (upd_extra
        (block_upto env mp (env.cs_disasm data vaddr) vaddr (pass1_entry syn st) i) i
        (fun e => { e with linked_insn := -1 })) i := by
    rw [block_upto_succ, insn_step_eq]
    split_ifs
    · apply pseudo_step_call
      rw [insn_at_label_step, hs1]
      exact hid
    · rfl
  have hsub := block_upto_subset_pass1 env data vaddr syn mp st (i + 1) (by omega)
  rw [hpost, label_step_call env _ i (by rw [hs1]; exact hj) (by rw [hs1]; exact hid), hs1,
    label_find_upd_extra] at hsub
  by_cases hf : label_find
      (block_upto env mp (env.cs_disasm data vaddr) vaddr (pass1_entry syn st) i)
      (to_u32 (operand ((env.cs_disasm data vaddr).getD i zero_insn) 0).imm) < 0
  · rw [if_pos hf] at hsub
    exact ⟨_, hsub _ (List.mem_append_right _ (List.mem_singleton_self _)), rfl⟩
  · rw [if_neg hf] at hsub
    have hyes : has_label
        (block_upto env mp (env.cs_disasm data vaddr) vaddr (pass1_entry syn st) i).labels
        (to_u32 (operand ((env.cs_disasm data vaddr).getD i zero_insn) 0).imm) := by
      by_contra hc
      exact hf ((label_find_neg _ _).mpr hc)
    obtain ⟨l, hl, hv⟩ := hyes
    exact ⟨l, hsub l hl, hv⟩

theorem pass1_vaddr (env : Env) (data : List Nat) (vaddr : Nat) (syn : asm_syntax)
    (mp : Bool) (st : Option disasm_state) (h : 0 < (env.cs_disasm data vaddr).length) :
    (mipsdisasm_pass1 env data vaddr syn mp st).vaddr = vaddr := by
  rw [pass1_eq, disassemble_block_eq env data vaddr _ mp h]
  exact block_upto_vaddr env mp _ vaddr _ _

theorem byte_comment_bytes (v : Nat) (a b : cs_insn) (h : a.bytes = b.bytes) :
    byte_comment v a = byte_comment v b := by
  unfold byte_comment
  rw [h]

/-- Where no instruction's emission reads `labels[-1]`, `mipsdisasm_pass2` gives the
texts of the instructions in stream order, each made of head, byte comment and body;
where one does, it gives none. -/
theorem pass2_lines_defined (env : Env) (data : List Nat) (vaddr : Nat) (syn : asm_syntax)
    (mp : Bool) (st : Option disasm_state) (out : String)
    (hpos : 0 < (env.cs_disasm data vaddr).length) (hv : vaddr < 4294967296) :
    ((∀ i, i < (env.cs_disasm data vaddr).length →
        emit_insn env (mipsdisasm_pass1 env data vaddr syn mp st) i "" ≠ none) →
      mipsdisasm_pass2 env out (mipsdisasm_pass1 env data vaddr syn mp st) =
        some (out ++ concat_lines ((List.range (env.cs_disasm data vaddr).length).map
          (line_text env (mipsdisasm_pass1 env data vaddr syn mp st))))) ∧
    ((∃ i, i < (env.cs_disasm data vaddr).length ∧
        emit_insn env (mipsdisasm_pass1 env data vaddr syn mp st) i "" = none) →
      mipsdisasm_pass2 env out (mipsdisasm_pass1 env data vaddr syn mp st) = none) ∧
    (∀ i, i < (env.cs_disasm data vaddr).length →
      line_text env (mipsdisasm_pass1 env data vaddr syn mp st) i =
        line_head (mipsdisasm_pass1 env data vaddr syn mp st) i ++
          ("/* " ++ fmt_08X ((vaddr + 4 * i) % 4294967296) ++ " " ++
            fmt_02X (((env.cs_disasm data vaddr).getD i zero_insn).bytes.getD 0 0) ++
            fmt_02X (((env.cs_disasm data vaddr).getD i zero_insn).bytes.getD 1 0) ++
            fmt_02X (((env.cs_disasm data vaddr).getD i zero_insn).bytes.getD 2 0) ++
            fmt_02X (((env.cs_disasm data vaddr).getD i zero_insn).bytes.getD 3 0) ++
            " */  ") ++
          line_body env (mipsdisasm_pass1 env data vaddr syn mp st) i) ∧
    (∀ i body, i < (env.cs_disasm data vaddr).length →
      emit_insn env (mipsdisasm_pass1 env data vaddr syn mp st) i "" = some body →
      line_body env (mipsdisasm_pass1 env data vaddr syn mp st) i = body ∧
      ∃ t, body = t ++ "\n") := by
  have hva := pass1_vaddr env data vaddr syn mp st hpos
  have hcnt := pass1_instruction_count env data vaddr syn mp st hpos
  have h0 : insn_vaddr (mipsdisasm_pass1 env data vaddr syn mp st).vaddr 0 =
      (mipsdisasm_pass1 env data vaddr syn mp st).vaddr := by
    unfold insn_vaddr
    rw [hva]
    omega
  refine ⟨?_, ?_, ?_, ?_⟩
  · intro hok
    unfold mipsdisasm_pass2
    rw [hcnt, List.range_eq_range']
    have := pass2_loop_lines env (mipsdisasm_pass1 env data vaddr syn mp st)
      (env.cs_disasm data vaddr).length 0 out (fun k _ h2 => hok k (by omega))
    rw [h0] at this
    exact this
  · rintro ⟨i, hi, hn⟩
    unfold mipsdisasm_pass2
    rw [hcnt]
    exact pass2_loop_fails env _ _ 0 _ _ out ⟨i, Nat.zero_le i, by omega, hn⟩
  · intro i hi
    unfold line_text
    rw [hva, insn_at_pass1 env data vaddr syn mp st i hpos,
      byte_comment_bytes _ _ ((env.cs_disasm data vaddr).getD i zero_insn)
        (block_upto_insn env mp _ vaddr _ _ i).2.1]
    rfl
  · intro i body hi hb
    refine ⟨?_, ?_⟩
    · unfold line_body
      rw [hb]
      rfl
    · exact emit_insn_newline env _ i "" body
        (fun hj hid => pass1_call_label env data vaddr syn mp st i hi hj hid) hb

/-! ## The text of pass two for every state -/

theorem label_text_of_some (stray : String) (st : disasm_state) (l : Int) (nm : String)
    (h : label_name st l = some nm) : label_text stray st l = nm := by
  unfold label_text
  rw [h]
  rfl

theorem write_jump_operands_of_emit (stray : String) (env : Env) (st : disasm_state)
    (ops : List cs_mips_op) :
    ∀ (o : Nat) (out r : String), emit_jump_operands env st ops o out = some r →
      write_jump_operands stray env st ops o out = r := by
  induction ops with
  | nil =>
    intro o out r h
    simp only [emit_jump_operands, Option.some.injEq] at h
    exact h
  | cons op rest ih =>
    intro o out r h
    unfold emit_jump_operands at h
    unfold write_jump_operands
    simp only [] at h ⊢
    cases ht : op.type <;> rw [ht] at h <;> simp only [] at h ⊢
    · exact ih _ _ _ h
    · exact ih _ _ _ h
    · cases hn : label_name st (label_find st (to_u32 op.imm)) with
      | none =>
        rw [hn] at h
        exact absurd h (by simp)
      | some nm =>
        rw [hn] at h
        rw [label_text_of_some stray st _ nm hn]
        exact ih _ _ _ h
    · exact ih _ _ _ h

theorem map_some_getD (ln : Option String) (f : String → String) (stray r : String)
    (h : ln.map f = some r) : f (ln.getD stray) = r := by
  cases ln with
  | none => exact absurd h (by simp)
  | some nm =>
    simp only [Option.map_some', Option.some.injEq] at h
    exact h

theorem write_linked_of_emit (stray : String) (env : Env) (st : disasm_state) (i : Nat)
    (insn : cs_insn) (l : Int) (out r : String)
    (h : emit_linked env st i insn l out = some r) :
    write_linked stray env st i insn l out = r := by
  unfold emit_linked at h
  unfold write_linked label_text
  simp only [] at h ⊢
  generalize label_name st (label_find st (extra_at st i).linked_value) = ln at h ⊢
  generalize (insn_at st l.toNat).id = lid at h ⊢
  generalize st.syntax_ = syn at h ⊢
  by_cases h1 : insn.id = .LI
  · simp only [h1, if_true] at h ⊢
    cases syn <;> (simp only [Option.some.injEq] at h; exact h)
  · simp only [h1, if_false] at h ⊢
    by_cases h2 : insn.id = .LUI
    · simp only [h2, if_true] at h ⊢
      cases syn
      · exact map_some_getD ln _ stray r h
      · cases lid <;>
          first
          | exact map_some_getD ln _ stray r h
          | (simp only [Option.some.injEq] at h; exact h)
    · simp only [h2, if_false] at h ⊢
      by_cases h3 : insn.id = .ADDIU ∨ insn.id = .ORI
      · simp only [h3, if_true] at h ⊢
        cases syn
        · exact map_some_getD ln _ stray r h
        · by_cases h4 : insn.id = .ADDIU
          · simp only [h4, if_true] at h ⊢
            exact map_some_getD ln _ stray r h
          · simp only [h4, if_false] at h ⊢
            simp only [Option.some.injEq] at h
            exact h
      · simp only [h3, if_false] at h ⊢
        exact map_some_getD ln _ stray r h

theorem write_insn_of_emit (stray : String) (env : Env) (st : disasm_state) (i : Nat)
    (out r : String) (h : emit_insn env st i out = some r) :
    write_insn stray env st i out = r := by
  unfold emit_insn at h
  unfold write_insn
  simp only [] at h ⊢
  by_cases hj : (insn_at st i).grp_jump = true
  · rw [if_pos hj] at h ⊢
    cases ho : emit_jump_operands env st (insn_at st i).operands 0
        (out ++ fmt_pad5 (insn_at st i).mnemonic ++ " ") with
    | none =>
      rw [ho] at h
      exact absurd h (by simp)
    | some o =>
      rw [ho] at h
      simp only [Option.some.injEq] at h
      rw [write_jump_operands_of_emit stray env st _ _ _ _ ho]
      exact h
  · rw [if_neg hj] at h ⊢
    by_cases hid : (insn_at st i).id = .JAL ∨ (insn_at st i).id = .BAL
    · rw [if_pos hid] at h ⊢
      by_cases hge : label_find st (to_u32 (operand (insn_at st i) 0).imm) ≥ 0
      · rw [if_pos hge] at h ⊢
        unfold label_text
        exact map_some_getD _ _ stray r h
      · rw [if_neg hge] at h ⊢
        simp only [Option.some.injEq] at h
        exact h
    · rw [if_neg hid] at h ⊢
      by_cases hc : (insn_at st i).id = .MTC0 ∨ (insn_at st i).id = .MFC0
      · rw [if_pos hc] at h ⊢
        simp only [Option.some.injEq] at h
        exact h
      · rw [if_neg hc] at h ⊢
        by_cases hl : (extra_at st i).linked_insn ≥ 0
        · rw [if_pos hl] at h ⊢
          exact write_linked_of_emit stray env st i _ _ _ _ h
        · rw [if_neg hl] at h ⊢
          simp only [Option.some.injEq] at h
          exact h

theorem write_loop_of_pass2 (stray : Nat → String) (env : Env) (st : disasm_state) (n : Nat) :
    ∀ (i v : Nat) (rest : List asm_label) (out r : String),
      pass2_loop env st n i v rest out = some r →
      write_loop stray env st n i v rest out = r := by
  induction n with
  | zero =>
    intro i v rest out r h
    simp only [pass2_loop, Option.some.injEq] at h
    exact h
  | succ n ih =>
    intro i v rest out r h
    rw [pass2_loop] at h
    rw [write_loop]
    cases hb : emit_insn env st i
        ((emit_labels v rest (if (extra_at st i).newline ≠ 0 then out ++ "\n" else out)).1 ++
          byte_comment v (insn_at st i)) with
    | none =>
      rw [hb] at h
      exact absurd h (by simp)
    | some o =>
      rw [hb] at h
      rw [write_insn_of_emit (stray i) env st i _ o hb]
      exact ih _ _ _ _ _ h

/-- Where the lookups of pass two succeed, the text written is the text of
`mipsdisasm_pass2`, whatever `stray` is. -/
theorem pass2_text_of_pass2 (stray : Nat → String) (env : Env) (out r : String)
    (st : disasm_state) (h : mipsdisasm_pass2 env out st = some r) :
    mipsdisasm_pass2_text stray env out st = r :=
  write_loop_of_pass2 stray env st _ _ _ _ _ _ h

theorem write_jump_operands_append (stray : String) (env : Env) (st : disasm_state)
    (ops : List cs_mips_op) (o : Nat) (out : String) :
    write_jump_operands stray env st ops o out =
      out ++ write_jump_operands stray env st ops o "" := by
  induction ops generalizing o out with
  | nil => simp [write_jump_operands]
  | cons op rest ih =>
    unfold write_jump_operands
    simp only []
    cases op.type <;> simp only []
    · rw [ih, ih (o + 1) (if o > 0 then "" ++ ", " else "")]
      by_cases ho : o > 0 <;> simp [ho, String.append_assoc]
    · rw [ih, ih (o + 1) ((if o > 0 then "" ++ ", " else "") ++ "$" ++ env.cs_reg_name op.reg)]
      by_cases ho : o > 0 <;> simp [ho, String.append_assoc]
    · rw [ih, ih (o + 1) ((if o > 0 then "" ++ ", " else "") ++
        label_text stray st (label_find st (to_u32 op.imm)))]
      by_cases ho : o > 0 <;> simp [ho, String.append_assoc]
    · rw [ih, ih (o + 1) (if o > 0 then "" ++ ", " else "")]
      by_cases ho : o > 0 <;> simp [ho, String.append_assoc]

theorem write_linked_append (stray : String) (env : Env) (st : disasm_state) (i : Nat)
    (insn : cs_insn) (l : Int) (out : String) :
    write_linked stray env st i insn l out = out ++ write_linked stray env st i insn l "" := by
  unfold write_linked
  simp only []
  generalize label_text stray st (label_find st (extra_at st i).linked_value) = nm
  generalize (insn_at st l.toNat).id = lid
  generalize st.syntax_ = syn
  by_cases h1 : insn.id = .LI
  · simp only [h1, if_true]
    cases syn <;> simp [String.append_assoc]
  · simp only [h1, if_false]
    by_cases h2 : insn.id = .LUI
    · simp only [h2, if_true]
      cases syn
      · simp [String.append_assoc]
      · cases lid <;> simp [String.append_assoc]
    · simp only [h2, if_false]
      by_cases h3 : insn.id = .ADDIU ∨ insn.id = .ORI
      · simp only [h3, if_true]
        cases syn
        · simp [String.append_assoc]
        · by_cases h4 : insn.id = .ADDIU
          · simp only [h4, if_true]
            simp [String.append_assoc]
          · simp only [h4, if_false]
            simp [String.append_assoc]
      · simp only [h3, if_false]
        simp [String.append_assoc]

theorem write_insn_append (stray : String) (env : Env) (st : disasm_state) (i : Nat)
    (out : String) :
    write_insn stray env st i out = out ++ write_insn stray env st i "" := by
  unfold write_insn
  simp only []
  split_ifs
  · rw [write_jump_operands_append,
      write_jump_operands_append stray env st _ 0 ("" ++ fmt_pad5 (insn_at st i).mnemonic ++ " ")]
    simp [String.append_assoc]
  · simp [String.append_assoc]
  · simp [String.append_assoc]
  · simp [String.append_assoc]
  · rw [write_linked_append]
  · simp [String.append_assoc]

theorem write_linked_newline (stray : String) (env : Env) (st : disasm_state) (i : Nat)
    (insn : cs_insn) (l : Int) (out : String) :
    ∃ t, write_linked stray env st i insn l out = t ++ "\n" := by
  unfold write_linked
  simp only []
  generalize label_text stray st (label_find st (extra_at st i).linked_value) = nm
  generalize (insn_at st l.toNat).id = lid
  generalize st.syntax_ = syn
  by_cases h1 : insn.id = .LI
  · simp only [h1, if_true]
    cases syn <;> exact ends_nl _
  · simp only [h1, if_false]
    by_cases h2 : insn.id = .LUI
    · simp only [h2, if_true]
      cases syn
      · exact ends_paren_nl _
      · cases lid <;> first | exact ends_paren_nl _ | exact ends_nl _
    · simp only [h2, if_false]
      by_cases h3 : insn.id = .ADDIU ∨ insn.id = .ORI
      · simp only [h3, if_true]
        cases syn
        · exact ends_paren_nl _
        · by_cases h4 : insn.id = .ADDIU
          · simp only [h4, if_true]
            exact ends_nl _
          · simp only [h4, if_false]
            exact ends_nl _
      · simp only [h3, if_false]
        exact ends_paren_nl _

theorem write_insn_newline (stray : String) (env : Env) (st : disasm_state) (i : Nat)
    (out : String)
    (hcall : (insn_at st i).grp_jump = false →
      ((insn_at st i).id = .JAL ∨ (insn_at st i).id = .BAL) →
      has_label st.labels (to_u32 (operand (insn_at st i) 0).imm)) :
    ∃ t, write_insn stray env st i out = t ++ "\n" := by
  unfold write_insn
  simp only []
  by_cases hj : (insn_at st i).grp_jump = true
  · rw [if_pos hj]
    exact ends_nl _
  · rw [if_neg hj]
    by_cases hid : (insn_at st i).id = .JAL ∨ (insn_at st i).id = .BAL
    · rw [if_pos hid]
      have hhas := hcall (by simpa using hj) hid
      have hge : label_find st (to_u32 (operand (insn_at st i) 0).imm) ≥ 0 := by
        by_contra hc
        exact ((label_find_neg st _).mp (by omega)) hhas
      rw [if_pos hge]
      exact ends_nl _
    · rw [if_neg hid]
      by_cases hc : (insn_at st i).id = .MTC0 ∨ (insn_at st i).id = .MFC0
      · rw [if_pos hc]
        exact ends_nl _
      · rw [if_neg hc]
        by_cases hl : (extra_at st i).linked_insn ≥ 0
        · rw [if_pos hl]
          exact write_linked_newline stray env st i _ _ _
        · rw [if_neg hl]
          exact ends_nl _

theorem write_loop_lines (stray : Nat → String) (env : Env) (st : disasm_state) (n : Nat) :
    ∀ (i : Nat) (out : String),
      write_loop stray env st n i (insn_vaddr st.vaddr i) (label_cursor st i) out =
        out ++ concat_lines ((List.range' i n).map (written_line stray env st)) := by
  induction n with
  | zero =>
    intro i out
    simp [write_loop, concat_lines]
  | succ n ih =>
    intro i out
    rw [write_loop, insn_vaddr_succ, emit_labels_append, write_insn_append]
    have hc : (emit_labels (insn_vaddr st.vaddr i) (label_cursor st i) "").2 =
        label_cursor st (i + 1) := rfl
    rw [hc, ih (i + 1), List.range'_succ, List.map_cons, concat_lines]
    have hl : written_line stray env st i =
        (if (extra_at st i).newline ≠ 0 then "\n" else "") ++
          (emit_labels (insn_vaddr st.vaddr i) (label_cursor st i) "").1 ++
          byte_comment (insn_vaddr st.vaddr i) (insn_at st i) ++
          write_insn (stray i) env st i "" := rfl
    rw [hl]
    by_cases hnl : (extra_at st i).newline ≠ 0
    · rw [if_pos hnl, if_pos hnl]
      simp only [String.append_assoc]
    · rw [if_neg hnl, if_neg hnl]
      simp only [String.append_assoc, String.empty_append]

/-- C23: for the state pass one returns on a stream of `count > 0` instructions at a
32-bit base address, the text `mipsdisasm_pass2` writes is, for `i = 0 .. count - 1`
in stream order, the head of instruction `i` (blank line and labels), one byte
comment `"/* %08X %02X%02X%02X%02X */  "` of `(base + 4 i) mod 2^32` and the four raw
bytes of the decoded instruction `i`, and the text of the instruction, which ends
with `"\n"`. This holds for every state pass one returns, also where a lookup of pass
two fails (`stray i` is what the read outside the table then yields); where all
lookups succeed the text is the one `mipsdisasm_pass2` is defined to give. -/
theorem pass2_byte_comments (stray : Nat → String) (env : Env) (data : List Nat)
    (vaddr : Nat) (syn : asm_syntax) (mp : Bool) (st : Option disasm_state) (out : String)
    (hpos : 0 < (env.cs_disasm data vaddr).length) (hv : vaddr < 4294967296) :
    mipsdisasm_pass2_text stray env out (mipsdisasm_pass1 env data vaddr syn mp st) =
      out ++ concat_lines ((List.range (env.cs_disasm data vaddr).length).map (fun i =>
        line_head (mipsdisasm_pass1 env data vaddr syn mp st) i ++
          ("/* " ++ fmt_08X ((vaddr + 4 * i) % 4294967296) ++ " " ++
            fmt_02X (((env.cs_disasm data vaddr).getD i zero_insn).bytes.getD 0 0) ++
            fmt_02X (((env.cs_disasm data vaddr).getD i zero_insn).bytes.getD 1 0) ++
            fmt_02X (((env.cs_disasm data vaddr).getD i zero_insn).bytes.getD 2 0) ++
            fmt_02X (((env.cs_disasm data vaddr).getD i zero_insn).bytes.getD 3 0) ++
            " */  ") ++
          write_insn (stray i) env (mipsdisasm_pass1 env data vaddr syn mp st) i "")) ∧
    (∀ i, i < (env.cs_disasm data vaddr).length →
      ∃ t, write_insn (stray i) env (mipsdisasm_pass1 env data vaddr syn mp st) i "" =
        t ++ "\n") ∧
    (∀ res, mipsdisasm_pass2 env out (mipsdisasm_pass1 env data vaddr syn mp st) = some res →
      mipsdisasm_pass2_text stray env out (mipsdisasm_pass1 env data vaddr syn mp st) = res) := by
  have hva := pass1_vaddr env data vaddr syn mp st hpos
  have hcnt := pass1_instruction_count env data vaddr syn mp st hpos
  have h0 : insn_vaddr (mipsdisasm_pass1 env data vaddr syn mp st).vaddr 0 =
      (mipsdisasm_pass1 env data vaddr syn mp st).vaddr := by
    unfold insn_vaddr
    rw [hva]
    omega
  refine ⟨?_, ?_, fun res h => pass2_text_of_pass2 stray env out res _ h⟩
  · have hl := write_loop_lines stray env (mipsdisasm_pass1 env data vaddr syn mp st)
      (env.cs_disasm data vaddr).length 0 out
    rw [h0] at hl
    unfold mipsdisasm_pass2_text
    rw [hcnt, List.range_eq_range']
    refine hl.trans ?_
    congr 2
    apply List.map_congr_left
    intro i _
    unfold written_line
    rw [hva, insn_at_pass1 env data vaddr syn mp st i hpos,
      byte_comment_bytes _ _ ((env.cs_disasm data vaddr).getD i zero_insn)
        (block_upto_insn env mp _ vaddr _ _ i).2.1]
    rfl
  · intro i hi
    exact write_insn_newline (stray i) env _ i ""
      (fun hj hid => pass1_call_label env data vaddr syn mp st i hi hj hid)

set_option maxRecDepth 100000 in
/-- The stream `lui $at, 0x8024; ori $at, $at, 0x1000` under GAS, whose two lookups
fail: both byte comments are written and both lines end, with `?` for what the reads
outside the table yield; and the stream `lui $at, 0x8000; lb $t1, 1($at);
b 0x80000008; nop`, whose lookups succeed: four comments, the names of the labels
found. -/
theorem pass2_byte_comments_witness :
    mipsdisasm_pass2_text (fun _ => "?") (sample_env sample_lui_ori) ""
      (mipsdisasm_pass1 (sample_env sample_lui_ori) (stream_bytes sample_lui_ori)
        2147483648 .ASM_GAS true none) =
      "/* 80000000 3C018024 */  lui   $at, %hi(?)\n" ++
        "/* 80000004 34211000 */  ori   $at, %lo(?)\n" ∧
    mipsdisasm_pass2_text (fun _ => "?") (sample_env sample_unaligned) ""
      (mipsdisasm_pass1 (sample_env sample_unaligned) (stream_bytes sample_unaligned)
        2147483648 .ASM_GAS true none) =
      "/* 80000000 3C018000 */  lui   $at, %hi(D_80000001)\n" ++
        "/* 80000004 80290001 */  lb    $t1, %lo(D_80000001)($at)\n" ++
        "/* 80000008 1000FFFF */  b     .L80000008\n" ++
        "/* 8000000C 00000000 */  nop   \n" :=
  ⟨(pass2_byte_comments (fun _ => "?") (sample_env sample_lui_ori)
      (stream_bytes sample_lui_ori) 2147483648 .ASM_GAS true none ""
      (by decide) (by decide)).1.trans (by decide),
   (pass2_byte_comments (fun _ => "?") (sample_env sample_unaligned)
      (stream_bytes sample_unaligned) 2147483648 .ASM_GAS true none ""
      (by decide) (by decide)).1.trans (by decide)⟩
end Mipsdisasm
